import Mathlib

/-!
# Tic-tac-toe engine: board, strategies, players and orchestrator

A shallow embedding of `src/board.cpp` (class `tictactoe::Board`), of the strategies
(`src/minimaxai.cpp`, `src/randomai.cpp`, `src/aifactory.cpp`), of the players
(`src/humanplayer.cpp`, `src/computerplayer.cpp`) and of the orchestrator
(`src/tictactoe.cpp`), followed by theorems about them.

Conventions of the embedding

* C++ `int` values are Lean `Int`s.  Every integer the board code computes is a
  loop index below `size`, or `size - 1`, so no arithmetic there leaves the `int`
  range.  The one subtraction that can is `depth - 1` in `MinimaxAI::minimax`;
  signed overflow is undefined behaviour, so there it is the result `none`.
* `std::vector` is a `List`.  `operator[]` outside the vector is undefined
  behaviour and an allocation of negative length throws; both are the result
  `none` of the `Option`-valued operations below.  A result `some v` means that
  the C++ function ran to completion and returned `v`.
* A member function that mutates the board returns the new board.
* Calls to the logger are not part of the model.
-/

namespace tictactoe

/-! ## commondef.h -/

/-- The C++ `enum class Symbol { None, X, O }`. -/
inductive Symbol where
  | None
  | X
  | O
  deriving DecidableEq, Repr, Inhabited

/-- The two integer coordinates of a `QPoint`: `x` is the column, `y` the row. -/
structure QPoint where
  x : Int
  y : Int
  deriving DecidableEq, Repr

/-! ## std::vector primitives -/

/-- Reading `v[i]`: `none` when `i` is outside the vector. -/
def vecAt {α : Type} (v : List α) (i : Int) : Option α :=
  if i < 0 then none else v[i.toNat]?

/-- Writing `v[i] = a`: `none` when `i` is outside the vector. -/
def vecSet {α : Type} (v : List α) (i : Int) (a : α) : Option (List α) :=
  if i < 0 ∨ (v.length : Int) ≤ i then none else some (v.set i.toNat a)

/-- The call `v.resize(n, fill)`: keeps the first `n` elements and appends copies
of `fill` up to length `n`. -/
def vecResize {α : Type} (v : List α) (n : Nat) (fill : α) : List α :=
  v.take n ++ List.replicate (n - v.length) fill

/-- A `for` loop over the indices `is` whose body either has undefined behaviour
(`none`), leaves the enclosing function with a value (`some (some r)`), or falls
through to the next iteration (`some none`). -/
def loopUntil {β : Type} (body : Nat → Option (Option β)) : List Nat → Option (Option β)
  | [] => some none
  | i :: is =>
    match body i with
    | none => none
    | some (some r) => some (some r)
    | some none => loopUntil body is

/-! ## board.h / board.cpp -/

/-- The data members of `class Board`. -/
structure Board where
  size : Int
  board : List (List Symbol)
  deriving DecidableEq, Repr

/-- The expression `board[row][col]` as an rvalue. -/
def Board.cell (b : Board) (row col : Int) : Option Symbol :=
  (vecAt b.board row).bind (fun r => vecAt r col)

/-- The assignment `board[row][col] = s`. -/
def Board.setCell (b : Board) (row col : Int) (s : Symbol) : Option Board :=
  (vecAt b.board row).bind (fun r =>
    (vecSet r col s).bind (fun r1 =>
      (vecSet b.board row r1).map (fun g => Board.mk b.size g)))

/-- The constructor `Board::Board(int size_i)` (a definition named `Board.Board`
would shadow the type inside its own namespace). -/
def Board.construct (size_i : Int) : Option Board :=
  if size_i < 0 then none
  else some ⟨size_i, vecResize [] size_i.toNat (List.replicate size_i.toNat Symbol.None)⟩

/-- The first loop of `Board::startNewGame`: `board[row].resize(size, Symbol::None)`
for each `row` below `size`. -/
def resizeRows (n : Nat) (g : List (List Symbol)) : Option (List (List Symbol)) :=
  (List.range n).foldlM
    (fun g (row : Nat) =>
      (vecAt g row).bind (fun r => vecSet g row (vecResize r n Symbol.None))) g

/-- The second loop of `Board::startNewGame`: `board[row][col] = Symbol::None` for
all `row`, `col` below `size`. -/
def clearCells (b : Board) : Option Board :=
  (List.range b.size.toNat).foldlM
    (fun b1 (row : Nat) => (List.range b.size.toNat).foldlM
      (fun b2 (col : Nat) => b2.setCell row col Symbol.None) b1) b

/-- The member function `Board::startNewGame(int size_i)`. -/
def Board.startNewGame (b : Board) (size_i : Int) : Option Board :=
  (if size_i ≠ b.size then
      if size_i < 0 then none
      else (resizeRows size_i.toNat (vecResize b.board size_i.toNat [])).map (Board.mk size_i)
    else some b).bind clearCells

/-- The member function `Board::makeMove(const QPoint& pos, Symbol symbol)`: the
returned flag together with the board after the call. -/
def Board.makeMove (b : Board) (pos : QPoint) (symbol : Symbol) : Option (Bool × Board) :=
  let row := pos.y
  let col := pos.x
  if row < 0 ∨ row ≥ b.size ∨ col < 0 ∨ col ≥ b.size then some (false, b)
  else
    match b.cell row col with
    | none => none
    | some c =>
      if c ≠ Symbol.None then some (false, b)
      else (b.setCell row col symbol).map (fun b1 => (true, b1))

/-- The member function `Board::checkSequence`. -/
def Board.checkSequence (b : Board) (symbol : Symbol) (startRow startCol dRow dCol : Int) :
    Option Bool :=
  (loopUntil
    (fun i =>
      let row := startRow + (i : Int) * dRow
      let col := startCol + (i : Int) * dCol
      if row < 0 ∨ row ≥ b.size ∨ col < 0 ∨ col ≥ b.size then some (some false)
      else
        match b.cell row col with
        | none => none
        | some c => if c ≠ symbol then some (some false) else some none)
    (List.range' 1 (b.size.toNat - 1))).map (fun r => r.getD true)

/-- The body of the row loop of `Board::checkForWinner`. -/
def Board.checkRow (b : Board) (row : Nat) : Option (Option Symbol) :=
  (b.cell row 0).bind (fun first =>
    (b.checkSequence first row 0 0 1).bind (fun ok =>
      if ok && first != Symbol.None then some (some first) else some none))

/-- The body of the column loop of `Board::checkForWinner`. -/
def Board.checkCol (b : Board) (col : Nat) : Option (Option Symbol) :=
  (b.cell 0 col).bind (fun first =>
    (b.checkSequence first 0 col 1 0).bind (fun ok =>
      if ok && first != Symbol.None then some (some first) else some none))

/-- The top-left to bottom-right diagonal test of `Board::checkForWinner`. -/
def Board.checkDiag (b : Board) : Option (Option Symbol) :=
  (b.cell 0 0).bind (fun first =>
    (b.checkSequence first 0 0 1 1).bind (fun ok =>
      if ok && first != Symbol.None then some (some first) else some none))

/-- The top-right to bottom-left diagonal test of `Board::checkForWinner`. -/
def Board.checkAnti (b : Board) : Option (Option Symbol) :=
  (b.cell 0 (b.size - 1)).bind (fun first =>
    (b.checkSequence first 0 (b.size - 1) 1 (-1)).bind (fun ok =>
      if ok && first != Symbol.None then some (some first) else some none))

/-- The member function `Board::isBoardFull`. -/
def Board.isBoardFull (b : Board) : Option Bool :=
  (loopUntil
    (fun row => loopUntil
      (fun col =>
        match b.cell row col with
        | none => none
        | some c => if Symbol.None = c then some (some false) else some none)
      (List.range b.size.toNat))
    (List.range b.size.toNat)).map (fun r => r.getD true)

/-- The member function `Board::checkForWinner`. -/
def Board.checkForWinner (b : Board) : Option Symbol :=
  (loopUntil b.checkRow (List.range b.size.toNat)).bind (fun r1 =>
    match r1 with
    | some w => some w
    | none =>
      (loopUntil b.checkCol (List.range b.size.toNat)).bind (fun r2 =>
        match r2 with
        | some w => some w
        | none =>
          b.checkDiag.bind (fun r3 =>
            match r3 with
            | some w => some w
            | none =>
              b.checkAnti.bind (fun r4 =>
                match r4 with
                | some w => some w
                | none =>
                  b.isBoardFull.bind (fun full =>
                    if full then some Symbol.None else some Symbol.None)))))

/-- The member function `Board::isEmpty(const QPoint& pos)`. -/
def Board.isEmpty (b : Board) (pos : QPoint) : Option Bool :=
  let row := pos.y
  let col := pos.x
  if row ≥ 0 ∧ row < b.size ∧ col ≥ 0 ∧ col < b.size then
    (b.cell row col).map (fun c => decide (Symbol.None = c))
  else some false

/-- The member function `Board::getOpponent(Symbol symbol)`. -/
def Board.getOpponent (_b : Board) (symbol : Symbol) : Symbol :=
  if Symbol.X = symbol then Symbol.O
  else if Symbol.O = symbol then Symbol.X
  else Symbol.None

/-! ## More of commondef.h -/

/-- The constant `std::numeric_limits<int>::max()`. -/
def INT_MAX : Int := 2147483647

/-- The constant `std::numeric_limits<int>::min()`, the least value of an `int`. -/
def INT_MIN : Int := -2147483648

/-- The constant `DEFAULT_MAX_SCORE`. -/
def DEFAULT_MAX_SCORE : Int := 10

/-- The constant `DEFAULT_MIN_SCORE`. -/
def DEFAULT_MIN_SCORE : Int := -10

/-- The C++ `enum class Player_Type : int { COMPUTER, HUMAN, UNKNOWN }`. -/
inductive Player_Type where
  | COMPUTER
  | HUMAN
  | UNKNOWN
  deriving DecidableEq, Repr

/-- A value of `enum class GameLevel : int`, given by its underlying integer: a
caller can pass any `int` through `static_cast<GameLevel>`. -/
structure GameLevel where
  raw : Int
  deriving DecidableEq, Repr

/-- The enumerator `GameLevel::EASY`. -/
def GameLevel.EASY : GameLevel := ⟨0⟩

/-- The enumerator `GameLevel::MEDIUM`. -/
def GameLevel.MEDIUM : GameLevel := ⟨1⟩

/-- The enumerator `GameLevel::HARD`. -/
def GameLevel.HARD : GameLevel := ⟨5⟩

/-- The enumerator `GameLevel::EXPERT`. -/
def GameLevel.EXPERT : GameLevel := ⟨10⟩

/-- The enumerator `GameLevel::MASTER`. -/
def GameLevel.MASTER : GameLevel := ⟨20⟩

/-- A value of `enum class AIType { Random, Minimax }`, given by its underlying
integer. -/
structure AIType where
  raw : Int
  deriving DecidableEq, Repr

/-- The enumerator `AIType::Random`. -/
def AIType.Random : AIType := ⟨0⟩

/-- The enumerator `AIType::Minimax`. -/
def AIType.Minimax : AIType := ⟨1⟩

/-! ## gameai.h, minimaxai.cpp, randomai.cpp, aifactory.cpp

The recursion of `MinimaxAI::minimax` and the loop of `RandomAI::makeMove` need not
end, so both take a number `fuel` of nested calls (of iterations) they may use.  The
result `none` then means undefined behaviour or that the fuel did not suffice;
`some v` means that the C++ function returned `v`.  The search depth is an `int`: it
falls by one per nested call, and `depth - 1` below `INT_MIN` is signed overflow, which
is undefined.
-/

/-- The dynamic type of a `GameAI` object. -/
inductive AIKind where
  | Random
  | Minimax
  deriving DecidableEq, Repr

/-- A `GameAI` object: its dynamic type and the member `level`. -/
structure GameAI where
  kind : AIKind
  level : GameLevel
  deriving DecidableEq, Repr

/-- The constructors `RandomAI::RandomAI()` and `MinimaxAI::MinimaxAI()`: the base
constructor `GameAI::GameAI()` sets `level(GameLevel::EASY)`. -/
def GameAI.new (kind : AIKind) : GameAI := ⟨kind, GameLevel.EASY⟩

/-- The member function `GameAI::setLevel`. -/
def GameAI.setLevel (ai : GameAI) (level_i : GameLevel) : GameAI := ⟨ai.kind, level_i⟩

/-- The member function `MinimaxAI::score`. -/
def MinimaxAI.score (board : Board) (symbol : Symbol) : Option Int :=
  board.checkForWinner.bind (fun winner =>
    if winner = symbol then some DEFAULT_MAX_SCORE
    else if board.getOpponent symbol = winner then some DEFAULT_MIN_SCORE
    else some 0)

/-- The member function `MinimaxAI::minimax`, with `fuel` nested calls available.  The
argument `depth - 1` of the nested call is computed in `int`: when it would lie below
`INT_MIN` the subtraction overflows and the behaviour is undefined. -/
def MinimaxAI.minimax : Nat → Board → Int → Bool → Symbol → Option Int
  | 0, _, _, _, _ => none
  | fuel + 1, board, depth, isMaximizing, symbol =>
    board.checkForWinner.bind (fun winner =>
      if Symbol.None ≠ winner then MinimaxAI.score board symbol
      else
        board.isBoardFull.bind (fun full =>
          if full then some 0
          else if 0 = depth then some 0
          else
            (List.range board.size.toNat).foldlM
              (fun (best : Int) (row : Nat) =>
                (List.range board.size.toNat).foldlM
                  (fun (bestScore : Int) (col : Nat) =>
                    (board.isEmpty ⟨col, row⟩).bind (fun empty =>
                      if empty then
                        (board.makeMove ⟨col, row⟩
                          (if isMaximizing then symbol else board.getOpponent symbol)).bind
                          (fun moved =>
                            (if depth - 1 < INT_MIN then none
                              else MinimaxAI.minimax fuel moved.2 (depth - 1) (!isMaximizing)
                                symbol).bind
                              (fun score_calc =>
                                if isMaximizing then some (max bestScore score_calc)
                                else some (min bestScore score_calc)))
                      else some bestScore))
                  best)
              (if isMaximizing then -INT_MAX else INT_MAX)))

/-- The member function `MinimaxAI::makeMove` of a strategy with the given `level`;
the pair carried through the loops is `(bestScore, bestMove)`. -/
def MinimaxAI.makeMove (fuel : Nat) (level : GameLevel) (board : Board) (symbol : Symbol) :
    Option QPoint :=
  ((List.range board.size.toNat).foldlM
    (fun (best : Int × QPoint) (row : Nat) =>
      (List.range board.size.toNat).foldlM
        (fun (st : Int × QPoint) (col : Nat) =>
          (board.isEmpty ⟨col, row⟩).bind (fun empty =>
            if empty then
              (board.makeMove ⟨col, row⟩ symbol).bind (fun moved =>
                (MinimaxAI.minimax fuel moved.2 level.raw false symbol).bind (fun score_calc =>
                  if score_calc > st.1 then some (score_calc, ⟨col, row⟩) else some st))
            else some st))
        best)
    (-INT_MAX, ⟨0, 0⟩)).map (fun st => st.2)

/-- The `do ... while` loop of `RandomAI::makeMove`, from its iteration `k` on, with
`fuel` iterations available; `rand i` is the value of the `i`-th call of `rand()`
after the seeding.  The operator `%` is undefined for a zero divisor. -/
def RandomAI.drawLoop (rand : Nat → Nat) (board : Board) : Nat → Nat → Option QPoint
  | 0, _ => none
  | fuel + 1, k =>
    if board.size = 0 then none
    else
      let row := Int.tmod (rand (2 * k)) board.size
      let col := Int.tmod (rand (2 * k + 1)) board.size
      match board.isEmpty ⟨col, row⟩ with
      | none => none
      | some true => some ⟨col, row⟩
      | some false => RandomAI.drawLoop rand board fuel (k + 1)

/-- The member function `RandomAI::makeMove`. -/
def RandomAI.makeMove (rand : Nat → Nat) (fuel : Nat) (board : Board) (_symbol : Symbol) :
    Option QPoint :=
  RandomAI.drawLoop rand board fuel 0

/-- The virtual call `ai->makeMove(board, symbol)`. -/
def GameAI.makeMove (rand : Nat → Nat) (fuel : Nat) (ai : GameAI) (board : Board)
    (symbol : Symbol) : Option QPoint :=
  match ai.kind with
  | AIKind.Random => RandomAI.makeMove rand fuel board symbol
  | AIKind.Minimax => MinimaxAI.makeMove fuel ai.level board symbol

/-- The function `AIFactory::createAI`: a null pointer for a type it does not know. -/
def AIFactory.createAI (type : AIType) : Option GameAI :=
  if type = AIType.Random then some (GameAI.new AIKind.Random)
  else if type = AIType.Minimax then some (GameAI.new AIKind.Minimax)
  else none

/-! ## player.h, humanplayer.cpp, computerplayer.cpp -/

/-- The data members of `class Player`; `ai` is a `unique_ptr` and may be null. -/
structure Player where
  ai : Option GameAI
  symbol : Symbol
  curPos : QPoint
  deriving DecidableEq, Repr

/-- The constructor `Player::Player(symbol, ai)`: `curPos(0, 0)`. -/
def Player.new (symbol : Symbol) (ai : Option GameAI) : Player := ⟨ai, symbol, ⟨0, 0⟩⟩

/-- The member function `Player::setSymbol`. -/
def Player.setSymbol (p : Player) (symbol_i : Symbol) : Player := ⟨p.ai, symbol_i, p.curPos⟩

/-- The member function `Player::setLevel`. -/
def Player.setLevel (p : Player) (level_i : GameLevel) : Player :=
  match p.ai with
  | some ai => ⟨some (ai.setLevel level_i), p.symbol, p.curPos⟩
  | none => p

/-- The member function `HumanPlayer::makeMove`: the returned flag, the player and the
board after the call. -/
def HumanPlayer.makeMove (p : Player) (pos : QPoint) (board : Board) :
    Option (Bool × Player × Board) :=
  if pos.x < 0 ∨ pos.x ≥ board.size ∨ pos.y < 0 ∨ pos.y ≥ board.size then
    some (false, p, board)
  else
    (board.makeMove pos p.symbol).map (fun r => (r.1, ⟨p.ai, p.symbol, pos⟩, r.2))

/-- The member function `HumanPlayer::changeAI`. -/
def HumanPlayer.changeAI (p : Player) (_aitype : AIType) : Bool × Player := (true, p)

/-- The member function `ComputerPlayer::makeMove`: the returned flag, the player and
the board after the call. -/
def ComputerPlayer.makeMove (rand : Nat → Nat) (fuel : Nat) (p : Player) (_point : QPoint)
    (board : Board) : Option (Bool × Player × Board) :=
  match p.ai with
  | some ai =>
    (ai.makeMove rand fuel board p.symbol).bind (fun move =>
      (board.makeMove move p.symbol).map (fun r => (r.1, ⟨p.ai, p.symbol, move⟩, r.2)))
  | none => some (false, p, board)

/-- The member function `ComputerPlayer::changeAI`. -/
def ComputerPlayer.changeAI (p : Player) (aitype : AIType) : Bool × Player :=
  match AIFactory.createAI aitype with
  | some ai => (true, ⟨some ai, p.symbol, p.curPos⟩)
  | none => (false, ⟨none, p.symbol, p.curPos⟩)

/-! ## tictactoe.h / tictactoe.cpp -/

/-- The data members of `class TicTacToe`.  The constructor creates the board and both
players and nothing resets these pointers, so they are held by value: `computer` is
`Players[COMPUTER]`, `human` is `Players[HUMAN]`.  `currentPlayer` is null (`none`) or
points to one of the two players. -/
structure TicTacToe where
  board : Board
  currentPlayer : Option Player_Type
  computer : Player
  human : Player
  aitype_computer : AIType
  deriving DecidableEq, Repr

/-- The constructor `TicTacToe::TicTacToe()` with `createPlayers(Symbol::O)`. -/
def TicTacToe.new : Option TicTacToe :=
  (Board.construct 3).bind (fun board =>
    (AIFactory.createAI AIType.Minimax).map (fun ai =>
      ⟨board, none, Player.new (board.getOpponent Symbol.O) (some ai),
        Player.new Symbol.O none, AIType.Minimax⟩))

/-- The member function `TicTacToe::setAITypeComputer`. -/
def TicTacToe.setAITypeComputer (g : TicTacToe) (aitype_i : AIType) : TicTacToe :=
  if g.aitype_computer ≠ aitype_i then
    ⟨g.board, g.currentPlayer, (ComputerPlayer.changeAI g.computer aitype_i).2, g.human,
      aitype_i⟩
  else g

/-- The member function `TicTacToe::startNewGame`. -/
def TicTacToe.startNewGame (g : TicTacToe) (human_player : Symbol) (ai_type : AIType)
    (board_size : Int) : Option TicTacToe :=
  (g.board.startNewGame board_size).map (fun board =>
    let g1 := TicTacToe.setAITypeComputer
      ⟨board, g.currentPlayer, g.computer, g.human, g.aitype_computer⟩ ai_type
    ⟨g1.board, some Player_Type.HUMAN, g1.computer.setSymbol (g1.board.getOpponent human_player),
      g1.human.setSymbol human_player, g1.aitype_computer⟩)

/-- The member function `TicTacToe::makeMove`: the returned flag and the state after
the call.  `Players[static_cast<int>(type)]` with `type == UNKNOWN` indexes past the
array of two players. -/
def TicTacToe.makeMove (rand : Nat → Nat) (fuel : Nat) (g : TicTacToe) (pos : QPoint)
    (type : Player_Type) : Option (Bool × TicTacToe) :=
  match g.currentPlayer with
  | none => some (false, g)
  | some _ =>
    match type with
    | Player_Type.COMPUTER =>
      (ComputerPlayer.makeMove rand fuel g.computer pos g.board).map (fun r =>
        (r.1, ⟨r.2.2, some Player_Type.COMPUTER, r.2.1, g.human, g.aitype_computer⟩))
    | Player_Type.HUMAN =>
      (HumanPlayer.makeMove g.human pos g.board).map (fun r =>
        (r.1, ⟨r.2.2, some Player_Type.HUMAN, g.computer, r.2.1, g.aitype_computer⟩))
    | Player_Type.UNKNOWN => none

/-- The member function `TicTacToe::checkForWinner`. -/
def TicTacToe.checkForWinner (g : TicTacToe) : Option Player_Type :=
  g.board.checkForWinner.map (fun symbol =>
    if symbol = Symbol.None then Player_Type.UNKNOWN
    else if g.human.symbol = symbol then Player_Type.HUMAN
    else if g.computer.symbol = symbol then Player_Type.COMPUTER
    else Player_Type.UNKNOWN)

/-- The member function `TicTacToe::getCurrentPosComputer`. -/
def TicTacToe.getCurrentPosComputer (g : TicTacToe) : QPoint := g.computer.curPos

/-- The member function `TicTacToe::isBoardFull`. -/
def TicTacToe.isBoardFull (g : TicTacToe) : Option Bool := g.board.isBoardFull

/-- The member function `TicTacToe::setGameLevel`. -/
def TicTacToe.setGameLevel (g : TicTacToe) (level : GameLevel) : TicTacToe :=
  ⟨g.board, g.currentPlayer, g.computer.setLevel level, g.human, g.aitype_computer⟩

/-! ## Vocabulary of the specification -/

/-- The grid-shape invariant: `size` is not negative, the grid has exactly `size`
rows, and every row has exactly `size` cells. -/
def Board.GridShape (b : Board) : Prop :=
  0 ≤ b.size ∧ b.board.length = b.size.toNat ∧ ∀ r ∈ b.board, r.length = b.size.toNat

instance (b : Board) : Decidable b.GridShape := by
  unfold Board.GridShape; infer_instance

/-- The position lies in `[0,size) x [0,size)`. -/
def Board.InBounds (b : Board) (pos : QPoint) : Prop :=
  0 ≤ pos.y ∧ pos.y < b.size ∧ 0 ≤ pos.x ∧ pos.x < b.size

instance (b : Board) (pos : QPoint) : Decidable (b.InBounds pos) := by
  unfold Board.InBounds; infer_instance

/-- The cells `(row, col)` of row `r` of a board of side `n`. -/
def rowLine (n r : Nat) : List (Nat × Nat) := (List.range n).map (fun i => (r, i))

/-- The cells `(row, col)` of column `c` of a board of side `n`. -/
def colLine (n c : Nat) : List (Nat × Nat) := (List.range n).map (fun i => (i, c))

/-- The cells of the top-left to bottom-right diagonal. -/
def diagLine (n : Nat) : List (Nat × Nat) := (List.range n).map (fun i => (i, i))

/-- The cells of the top-right to bottom-left diagonal. -/
def antiLine (n : Nat) : List (Nat × Nat) := (List.range n).map (fun i => (i, n - 1 - i))

/-- All full-length lines of a board of side `n`, in the order row `0..n-1`, column
`0..n-1`, top-left diagonal, top-right diagonal. -/
def scanLines (n : Nat) : List (List (Nat × Nat)) :=
  (List.range n).map (rowLine n) ++ (List.range n).map (colLine n) ++ [diagLine n, antiLine n]

/-- Every cell of the line `l` holds the symbol `s`. -/
def Board.Uniform (b : Board) (l : List (Nat × Nat)) (s : Symbol) : Prop :=
  ∀ p ∈ l, b.cell p.1 p.2 = some s

instance (b : Board) (l : List (Nat × Nat)) (s : Symbol) : Decidable (b.Uniform l s) := by
  unfold Board.Uniform; infer_instance

/-- Some full row, full column or main diagonal is uniformly `s`. -/
def Board.HasLine (b : Board) (s : Symbol) : Prop :=
  ∃ l ∈ scanLines b.size.toNat, b.Uniform l s

instance (b : Board) (s : Symbol) : Decidable (b.HasLine s) := by
  unfold Board.HasLine; infer_instance

/-- The symbol of a complete line: `some s` when all cells of `l` hold the same
symbol `s` other than `None`, and `none` when the line is not complete. -/
def Board.lineSymbol (b : Board) (l : List (Nat × Nat)) : Option Symbol :=
  if b.Uniform l Symbol.X then some Symbol.X
  else if b.Uniform l Symbol.O then some Symbol.O
  else none

/-- The reference scan of the specification: the symbol of the first complete line
in the order of `scanLines`, and `None` when no line is complete. -/
def Board.firstMatch (b : Board) : Symbol :=
  ((scanLines b.size.toNat).findSome? b.lineSymbol).getD Symbol.None

/-- The complete lines of a board, in scan order. -/
def Board.completeLines (b : Board) : List (List (Nat × Nat)) :=
  (scanLines b.size.toNat).filter (fun l => (b.lineSymbol l).isSome)

/-- The operations a caller can apply to a constructed board: `reset(n)` is
`Board::startNewGame(n)`, `applyMove(pos, s)` is `Board::makeMove(pos, s)`. -/
inductive BoardOp where
  | reset (n : Int)
  | applyMove (pos : QPoint) (s : Symbol)
  deriving Repr

/-- A `reset` is called with a size of at least one. -/
def BoardOp.Admissible : BoardOp → Prop
  | BoardOp.reset n => 1 ≤ n
  | BoardOp.applyMove _ _ => True

instance (op : BoardOp) : Decidable op.Admissible := by
  cases op <;> unfold BoardOp.Admissible <;> infer_instance

/-- Running a sequence of operations on a board, left to right. -/
def Board.run (b : Board) : List BoardOp → Option Board
  | [] => some b
  | BoardOp.reset n :: ops => (b.startNewGame n).bind (fun b1 => b1.run ops)
  | BoardOp.applyMove pos s :: ops => (b.makeMove pos s).bind (fun r => r.2.run ops)

/-- One move of a legal game: nobody has won yet (`checkForWinner` is `None`) and
`makeMove` succeeds.  The result `none` means that the move is not legal. -/
def Board.legalMove (b : Board) (pos : QPoint) (s : Symbol) : Option Board :=
  match b.checkForWinner with
  | some Symbol.None =>
    match b.makeMove pos s with
    | some (true, b1) => some b1
    | _ => none
  | _ => none

/-- A legal game from the board `b`: the moves `ps` are made in turn, `s` moving first
and the two symbols alternating. -/
def Board.legalPlay (b : Board) (s : Symbol) : List QPoint → Option Board
  | [] => some b
  | pos :: ps => (b.legalMove pos s).bind (fun b1 => b1.legalPlay (b.getOpponent s) ps)

/-- The `n x n` board all of whose cells are `None`. -/
def emptyBoard (n : Int) : Board :=
  ⟨n, List.replicate n.toNat (List.replicate n.toNat Symbol.None)⟩

/-! ## Concrete boards and games used as instances -/

/-- A 3 x 3 position in mid-game. -/
def sampleBoard : Board :=
  ⟨3, [[Symbol.X, Symbol.O, Symbol.None],
       [Symbol.None, Symbol.X, Symbol.None],
       [Symbol.None, Symbol.None, Symbol.O]]⟩

/-- A full 3 x 3 board without a complete line. -/
def tieBoard : Board :=
  ⟨3, [[Symbol.X, Symbol.O, Symbol.X],
       [Symbol.X, Symbol.O, Symbol.O],
       [Symbol.O, Symbol.X, Symbol.X]]⟩

/-- The scenario of the specification, positions written `(row, col)`:
`X@(0,0), O@(1,1), X@(0,1), O@(2,2), X@(0,2)`.  A `QPoint` is `(x, y) = (col, row)`. -/
def scenarioOps : List BoardOp :=
  [BoardOp.applyMove ⟨0, 0⟩ Symbol.X, BoardOp.applyMove ⟨1, 1⟩ Symbol.O,
   BoardOp.applyMove ⟨1, 0⟩ Symbol.X, BoardOp.applyMove ⟨2, 2⟩ Symbol.O,
   BoardOp.applyMove ⟨2, 0⟩ Symbol.X]

/-- The board at the end of `scenarioOps`. -/
def scenarioBoard : Board :=
  ⟨3, [[Symbol.X, Symbol.X, Symbol.X],
       [Symbol.None, Symbol.O, Symbol.None],
       [Symbol.None, Symbol.None, Symbol.O]]⟩

/-- Six alternating calls of `makeMove` that fill row 0 with `X` and row 1 with `O`;
the board accepts the sixth although row 0 is already complete. -/
def twoWinnersOps : List BoardOp :=
  [BoardOp.applyMove ⟨0, 0⟩ Symbol.X, BoardOp.applyMove ⟨0, 1⟩ Symbol.O,
   BoardOp.applyMove ⟨1, 0⟩ Symbol.X, BoardOp.applyMove ⟨1, 1⟩ Symbol.O,
   BoardOp.applyMove ⟨2, 0⟩ Symbol.X, BoardOp.applyMove ⟨2, 1⟩ Symbol.O]

/-- The board at the end of `twoWinnersOps`. -/
def twoWinnersBoard : Board :=
  ⟨3, [[Symbol.X, Symbol.X, Symbol.X],
       [Symbol.O, Symbol.O, Symbol.O],
       [Symbol.None, Symbol.None, Symbol.None]]⟩

/-- A legal game of nine moves, `X` first, whose last move `X@(row 0, col 0)` completes
row 0 and column 0 at once. -/
def doubleLineMoves : List QPoint :=
  [⟨1, 0⟩, ⟨1, 1⟩, ⟨2, 0⟩, ⟨2, 1⟩, ⟨0, 1⟩, ⟨1, 2⟩, ⟨0, 2⟩, ⟨2, 2⟩, ⟨0, 0⟩]

/-- The board at the end of `doubleLineMoves`. -/
def doubleLineBoard : Board :=
  ⟨3, [[Symbol.X, Symbol.X, Symbol.X],
       [Symbol.X, Symbol.O, Symbol.O],
       [Symbol.X, Symbol.O, Symbol.O]]⟩

/-- The position addressed by iteration `k` of the loop of `RandomAI::makeMove`:
`row = rand() % size`, then `col = rand() % size`. -/
def RandomAI.drawn (rand : Nat → Nat) (board : Board) (k : Nat) : QPoint :=
  ⟨Int.tmod (rand (2 * k + 1)) board.size, Int.tmod (rand (2 * k)) board.size⟩

/-- The behaviour the specification gives a computer agent: `m = chooseMove(board,
symbol)`, `lastMove := m`, return `board.applyMove(m, symbol)`.  The result is the
returned flag, the recorded last move and the board. -/
def ComputerAgent.makeMoveSpec (rand : Nat → Nat) (fuel : Nat) (strategy : GameAI)
    (symbol : Symbol) (board : Board) : Option (Bool × QPoint × Board) :=
  match strategy.makeMove rand fuel board symbol with
  | none => none
  | some m =>
    match board.makeMove m symbol with
    | none => none
    | some (ok, board1) => some (ok, m, board1)

/-- A human player who has last played at row 0, column 0. -/
def samplePlayer : Player := Player.new Symbol.O none

/-- A game in progress on `sampleBoard`. -/
def sampleGame : TicTacToe :=
  ⟨sampleBoard, some Player_Type.COMPUTER, ⟨some (GameAI.new AIKind.Minimax), Symbol.O, ⟨2, 2⟩⟩,
    ⟨none, Symbol.X, ⟨1, 1⟩⟩, AIType.Minimax⟩

/-- All positions of the board in row-major order: row ascending, then column
ascending. -/
def Board.positions (b : Board) : List QPoint :=
  (List.range b.size.toNat).flatMap (fun (row : Nat) =>
    (List.range b.size.toNat).map (fun (col : Nat) => (⟨col, row⟩ : QPoint)))

/-- The empty cells of the board, in row-major order. -/
def Board.emptyCells (b : Board) : List QPoint :=
  b.positions.filter (fun p => b.cell p.y p.x = some Symbol.None)

/-- The board with `s` written at `pos`; the board itself when that cell cannot be
written. -/
def Board.place (b : Board) (pos : QPoint) (s : Symbol) : Board :=
  (b.setCell pos.y pos.x s).getD b

/-- Strict row-major order of positions. -/
def QPoint.RowMajorLT (p q : QPoint) : Prop :=
  p.y < q.y ∨ (p.y = q.y ∧ p.x < q.x)

/-- Row-major order of positions: `p` is `q` or comes before it. -/
def QPoint.RowMajorLE (p q : QPoint) : Prop :=
  p.y < q.y ∨ (p.y = q.y ∧ p.x ≤ q.x)

instance (p q : QPoint) : Decidable (p.RowMajorLE q) := by
  unfold QPoint.RowMajorLE; infer_instance

/-! ## Games against the minimax strategy -/

/-- A game of the minimax strategy, playing `ai` at the given level, against an
opponent who plays `opp board` on his turns, from the board `b` with at most `steps`
rounds: before every move the game stops when `checkForWinner` is not `None` or the
board is full.  The result is the board at the end; `none` means that a call had
undefined behaviour or not enough fuel, that a move was rejected, or that `steps` did
not suffice. -/
def playVs (fuel : Nat) (level : GameLevel) (ai : Symbol) (opp : Board → QPoint) :
    Nat → Bool → Board → Option Board
  | 0, _, _ => none
  | steps + 1, aiToMove, b =>
    match b.checkForWinner with
    | none => none
    | some w =>
      if w ≠ Symbol.None then some b
      else
        match b.isBoardFull with
        | none => none
        | some true => some b
        | some false =>
          if aiToMove then
            match MinimaxAI.makeMove fuel level b ai with
            | none => none
            | some m =>
              match b.makeMove m ai with
              | some (true, b1) => playVs fuel level ai opp steps false b1
              | _ => none
          else
            match b.makeMove (opp b) (b.getOpponent ai) with
            | some (true, b1) => playVs fuel level ai opp steps true b1
            | _ => none

/-- A game of two minimax strategies against each other: `toMove` moves next with the
level `levelToMove`, the other symbol answers with the level `levelOther`. -/
def selfPlay (fuel : Nat) : Nat → Symbol → GameLevel → GameLevel → Board → Option Board
  | 0, _, _, _, _ => none
  | steps + 1, toMove, levelToMove, levelOther, b =>
    match b.checkForWinner with
    | none => none
    | some w =>
      if w ≠ Symbol.None then some b
      else
        match b.isBoardFull with
        | none => none
        | some true => some b
        | some false =>
          match MinimaxAI.makeMove fuel levelToMove b toMove with
          | none => none
          | some m =>
            match b.makeMove m toMove with
            | some (true, b1) =>
              selfPlay fuel steps (b.getOpponent toMove) levelOther levelToMove b1
            | _ => none

/-- The side `ai` can avoid defeat from the board `b` within `n` rounds: a complete
line belongs to `ai`; otherwise, when `ai` is to move, the board is full or some move
keeps the property, and when the opponent is to move, every move does. -/
def Safe (ai : Symbol) : Nat → Bool → Board → Prop
  | 0, _, _ => False
  | n + 1, aiToMove, b =>
    if b.firstMatch ≠ Symbol.None then b.firstMatch = ai
    else if aiToMove then
      b.emptyCells = [] ∨ ∃ p ∈ b.emptyCells, Safe ai n false (b.place p ai)
    else ∀ p ∈ b.emptyCells, Safe ai n true (b.place p (b.getOpponent ai))

/-- The rows obtained from a row by writing `s` on one of its empty cells. -/
def rowChildren (s : Symbol) : List Symbol → List (List Symbol)
  | [] => []
  | c :: rest =>
    (if c = Symbol.None then [s :: rest] else []) ++ (rowChildren s rest).map (fun r => c :: r)

/-- The grids obtained from a grid by writing `s` on one of its empty cells. -/
def gridChildren (s : Symbol) : List (List Symbol) → List (List (List Symbol))
  | [] => []
  | r :: rest =>
    (rowChildren s r).map (fun r1 => r1 :: rest) ++ (gridChildren s rest).map (fun g => r :: g)

/-- The symbol of a line of three cells that is complete. -/
def line3 (x y z : Symbol) : Option Symbol :=
  if x = Symbol.X ∧ y = Symbol.X ∧ z = Symbol.X then some Symbol.X
  else if x = Symbol.O ∧ y = Symbol.O ∧ z = Symbol.O then some Symbol.O
  else none

/-- The first complete line of a 3 x 3 grid in scan order, `None` when there is none. -/
def winner3 : List (List Symbol) → Symbol
  | [[a, b, c], [d, e, f], [g, h, i]] =>
    ([line3 a b c, line3 d e f, line3 g h i, line3 a d g, line3 b e h, line3 c f i,
      line3 a e i, line3 c e g].findSome? id).getD Symbol.None
  | _ => Symbol.None

/-- The property `Safe`, computed on the grid of a 3 x 3 board. -/
def safe3 (ai opp : Symbol) : Nat → Bool → List (List Symbol) → Bool
  | 0, _, _ => false
  | n + 1, aiToMove, g =>
    if winner3 g ≠ Symbol.None then decide (winner3 g = ai)
    else if aiToMove then
      (gridChildren ai g).isEmpty || (gridChildren ai g).any (fun g1 => safe3 ai opp n false g1)
    else (gridChildren opp g).all (fun g1 => safe3 ai opp n true g1)

/-- An opponent who always plays the first empty cell in row-major order. -/
def firstEmpty (b : Board) : QPoint := b.emptyCells.head?.getD ⟨0, 0⟩

/-! ## Sessions of the orchestrator -/

/-- The calls a caller can make on a `TicTacToe` object.  A `makeMove` carries the
random source its call would see and the fuel the call may use. -/
inductive TicTacToeOp where
  | startNewGame (human_player : Symbol) (ai_type : AIType) (board_size : Int)
  | makeMove (pos : QPoint) (type : Player_Type) (rand : Nat → Nat) (fuel : Nat)
  | setGameLevel (level : GameLevel)
  | setAITypeComputer (aitype_i : AIType)

/-- The calls considered: a new game has a board size of at least one, and a move is
made for the human or for the computer. -/
def TicTacToeOp.Admissible : TicTacToeOp → Prop
  | TicTacToeOp.startNewGame _ _ board_size => 1 ≤ board_size
  | TicTacToeOp.makeMove _ type _ _ => type ≠ Player_Type.UNKNOWN
  | TicTacToeOp.setGameLevel _ => True
  | TicTacToeOp.setAITypeComputer _ => True

instance (op : TicTacToeOp) : Decidable op.Admissible := by
  cases op <;> unfold TicTacToeOp.Admissible <;> infer_instance

/-- The call is a `startNewGame`. -/
def TicTacToeOp.IsStart : TicTacToeOp → Prop
  | TicTacToeOp.startNewGame _ _ _ => True
  | _ => False

instance (op : TicTacToeOp) : Decidable op.IsStart := by
  cases op <;> unfold TicTacToeOp.IsStart <;> infer_instance

/-- The state after one call; `none` when the call does not return. -/
def TicTacToe.step (g : TicTacToe) : TicTacToeOp → Option TicTacToe
  | TicTacToeOp.startNewGame h t n => g.startNewGame h t n
  | TicTacToeOp.makeMove pos type rand fuel =>
    (TicTacToe.makeMove rand fuel g pos type).map (fun r => r.2)
  | TicTacToeOp.setGameLevel level => some (g.setGameLevel level)
  | TicTacToeOp.setAITypeComputer t => some (g.setAITypeComputer t)

/-- The state after a sequence of calls, left to right. -/
def TicTacToe.run (g : TicTacToe) : List TicTacToeOp → Option TicTacToe
  | [] => some g
  | op :: ops => (g.step op).bind (fun g1 => g1.run ops)

/-- The state `g` is reached from a freshly constructed orchestrator by the calls
`ops`. -/
def TicTacToe.ReachedBy (ops : List TicTacToeOp) (g : TicTacToe) : Prop :=
  (∀ op ∈ ops, op.Admissible) ∧ TicTacToe.new.bind (fun g0 => g0.run ops) = some g

/-- The strategy the computer holds is the one the factory makes for the recorded AI
type, up to its level: none for a type the factory does not know. -/
def TicTacToe.Consistent (g : TicTacToe) : Prop :=
  g.computer.ai.map (fun ai => ai.kind)
    = (AIFactory.createAI g.aitype_computer).map (fun ai => ai.kind)

instance (g : TicTacToe) : Decidable g.Consistent := by
  unfold TicTacToe.Consistent; infer_instance

/-- The properties every reachable orchestrator state has: the board has the right
shape and a side of at least one, and the strategy fits the recorded AI type. -/
def TicTacToe.WellFormed (g : TicTacToe) : Prop :=
  g.board.GridShape ∧ 1 ≤ g.board.size ∧ g.Consistent

instance (g : TicTacToe) : Decidable g.WellFormed := by
  unfold TicTacToe.WellFormed; infer_instance

/-- The freshly constructed orchestrator. -/
def idleGame : TicTacToe :=
  ⟨emptyBoard 3, none, ⟨some (GameAI.new AIKind.Minimax), Symbol.X, ⟨0, 0⟩⟩,
    ⟨none, Symbol.O, ⟨0, 0⟩⟩, AIType.Minimax⟩

/-- A session in which the human, holding `X`, moves three times in a row and completes
row 0; the computer is never asked. -/
def wonOps : List TicTacToeOp :=
  [TicTacToeOp.startNewGame Symbol.X AIType.Minimax 3,
   TicTacToeOp.makeMove ⟨0, 0⟩ Player_Type.HUMAN (fun _ => 0) 0,
   TicTacToeOp.makeMove ⟨1, 0⟩ Player_Type.HUMAN (fun _ => 0) 0,
   TicTacToeOp.makeMove ⟨2, 0⟩ Player_Type.HUMAN (fun _ => 0) 0]

/-- The state at the end of `wonOps`. -/
def wonGame : TicTacToe :=
  ⟨⟨3, [[Symbol.X, Symbol.X, Symbol.X],
        [Symbol.None, Symbol.None, Symbol.None],
        [Symbol.None, Symbol.None, Symbol.None]]⟩,
    some Player_Type.HUMAN, ⟨some (GameAI.new AIKind.Minimax), Symbol.O, ⟨0, 0⟩⟩,
    ⟨none, Symbol.X, ⟨2, 0⟩⟩, AIType.Minimax⟩

/-- A computer agent with a minimax strategy at level 0, holding `X`. -/
def minimaxPlayer : Player := ⟨some ⟨AIKind.Minimax, ⟨0⟩⟩, Symbol.X, ⟨0, 0⟩⟩

/-- A 3 x 3 board on which `O` threatens to complete row 1 and `X` cannot complete any
line with one move. -/
def threatBoard : Board :=
  ⟨3, [[Symbol.X, Symbol.None, Symbol.None],
       [Symbol.O, Symbol.O, Symbol.None],
       [Symbol.None, Symbol.None, Symbol.X]]⟩

/-- A game in which the caller chooses the symbol of every move: the moves are made in
turn, each one only while nobody has won (`checkForWinner` is `None`) and each one
accepted by `makeMove`.  The result `none` means that some move is not of this
kind. -/
def Board.freePlay (b : Board) : List (QPoint × Symbol) → Option Board
  | [] => some b
  | m :: ms => (b.legalMove m.1 m.2).bind (fun b1 => b1.freePlay ms)

/-- The first-match scan over the lines taken in the order `order`. -/
def Board.firstMatchIn (b : Board) (order : List (List (Nat × Nat))) : Symbol :=
  (order.findSome? b.lineSymbol).getD Symbol.None

/-- A game of six moves in which `X` and `O` do not alternate; the last move, `X` at
row 0, column 0, completes row 0 and column 0 at once. -/
def crossMoves : List (QPoint × Symbol) :=
  [(⟨1, 0⟩, Symbol.X), (⟨2, 0⟩, Symbol.X), (⟨1, 1⟩, Symbol.O), (⟨0, 1⟩, Symbol.X),
   (⟨0, 2⟩, Symbol.X), (⟨0, 0⟩, Symbol.X)]

/-- The board at the end of `crossMoves`. -/
def crossBoard : Board :=
  ⟨3, [[Symbol.X, Symbol.X, Symbol.X],
       [Symbol.X, Symbol.O, Symbol.None],
       [Symbol.X, Symbol.None, Symbol.None]]⟩

/-- The state after `startNewGame(O, Minimax, 3)`, `setGameLevel` with the level
`INT_MIN` and a human move on the centre. -/
def overflowGame : TicTacToe :=
  ⟨⟨3, [[Symbol.None, Symbol.None, Symbol.None],
        [Symbol.None, Symbol.O, Symbol.None],
        [Symbol.None, Symbol.None, Symbol.None]]⟩,
    some Player_Type.HUMAN, ⟨some ⟨AIKind.Minimax, ⟨INT_MIN⟩⟩, Symbol.X, ⟨0, 0⟩⟩,
    ⟨none, Symbol.O, ⟨1, 1⟩⟩, AIType.Minimax⟩

/-- The depth `depth` can be counted down through a search with `e` empty cells without
leaving the `int` range: it is not negative, so the count stops at 0, or it lies at
least `e` above `INT_MIN`. -/
def MinimaxAI.DepthInRange (depth : Int) (e : Nat) : Prop :=
  0 ≤ depth ∨ INT_MIN + e ≤ depth

instance (depth : Int) (e : Nat) : Decidable (MinimaxAI.DepthInRange depth e) := by
  unfold MinimaxAI.DepthInRange; infer_instance

/-! ## Vectors and cells -/

theorem vecAt_natCast {α : Type} (v : List α) (i : Nat) : vecAt v (i : Int) = v[i]? := by
  simp [vecAt]

theorem vecAt_eq_some_iff {α : Type} (v : List α) (i : Int) (a : α) :
    vecAt v i = some a ↔ 0 ≤ i ∧ v[i.toNat]? = some a := by
  unfold vecAt
  by_cases h : i < 0
  · simp [h]
  · simp [h]; omega

theorem vecSet_eq_some_iff {α : Type} (v : List α) (i : Int) (a : α) (w : List α) :
    vecSet v i a = some w ↔ 0 ≤ i ∧ i.toNat < v.length ∧ w = v.set i.toNat a := by
  unfold vecSet
  by_cases h : i < 0 ∨ (v.length : Int) ≤ i
  · simp [h]; omega
  · simp [h]
    constructor
    · intro e; refine ⟨by omega, by omega, e.symm⟩
    · intro e; exact e.2.2.symm

theorem cell_eq_some_iff (b : Board) (row col : Int) (s : Symbol) :
    b.cell row col = some s ↔
      0 ≤ row ∧ 0 ≤ col ∧ ∃ r, b.board[row.toNat]? = some r ∧ r[col.toNat]? = some s := by
  unfold Board.cell
  simp only [Option.bind_eq_some, vecAt_eq_some_iff]
  constructor
  · rintro ⟨r, ⟨h0, h1⟩, h2, h3⟩; exact ⟨h0, h2, r, h1, h3⟩
  · rintro ⟨h0, h2, r, h1, h3⟩; exact ⟨r, ⟨h0, h1⟩, h2, h3⟩

/-- On a board of the right shape every position within bounds holds a symbol. -/
theorem cell_isSome_of_gridShape {b : Board} (hb : b.GridShape) {row col : Int}
    (h0 : 0 ≤ row) (h1 : row < b.size) (h2 : 0 ≤ col) (h3 : col < b.size) :
    ∃ s, b.cell row col = some s := by
  obtain ⟨_, hlen, hrows⟩ := hb
  have hr : row.toNat < b.board.length := by omega
  have hrow := hrows _ (List.getElem_mem hr)
  have hc : col.toNat < (b.board[row.toNat]).length := by omega
  refine ⟨(b.board[row.toNat])[col.toNat], ?_⟩
  rw [cell_eq_some_iff]
  exact ⟨h0, h2, _, List.getElem?_eq_getElem hr, List.getElem?_eq_getElem hc⟩

/-- Writing a cell that can be read succeeds; it changes that cell and nothing else. -/
theorem setCell_of_cell {b : Board} {row col : Int} {v : Symbol}
    (h : b.cell row col = some v) (s : Symbol) :
    ∃ b1, b.setCell row col s = some b1 ∧ b1.size = b.size ∧
      (b.GridShape → b1.GridShape) ∧
      b1.cell row col = some s ∧
      ∀ r c, (r ≠ row ∨ c ≠ col) → b1.cell r c = b.cell r c := by
  rw [cell_eq_some_iff] at h
  obtain ⟨h0, h2, r, hr, hc⟩ := h
  have hrlt : row.toNat < b.board.length := by
    by_contra hcon
    rw [List.getElem?_eq_none (by omega)] at hr
    exact absurd hr (by simp)
  have hclt : col.toNat < r.length := by
    by_contra hcon
    rw [List.getElem?_eq_none (by omega)] at hc
    exact absurd hc (by simp)
  refine ⟨⟨b.size, b.board.set row.toNat (r.set col.toNat s)⟩, ?_, rfl, ?_, ?_, ?_⟩
  · unfold Board.setCell
    have e1 : vecAt b.board row = some r := (vecAt_eq_some_iff _ _ _).2 ⟨h0, hr⟩
    have e2 : vecSet r col s = some (r.set col.toNat s) :=
      (vecSet_eq_some_iff _ _ _ _).2 ⟨h2, hclt, rfl⟩
    have e3 : vecSet b.board row (r.set col.toNat s)
        = some (b.board.set row.toNat (r.set col.toNat s)) :=
      (vecSet_eq_some_iff _ _ _ _).2 ⟨h0, hrlt, rfl⟩
    simp [e1, e2, e3]
  · rintro ⟨hs, hlen, hrows⟩
    refine ⟨hs, by simpa using hlen, ?_⟩
    intro x hx
    rcases List.mem_or_eq_of_mem_set hx with hx | hx
    · exact hrows x hx
    · subst hx
      have : r ∈ b.board := List.mem_iff_getElem?.2 ⟨_, hr⟩
      simpa using hrows r this
  · rw [cell_eq_some_iff]
    refine ⟨h0, h2, r.set col.toNat s, ?_, ?_⟩
    · simp [List.getElem?_set, hrlt]
    · simp [List.getElem?_set, hclt]
  · intro r' c' hne
    unfold Board.cell
    by_cases hr' : r' < 0
    · simp [vecAt, hr']
    · by_cases hrr : r' = row
      · subst hrr
        have hcc : c' ≠ col := by
          rcases hne with h | h
          · exact absurd rfl h
          · exact h
        have e1 : vecAt b.board r' = some r := (vecAt_eq_some_iff _ _ _).2 ⟨h0, hr⟩
        have e2 : vecAt (b.board.set r'.toNat (r.set col.toNat s)) r'
            = some (r.set col.toNat s) := by
          rw [vecAt_eq_some_iff]; refine ⟨h0, ?_⟩
          simp [List.getElem?_set, hrlt]
        simp only [e1, e2, Option.some_bind]
        by_cases hc' : c' < 0
        · simp [vecAt, hc']
        · have : col.toNat ≠ c'.toNat := by omega
          simp [vecAt, hc', List.getElem?_set_ne this]
      · have : row.toNat ≠ r'.toNat := by omega
        simp [vecAt, hr', List.getElem?_set_ne this]

/-! ## makeMove -/

theorem makeMove_of_not_inBounds {b : Board} {pos : QPoint} (h : ¬ b.InBounds pos)
    (symbol : Symbol) : b.makeMove pos symbol = some (false, b) := by
  unfold Board.InBounds at h
  unfold Board.makeMove
  have : pos.y < 0 ∨ pos.y ≥ b.size ∨ pos.x < 0 ∨ pos.x ≥ b.size := by omega
  simp only [this, if_true]

theorem makeMove_of_occupied {b : Board} {pos : QPoint} {c : Symbol}
    (hc : b.cell pos.y pos.x = some c) (hne : c ≠ Symbol.None) (symbol : Symbol) :
    b.makeMove pos symbol = some (false, b) := by
  unfold Board.makeMove
  by_cases h : pos.y < 0 ∨ pos.y ≥ b.size ∨ pos.x < 0 ∨ pos.x ≥ b.size
  · simp only [h, if_true]
  · simp only [h, if_false, hc, hne, ne_eq, not_false_eq_true, if_true]

theorem makeMove_of_empty {b : Board} {pos : QPoint} (hin : b.InBounds pos)
    (hc : b.cell pos.y pos.x = some Symbol.None) (symbol : Symbol) :
    ∃ b1, b.makeMove pos symbol = some (true, b1) ∧ b.setCell pos.y pos.x symbol = some b1 := by
  obtain ⟨b1, h1, -⟩ := setCell_of_cell hc symbol
  refine ⟨b1, ?_, h1⟩
  unfold Board.InBounds at hin
  unfold Board.makeMove
  have h : ¬ (pos.y < 0 ∨ pos.y ≥ b.size ∨ pos.x < 0 ∨ pos.x ≥ b.size) := by omega
  simp [h, hc, h1]

/-- Whatever `makeMove` returns, the board keeps its size and its shape. -/
theorem makeMove_size_shape {b : Board} {pos : QPoint} {symbol : Symbol} {r : Bool} {b1 : Board}
    (h : b.makeMove pos symbol = some (r, b1)) :
    b1.size = b.size ∧ (b.GridShape → b1.GridShape) := by
  unfold Board.makeMove at h
  by_cases hg : pos.y < 0 ∨ pos.y ≥ b.size ∨ pos.x < 0 ∨ pos.x ≥ b.size
  · simp only [hg, if_true, Option.some.injEq, Prod.mk.injEq] at h
    obtain ⟨-, rfl⟩ := h
    exact ⟨rfl, id⟩
  · simp only [hg, if_false] at h
    cases hc : b.cell pos.y pos.x with
    | none => simp [hc] at h
    | some c =>
      simp only [hc] at h
      by_cases hne : c ≠ Symbol.None
      · rw [if_pos hne] at h
        simp only [Option.some.injEq, Prod.mk.injEq] at h
        obtain ⟨-, rfl⟩ := h
        exact ⟨rfl, id⟩
      · obtain ⟨b2, h2, hs, hshape, -⟩ := setCell_of_cell hc symbol
        rw [if_neg hne] at h
        simp only [h2, Option.map_some', Option.some.injEq, Prod.mk.injEq] at h
        obtain ⟨-, rfl⟩ := h
        exact ⟨hs, hshape⟩

/-- On a board of the right shape `makeMove` always returns. -/
theorem makeMove_total {b : Board} (hb : b.GridShape) (pos : QPoint) (symbol : Symbol) :
    ∃ r b1, b.makeMove pos symbol = some (r, b1) := by
  by_cases hin : b.InBounds pos
  · obtain ⟨c, hc⟩ := cell_isSome_of_gridShape hb hin.1 hin.2.1 hin.2.2.1 hin.2.2.2
    by_cases hne : c = Symbol.None
    · subst hne
      obtain ⟨b1, h1, -⟩ := makeMove_of_empty hin hc symbol
      exact ⟨true, b1, h1⟩
    · exact ⟨false, b, makeMove_of_occupied hc hne symbol⟩
  · exact ⟨false, b, makeMove_of_not_inBounds hin symbol⟩

/-! ## Loops -/

/-- A loop whose body never has undefined behaviour returns the first value its
body produces. -/
theorem loopUntil_eq_findSome {β : Type} (body : Nat → Option (Option β)) (f : Nat → Option β)
    (is : List Nat) (h : ∀ i ∈ is, body i = some (f i)) :
    loopUntil body is = some (is.findSome? f) := by
  induction is with
  | nil => rfl
  | cons i is ih =>
    have hi := h i (List.mem_cons_self _ _)
    have ih1 := ih (fun j hj => h j (List.mem_cons_of_mem _ hj))
    unfold loopUntil
    rw [hi]
    cases hf : f i with
    | none => simp [List.findSome?_cons, hf, ih1]
    | some r => simp [List.findSome?_cons, hf]

/-- A counted loop that keeps an invariant and never has undefined behaviour runs to
its end and establishes the invariant there. -/
theorem foldlM_range_inv {σ : Type} (f : σ → Nat → Option σ) (I : Nat → σ → Prop) (n : Nat)
    (s0 : σ) (h0 : I 0 s0)
    (hstep : ∀ k s, k < n → I k s → ∃ s1, f s k = some s1 ∧ I (k + 1) s1) :
    ∃ s1, (List.range n).foldlM f s0 = some s1 ∧ I n s1 := by
  induction n with
  | zero => exact ⟨s0, rfl, h0⟩
  | succ m ih =>
    obtain ⟨s1, h1, hI⟩ := ih (fun k s hk hs => hstep k s (by omega) hs)
    obtain ⟨s2, h2, hI2⟩ := hstep m s1 (by omega) hI
    refine ⟨s2, ?_, hI2⟩
    rw [List.range_succ, List.foldlM_append, h1]
    simp [h2]

/-! ## checkSequence and checkForWinner -/

/-- Outside `[0,size) x [0,size)` a board of the right shape has no cell. -/
theorem cell_eq_none_of_gridShape {b : Board} (hb : b.GridShape) {row col : Int}
    (h : row < 0 ∨ row ≥ b.size ∨ col < 0 ∨ col ≥ b.size) : b.cell row col = none := by
  cases hc : b.cell row col with
  | none => rfl
  | some s =>
    exfalso
    rw [cell_eq_some_iff] at hc
    obtain ⟨h0, h2, r, hr, hcs⟩ := hc
    obtain ⟨_, hlen, hrows⟩ := hb
    have hr1 : row.toNat < b.board.length := by
      by_contra hcon
      rw [List.getElem?_eq_none (by omega)] at hr
      exact absurd hr (by simp)
    have hrow := hrows r (List.mem_iff_getElem?.2 ⟨_, hr⟩)
    have hc1 : col.toNat < r.length := by
      by_contra hcon
      rw [List.getElem?_eq_none (by omega)] at hcs
      exact absurd hcs (by simp)
    omega

/-- On a board of the right shape `checkSequence` returns, and it returns `true`
exactly when the cells at steps `1 .. size-1` from the start all hold `symbol`. -/
theorem checkSequence_eq {b : Board} (hb : b.GridShape) (symbol : Symbol)
    (startRow startCol dRow dCol : Int) :
    ∃ ok, b.checkSequence symbol startRow startCol dRow dCol = some ok ∧
      (ok = true ↔ ∀ i : Nat, 1 ≤ i → i < b.size.toNat →
        b.cell (startRow + (i : Int) * dRow) (startCol + (i : Int) * dCol) = some symbol) := by
  unfold Board.checkSequence
  rw [loopUntil_eq_findSome _
    (fun i : Nat => if b.cell (startRow + (i : Int) * dRow) (startCol + (i : Int) * dCol)
      = some symbol then none else some false)]
  · refine ⟨_, rfl, ?_⟩
    cases hf : (List.range' 1 (b.size.toNat - 1)).findSome?
        (fun i : Nat => if b.cell (startRow + (i : Int) * dRow) (startCol + (i : Int) * dCol)
          = some symbol then none else some false) with
    | none =>
      rw [List.findSome?_eq_none_iff] at hf
      simp only [Option.getD_none, true_iff]
      intro i h1 h2
      have := hf i (by rw [List.mem_range'_1]; omega)
      by_contra hcon
      simp [hcon] at this
    | some v =>
      obtain ⟨i, hmem, hi⟩ := List.exists_of_findSome?_eq_some hf
      rw [List.mem_range'_1] at hmem
      by_cases hcell : b.cell (startRow + (i : Int) * dRow) (startCol + (i : Int) * dCol)
          = some symbol
      · simp [hcell] at hi
      · simp only [hcell, if_false, Option.some.injEq] at hi
        subst hi
        simp only [Option.getD_some, Bool.false_eq_true, false_iff]
        intro hall
        exact hcell (hall i (by omega) (by omega))
  · intro i _
    by_cases hg : startRow + (i : Int) * dRow < 0 ∨ startRow + (i : Int) * dRow ≥ b.size ∨
        startCol + (i : Int) * dCol < 0 ∨ startCol + (i : Int) * dCol ≥ b.size
    · have hnone := cell_eq_none_of_gridShape hb hg
      simp only [hg, if_true, hnone]
      simp
    · simp only [hg, if_false]
      cases hc : b.cell (startRow + (i : Int) * dRow) (startCol + (i : Int) * dCol) with
      | none =>
        exfalso
        obtain ⟨s, hs⟩ := @cell_isSome_of_gridShape _ hb (startRow + (i : Int) * dRow)
          (startCol + (i : Int) * dCol) (by omega) (by omega) (by omega) (by omega)
        rw [hs] at hc
        exact absurd hc (by simp)
      | some c =>
        by_cases hcs : c = symbol
        · simp [hcs]
        · simp [hcs]

theorem uniform_map_range (b : Board) (n : Nat) (g : Nat → Nat × Nat) (s : Symbol) :
    b.Uniform ((List.range n).map g) s ↔
      ∀ i : Nat, i < n → b.cell ((g i).1 : Int) ((g i).2 : Int) = some s := by
  unfold Board.Uniform
  constructor
  · intro h i hi
    exact h (g i) (List.mem_map.2 ⟨i, List.mem_range.2 hi, rfl⟩)
  · intro h p hp
    obtain ⟨i, hi, rfl⟩ := List.mem_map.1 hp
    exact h i (List.mem_range.1 hi)

/-- The test the winner scan applies to one line (read the first cell, check the rest
of the sequence against it, require a symbol other than `None`) computes the symbol
of the complete line. -/
theorem checkLine_eq {b : Board} (hb : b.GridShape) (g : Nat → Nat × Nat)
    (sr sc dr dc : Int)
    (hg : ∀ i : Nat, i < b.size.toNat →
      ((g i).1 : Int) = sr + (i : Int) * dr ∧ ((g i).2 : Int) = sc + (i : Int) * dc)
    (h0 : 0 ≤ sr ∧ sr < b.size ∧ 0 ≤ sc ∧ sc < b.size) :
    (b.cell sr sc).bind (fun first =>
      (b.checkSequence first sr sc dr dc).bind (fun ok =>
        if ok && first != Symbol.None then some (some first) else some none))
      = some (b.lineSymbol ((List.range b.size.toNat).map g)) := by
  obtain ⟨first, hfirst⟩ := cell_isSome_of_gridShape hb h0.1 h0.2.1 h0.2.2.1 h0.2.2.2
  obtain ⟨ok, hok, hiff⟩ := checkSequence_eq hb first sr sc dr dc
  have hpos : 0 < b.size.toNat := by omega
  have key : ∀ s, b.Uniform ((List.range b.size.toNat).map g) s ↔ (first = s ∧ ok = true) := by
    intro s
    rw [uniform_map_range, hiff]
    constructor
    · intro h
      have hz := h 0 hpos
      obtain ⟨e1, e2⟩ := hg 0 hpos
      simp only [Nat.cast_zero, zero_mul, add_zero] at e1 e2
      rw [e1, e2, hfirst] at hz
      have hfs : first = s := by simpa using hz
      refine ⟨hfs, ?_⟩
      intro i _ hi
      obtain ⟨e3, e4⟩ := hg i hi
      rw [← e3, ← e4, hfs]
      exact h i hi
    · rintro ⟨rfl, h⟩ i hi
      obtain ⟨e3, e4⟩ := hg i hi
      rw [e3, e4]
      by_cases hi0 : i = 0
      · subst hi0
        simpa using hfirst
      · exact h i (by omega) hi
  simp only [hfirst, hok, Option.some_bind]
  unfold Board.lineSymbol
  rw [if_congr (key Symbol.X) rfl (if_congr (key Symbol.O) rfl rfl)]
  cases first <;> cases ok <;> simp

theorem checkRow_eq {b : Board} (hb : b.GridShape) {row : Nat} (h : row < b.size.toNat) :
    b.checkRow row = some (b.lineSymbol (rowLine b.size.toNat row)) := by
  unfold Board.checkRow rowLine
  exact checkLine_eq hb (fun i => (row, i)) row 0 0 1 (fun i _ => by simp) (by omega)

theorem checkCol_eq {b : Board} (hb : b.GridShape) {col : Nat} (h : col < b.size.toNat) :
    b.checkCol col = some (b.lineSymbol (colLine b.size.toNat col)) := by
  unfold Board.checkCol colLine
  exact checkLine_eq hb (fun i => (i, col)) 0 col 1 0 (fun i _ => by simp) (by omega)

theorem checkDiag_eq {b : Board} (hb : b.GridShape) (h : 1 ≤ b.size) :
    b.checkDiag = some (b.lineSymbol (diagLine b.size.toNat)) := by
  unfold Board.checkDiag diagLine
  exact checkLine_eq hb (fun i => (i, i)) 0 0 1 1 (fun i _ => by simp) (by omega)

theorem checkAnti_eq {b : Board} (hb : b.GridShape) (h : 1 ≤ b.size) :
    b.checkAnti = some (b.lineSymbol (antiLine b.size.toNat)) := by
  unfold Board.checkAnti antiLine
  refine checkLine_eq hb (fun i => (i, b.size.toNat - 1 - i)) 0 (b.size - 1) 1 (-1) ?_ (by omega)
  intro i hi
  constructor
  · simp
  · simp only
    omega

/-! ## isBoardFull -/

/-- On a board of the right shape `isBoardFull` returns, and it returns `true` exactly
when no cell holds `None`. -/
theorem isBoardFull_eq {b : Board} (hb : b.GridShape) :
    ∃ full, b.isBoardFull = some full ∧
      (full = true ↔ ∀ row col : Nat, row < b.size.toNat → col < b.size.toNat →
        b.cell row col ≠ some Symbol.None) := by
  unfold Board.isBoardFull
  have hinner : ∀ row ∈ List.range b.size.toNat,
      loopUntil (fun col : Nat =>
          match b.cell row col with
          | none => none
          | some c => if Symbol.None = c then some (some false) else some none)
        (List.range b.size.toNat)
      = some ((List.range b.size.toNat).findSome?
          (fun col : Nat => if b.cell row col = some Symbol.None then some false else none)) := by
    intro row hrow
    apply loopUntil_eq_findSome
    intro col hcol
    rw [List.mem_range] at hrow hcol
    obtain ⟨c, hc⟩ := @cell_isSome_of_gridShape _ hb (row : Int) (col : Int)
      (by omega) (by omega) (by omega) (by omega)
    rw [hc]
    cases c <;> simp
  rw [loopUntil_eq_findSome _ _ _ hinner]
  refine ⟨_, rfl, ?_⟩
  cases hf : (List.range b.size.toNat).findSome? (fun row : Nat =>
      (List.range b.size.toNat).findSome?
        (fun col : Nat => if b.cell row col = some Symbol.None then some false else none)) with
  | none =>
    simp only [Option.getD_none, true_iff]
    rw [List.findSome?_eq_none_iff] at hf
    intro row col hrow hcol hcell
    have h1 := hf row (List.mem_range.2 hrow)
    rw [List.findSome?_eq_none_iff] at h1
    have h2 := h1 col (List.mem_range.2 hcol)
    simp [hcell] at h2
  | some v =>
    obtain ⟨row, hrow, h1⟩ := List.exists_of_findSome?_eq_some hf
    obtain ⟨col, hcol, h2⟩ := List.exists_of_findSome?_eq_some h1
    rw [List.mem_range] at hrow hcol
    by_cases hcell : b.cell row col = some Symbol.None
    · simp only [hcell, if_true, Option.some.injEq] at h2
      subst h2
      simp only [Option.getD_some, Bool.false_eq_true, false_iff]
      intro hall
      exact hall row col hrow hcol hcell
    · simp [hcell] at h2

/-! ## checkForWinner is the first-match scan -/

/-- On a board of the right shape and of side at least one `checkForWinner` returns
the result of the reference scan. -/
theorem checkForWinner_eq_firstMatch_aux {b : Board} (hb : b.GridShape) (hN : 1 ≤ b.size) :
    b.checkForWinner = some b.firstMatch := by
  obtain ⟨full, hfull, -⟩ := isBoardFull_eq hb
  unfold Board.checkForWinner Board.firstMatch scanLines
  rw [loopUntil_eq_findSome b.checkRow (fun r => b.lineSymbol (rowLine b.size.toNat r)) _
    (fun r hr => checkRow_eq hb (List.mem_range.1 hr))]
  rw [loopUntil_eq_findSome b.checkCol (fun c => b.lineSymbol (colLine b.size.toNat c)) _
    (fun c hc => checkCol_eq hb (List.mem_range.1 hc))]
  rw [checkDiag_eq hb hN, checkAnti_eq hb hN, hfull]
  simp only [List.findSome?_append, List.findSome?_map, Function.comp_def, Option.some_bind,
    List.findSome?_cons, List.findSome?_nil]
  cases (List.range b.size.toNat).findSome? (fun r => b.lineSymbol (rowLine b.size.toNat r))
    <;> cases (List.range b.size.toNat).findSome? (fun c => b.lineSymbol (colLine b.size.toNat c))
    <;> cases b.lineSymbol (diagLine b.size.toNat)
    <;> cases b.lineSymbol (antiLine b.size.toNat)
    <;> cases full <;> simp

/-! ## Complete lines -/

theorem lineSymbol_eq_some {b : Board} {l : List (Nat × Nat)} {s : Symbol}
    (h : b.lineSymbol l = some s) : s ≠ Symbol.None ∧ b.Uniform l s := by
  unfold Board.lineSymbol at h
  by_cases hX : b.Uniform l Symbol.X
  · simp only [hX, if_true, Option.some.injEq] at h
    subst h
    exact ⟨by decide, hX⟩
  · by_cases hO : b.Uniform l Symbol.O
    · simp only [hX, hO, if_true, if_false, Option.some.injEq] at h
      subst h
      exact ⟨by decide, hO⟩
    · simp [hX, hO] at h

theorem lineSymbol_ne_none_of_uniform {b : Board} {l : List (Nat × Nat)} {s : Symbol}
    (hs : s ≠ Symbol.None) (h : b.Uniform l s) : b.lineSymbol l ≠ none := by
  unfold Board.lineSymbol
  cases s with
  | None => exact absurd rfl hs
  | X => simp [h]
  | O =>
    by_cases hX : b.Uniform l Symbol.X
    · simp [hX]
    · simp [hX, h]

/-- A line that is not empty is uniform in at most one symbol. -/
theorem uniform_unique {b : Board} {l : List (Nat × Nat)} (hl : l ≠ []) {s t : Symbol}
    (hs : b.Uniform l s) (ht : b.Uniform l t) : s = t := by
  obtain ⟨p, hp⟩ := List.exists_mem_of_ne_nil l hl
  have h1 := hs p hp
  have h2 := ht p hp
  rw [h1] at h2
  exact Option.some.inj h2

theorem lineSymbol_of_uniform {b : Board} {l : List (Nat × Nat)} (hl : l ≠ []) {s : Symbol}
    (hs : s ≠ Symbol.None) (h : b.Uniform l s) : b.lineSymbol l = some s := by
  cases hr : b.lineSymbol l with
  | none => exact absurd hr (lineSymbol_ne_none_of_uniform hs h)
  | some t => rw [uniform_unique hl (lineSymbol_eq_some hr).2 h]

theorem scanLines_ne_nil {n : Nat} (hn : 0 < n) {l : List (Nat × Nat)} (h : l ∈ scanLines n) :
    l ≠ [] := by
  have hlen : l.length = n := by
    unfold scanLines at h
    simp only [List.mem_append, List.mem_map, List.mem_range, List.mem_cons,
      List.mem_singleton, List.not_mem_nil, or_false] at h
    rcases h with (⟨r, -, rfl⟩ | ⟨c, -, rfl⟩) | rfl | rfl <;>
      simp [rowLine, colLine, diagLine, antiLine]
  intro hnil
  rw [hnil] at hlen
  simp at hlen
  omega

theorem firstMatch_eq_none_iff (b : Board) :
    b.firstMatch = Symbol.None ↔ ∀ l ∈ scanLines b.size.toNat, b.lineSymbol l = none := by
  unfold Board.firstMatch
  cases hf : (scanLines b.size.toNat).findSome? b.lineSymbol with
  | none =>
    simp only [Option.getD_none, true_iff]
    exact List.findSome?_eq_none_iff.1 hf
  | some s =>
    obtain ⟨l, hl, hls⟩ := List.exists_of_findSome?_eq_some hf
    simp only [Option.getD_some]
    constructor
    · intro hs
      exact absurd hs (lineSymbol_eq_some hls).1
    · intro hall
      rw [hall l hl] at hls
      exact absurd hls (by simp)

theorem hasLine_of_firstMatch {b : Board} {s : Symbol} (hs : s ≠ Symbol.None)
    (h : b.firstMatch = s) : b.HasLine s := by
  unfold Board.firstMatch at h
  cases hf : (scanLines b.size.toNat).findSome? b.lineSymbol with
  | none =>
    rw [hf] at h
    exact absurd h.symm hs
  | some t =>
    rw [hf] at h
    simp only [Option.getD_some] at h
    subst h
    obtain ⟨l, hl, hls⟩ := List.exists_of_findSome?_eq_some hf
    exact ⟨l, hl, (lineSymbol_eq_some hls).2⟩

theorem not_hasLine_iff {b : Board} (hN : 1 ≤ b.size) :
    (¬ b.HasLine Symbol.X ∧ ¬ b.HasLine Symbol.O) ↔
      ∀ l ∈ scanLines b.size.toNat, b.lineSymbol l = none := by
  constructor
  · rintro ⟨hX, hO⟩ l hl
    cases hr : b.lineSymbol l with
    | none => rfl
    | some s =>
      have h := lineSymbol_eq_some hr
      cases s with
      | None => exact absurd rfl h.1
      | X => exact absurd ⟨l, hl, h.2⟩ hX
      | O => exact absurd ⟨l, hl, h.2⟩ hO
  · intro hall
    have hpos : 0 < b.size.toNat := by omega
    constructor
    · rintro ⟨l, hl, hu⟩
      have := lineSymbol_of_uniform (scanLines_ne_nil hpos hl) (by decide) hu
      rw [hall l hl] at this
      exact absurd this (by simp)
    · rintro ⟨l, hl, hu⟩
      have := lineSymbol_of_uniform (scanLines_ne_nil hpos hl) (by decide) hu
      rw [hall l hl] at this
      exact absurd this (by simp)

/-- When only one symbol has a complete line, the reference scan returns it. -/
theorem firstMatch_of_hasLine {b : Board} (hN : 1 ≤ b.size) {s : Symbol}
    (hs : s ≠ Symbol.None) (h : b.HasLine s) (hopp : ¬ b.HasLine (b.getOpponent s)) :
    b.firstMatch = s := by
  have hpos : 0 < b.size.toNat := by omega
  cases ht : b.firstMatch with
  | None =>
    exfalso
    obtain ⟨l, hl, hu⟩ := h
    have h1 := (firstMatch_eq_none_iff b).1 ht l hl
    rw [lineSymbol_of_uniform (scanLines_ne_nil hpos hl) hs hu] at h1
    exact absurd h1 (by simp)
  | X =>
    have hX := hasLine_of_firstMatch (by decide) ht
    cases s with
    | None => exact absurd rfl hs
    | X => rfl
    | O => exact absurd hX hopp
  | O =>
    have hO := hasLine_of_firstMatch (by decide) ht
    cases s with
    | None => exact absurd rfl hs
    | X => exact absurd hO hopp
    | O => rfl

/-! ## The empty board, the constructor and startNewGame -/

theorem construct_eq {N : Int} (hN : 0 ≤ N) : Board.construct N = some (emptyBoard N) := by
  unfold Board.construct emptyBoard vecResize
  have : ¬ N < 0 := by omega
  simp [this]

theorem emptyBoard_gridShape {n : Int} (hn : 0 ≤ n) : (emptyBoard n).GridShape := by
  refine ⟨hn, by simp [emptyBoard], ?_⟩
  intro r hr
  simp only [emptyBoard] at hr
  rw [(List.mem_replicate.1 hr).2]
  simp [emptyBoard]

theorem emptyBoard_cell {n : Int} {row col : Int} (h0 : 0 ≤ row) (h1 : row < n)
    (h2 : 0 ≤ col) (h3 : col < n) : (emptyBoard n).cell row col = some Symbol.None := by
  rw [cell_eq_some_iff]
  refine ⟨h0, h2, List.replicate n.toNat Symbol.None, ?_, ?_⟩
  · simp only [emptyBoard]
    rw [List.getElem?_replicate_of_lt (by omega)]
  · rw [List.getElem?_replicate_of_lt (by omega)]

/-- A board of the right shape whose cells all hold `None` is the empty board. -/
theorem eq_emptyBoard {b : Board} (hb : b.GridShape)
    (hcells : ∀ row col : Nat, row < b.size.toNat → col < b.size.toNat →
      b.cell row col = some Symbol.None) : b = emptyBoard b.size := by
  obtain ⟨hs, hlen, hrows⟩ := hb
  cases b with
  | mk size board =>
    simp only [emptyBoard, Board.mk.injEq, true_and]
    simp only at hs hlen hrows hcells
    rw [List.eq_replicate_iff]
    refine ⟨hlen, ?_⟩
    intro r hr
    rw [List.eq_replicate_iff]
    refine ⟨hrows r hr, ?_⟩
    intro x hx
    obtain ⟨i, hi⟩ := List.mem_iff_getElem?.1 hr
    obtain ⟨j, hj⟩ := List.mem_iff_getElem?.1 hx
    have hi1 : i < board.length := by
      by_contra hcon
      rw [List.getElem?_eq_none (by omega)] at hi
      exact absurd hi (by simp)
    have hj1 : j < r.length := by
      by_contra hcon
      rw [List.getElem?_eq_none (by omega)] at hj
      exact absurd hj (by simp)
    have hrl := hrows r hr
    have hc := hcells i j (by omega) (by omega)
    rw [cell_eq_some_iff] at hc
    obtain ⟨-, -, r1, hr1, hx1⟩ := hc
    simp only [Int.toNat_ofNat] at hr1 hx1
    rw [hi] at hr1
    obtain rfl := Option.some.inj hr1
    rw [hj] at hx1
    exact Option.some.inj hx1

theorem emptyBoard_lineSymbol {n : Int} (hn : 1 ≤ n) {l : List (Nat × Nat)}
    (hl : l ∈ scanLines n.toNat) : (emptyBoard n).lineSymbol l = none := by
  cases hr : (emptyBoard n).lineSymbol l with
  | none => rfl
  | some s =>
    exfalso
    obtain ⟨hs, hu⟩ := lineSymbol_eq_some hr
    have hpos : 0 < n.toNat := by omega
    obtain ⟨p, hp⟩ := List.exists_mem_of_ne_nil l (scanLines_ne_nil hpos hl)
    have hcell := hu p hp
    have hin : p.1 < n.toNat ∧ p.2 < n.toNat := by
      unfold scanLines at hl
      simp only [List.mem_append, List.mem_map, List.mem_range, List.mem_cons,
        List.mem_singleton, List.not_mem_nil, or_false] at hl
      rcases hl with (⟨r, hr, rfl⟩ | ⟨c, hc, rfl⟩) | rfl | rfl <;>
        simp only [rowLine, colLine, diagLine, antiLine, List.mem_map, List.mem_range] at hp <;>
        obtain ⟨i, hi, rfl⟩ := hp <;> simp only <;> omega
    rw [emptyBoard_cell (by omega) (by omega) (by omega) (by omega)] at hcell
    exact hs (Option.some.inj hcell).symm

theorem length_vecResize {α : Type} (v : List α) (n : Nat) (fill : α) :
    (vecResize v n fill).length = n := by
  unfold vecResize
  simp only [List.length_append, List.length_take, List.length_replicate]
  omega

/-- The row-resizing loop of `startNewGame` runs to its end on a grid of `n` rows and
leaves `n` rows of `n` cells each. -/
theorem resizeRows_shape (n : Nat) (g : List (List Symbol)) (hg : g.length = n) :
    ∃ g1, resizeRows n g = some g1 ∧ g1.length = n ∧ ∀ r ∈ g1, r.length = n := by
  unfold resizeRows
  obtain ⟨g1, h1, hlen, hrows⟩ := foldlM_range_inv
    (fun g (row : Nat) => (vecAt g row).bind (fun r => vecSet g row (vecResize r n Symbol.None)))
    (fun k g1 => g1.length = n ∧ ∀ i : Nat, i < k → ∀ r, g1[i]? = some r → r.length = n)
    n g ⟨hg, fun i hi => absurd hi (by omega)⟩
    (by
      intro k g1 hk hI
      obtain ⟨hlen, hrows⟩ := hI
      have hkl : k < g1.length := by omega
      refine ⟨g1.set k (vecResize (g1[k]) n Symbol.None), ?_, by simpa using hlen, ?_⟩
      · have e1 : vecAt g1 (k : Int) = some (g1[k]) := by
          rw [vecAt_natCast]; exact List.getElem?_eq_getElem hkl
        have e2 : vecSet g1 (k : Int) (vecResize (g1[k]) n Symbol.None)
            = some (g1.set k (vecResize (g1[k]) n Symbol.None)) := by
          rw [vecSet_eq_some_iff]
          exact ⟨by omega, by simpa using hkl, by simp⟩
        simp only [e1, Option.some_bind, e2]
      · intro i hi r hr
        by_cases hik : i = k
        · subst hik
          rw [List.getElem?_set_self hkl] at hr
          rw [← Option.some.inj hr]
          exact length_vecResize _ _ _
        · rw [List.getElem?_set_ne (Ne.symm hik)] at hr
          exact hrows i (by omega) r hr)
  refine ⟨g1, h1, hlen, ?_⟩
  intro r hr
  obtain ⟨i, hi⟩ := List.mem_iff_getElem?.1 hr
  have hil : i < g1.length := by
    by_contra hcon
    rw [List.getElem?_eq_none (by omega)] at hi
    exact absurd hi (by simp)
  exact hrows i (by omega) r hi

/-- The clearing loop of `startNewGame` runs to its end on a board of the right shape
and leaves the empty board of the same size. -/
theorem clearCells_eq {b : Board} (hb : b.GridShape) : clearCells b = some (emptyBoard b.size) := by
  unfold clearCells
  obtain ⟨b1, h1, hshape, hsize, hcells⟩ := foldlM_range_inv
    (fun b1 (row : Nat) => (List.range b.size.toNat).foldlM
      (fun b2 (col : Nat) => b2.setCell row col Symbol.None) b1)
    (fun k b1 => b1.GridShape ∧ b1.size = b.size ∧
      ∀ row col : Nat, row < k → col < b.size.toNat → b1.cell row col = some Symbol.None)
    b.size.toNat b ⟨hb, rfl, fun row col hrow => absurd hrow (by omega)⟩
    (by
      intro k b1 hk hI
      obtain ⟨b2, h2, hshape2, hsize2, hrows2, hrow2⟩ := foldlM_range_inv
        (fun b2 (col : Nat) => b2.setCell k col Symbol.None)
        (fun j b2 => b2.GridShape ∧ b2.size = b.size ∧
          (∀ row col : Nat, row < k → col < b.size.toNat → b2.cell row col = some Symbol.None) ∧
          ∀ col : Nat, col < j → b2.cell k col = some Symbol.None)
        b.size.toNat b1 ⟨hI.1, hI.2.1, hI.2.2, fun col hcol => absurd hcol (by omega)⟩
        (by
          intro j b2 hj hJ
          obtain ⟨hshape, hsize, hrows, hrow⟩ := hJ
          obtain ⟨v, hv⟩ := @cell_isSome_of_gridShape _ hshape (k : Int) (j : Int)
            (by omega) (by omega) (by omega) (by omega)
          obtain ⟨b3, h3, hsize3, hshape3, hcell3, hother3⟩ := setCell_of_cell hv Symbol.None
          refine ⟨b3, h3, hshape3 hshape, by omega, ?_, ?_⟩
          · intro row col hrow1 hcol1
            rw [hother3 row col (Or.inl (by omega))]
            exact hrows row col hrow1 hcol1
          · intro col hcol
            by_cases hcj : col = j
            · subst hcj; exact hcell3
            · rw [hother3 k col (Or.inr (by omega))]
              exact hrow col (by omega))
      refine ⟨b2, h2, hshape2, hsize2, ?_⟩
      intro row col hrow hcol
      by_cases hrk : row = k
      · subst hrk; exact hrow2 col hcol
      · exact hrows2 row col (by omega) hcol)
  rw [h1, ← hsize]
  congr 1
  apply eq_emptyBoard hshape
  intro row col hrow hcol
  exact hcells row col (by omega) (by omega)

/-- On a board of the right shape `startNewGame(n)` with `n ≥ 0` returns and leaves
the empty `n x n` board. -/
theorem startNewGame_eq {b : Board} (hb : b.GridShape) {n : Int} (hn : 0 ≤ n) :
    b.startNewGame n = some (emptyBoard n) := by
  unfold Board.startNewGame
  by_cases hne : n ≠ b.size
  · have hneg : ¬ n < 0 := by omega
    obtain ⟨g1, h1, hlen, hrows⟩ := resizeRows_shape n.toNat (vecResize b.board n.toNat [])
      (length_vecResize _ _ _)
    simp only [hne, hneg, ne_eq, not_false_eq_true, if_true, if_false, h1, Option.map_some',
      Option.some_bind]
    exact clearCells_eq (b := ⟨n, g1⟩) ⟨hn, hlen, hrows⟩
  · have he : n = b.size := by
      by_contra hcon
      exact hne hcon
    subst he
    simp only [ne_eq, not_true_eq_false, if_false, Option.some_bind]
    exact clearCells_eq hb

/-! ## Claims about `Board` -/

/-- C1: for every board, position and symbol, if the position is outside
`[0,size) x [0,size)` or the target cell holds a symbol other than `None`, then
`Board::makeMove` returns false and the board (size and every cell) is exactly the
board before the call. -/
theorem makeMove_rejected (b : Board) (pos : QPoint) (symbol : Symbol)
    (h : ¬ b.InBounds pos ∨ ∃ c, c ≠ Symbol.None ∧ b.cell pos.y pos.x = some c) :
    b.makeMove pos symbol = some (false, b) := by
  rcases h with h | ⟨c, hne, hc⟩
  · exact makeMove_of_not_inBounds h symbol
  · exact makeMove_of_occupied hc hne symbol

/-- Instances of C1 on a 3 x 3 board: a column that is too large, a negative row, and
an occupied cell. -/
theorem makeMove_rejected_witness :
    sampleBoard.makeMove ⟨3, 0⟩ Symbol.O = some (false, sampleBoard) ∧
    sampleBoard.makeMove ⟨0, -1⟩ Symbol.X = some (false, sampleBoard) ∧
    sampleBoard.makeMove ⟨1, 1⟩ Symbol.O = some (false, sampleBoard) :=
  ⟨makeMove_rejected sampleBoard ⟨3, 0⟩ Symbol.O (Or.inl (by decide)),
   makeMove_rejected sampleBoard ⟨0, -1⟩ Symbol.X (Or.inl (by decide)),
   makeMove_rejected sampleBoard ⟨1, 1⟩ Symbol.O
     (Or.inr ⟨Symbol.X, by decide, by decide⟩)⟩

/-- C2: for every board, every in-bounds position whose cell is `None` and every
symbol, `Board::makeMove` returns true, the target cell afterwards holds that symbol,
and the size, the shape of the grid and every other cell are unchanged. -/
theorem makeMove_accepted (b : Board) (pos : QPoint) (symbol : Symbol)
    (hin : b.InBounds pos) (hc : b.cell pos.y pos.x = some Symbol.None) :
    ∃ b1, b.makeMove pos symbol = some (true, b1) ∧ b1.size = b.size ∧
      b1.cell pos.y pos.x = some symbol ∧
      (∀ row col, (row ≠ pos.y ∨ col ≠ pos.x) → b1.cell row col = b.cell row col) ∧
      (b.GridShape → b1.GridShape) := by
  obtain ⟨b1, h1, h2⟩ := makeMove_of_empty hin hc symbol
  obtain ⟨b2, h3, hsize, hshape, hcell, hother⟩ := setCell_of_cell hc symbol
  rw [h2] at h3
  obtain rfl := Option.some.inj h3
  exact ⟨b1, h1, hsize, hcell, hother, hshape⟩

/-- An instance of C2: `O` at row 1, column 2 of a 3 x 3 board. -/
theorem makeMove_accepted_witness :
    sampleBoard.InBounds ⟨2, 1⟩ ∧ sampleBoard.cell 1 2 = some Symbol.None ∧
    ∃ b1, sampleBoard.makeMove ⟨2, 1⟩ Symbol.O = some (true, b1) ∧ b1.size = sampleBoard.size ∧
      b1.cell 1 2 = some Symbol.O ∧
      (∀ row col, (row ≠ 1 ∨ col ≠ 2) → b1.cell row col = sampleBoard.cell row col) ∧
      (sampleBoard.GridShape → b1.GridShape) :=
  ⟨by decide, by decide, makeMove_accepted sampleBoard ⟨2, 1⟩ Symbol.O (by decide) (by decide)⟩

/-- C3, as stated, fails: on the 3 x 3 board reached by six `makeMove` calls that
fill row 0 with `X` and row 1 with `O`, a full row is uniformly `O`, but
`checkForWinner` returns `X`, not `O`. -/
theorem checkForWinner_iff_hasLine_counterexample :
    (Board.construct 3).bind (fun b0 => b0.run twoWinnersOps) = some twoWinnersBoard ∧
    twoWinnersBoard.GridShape ∧ 1 ≤ twoWinnersBoard.size ∧
    twoWinnersBoard.Uniform (rowLine 3 1) Symbol.O ∧
    twoWinnersBoard.HasLine Symbol.O ∧
    twoWinnersBoard.checkForWinner = some Symbol.X ∧
    ¬ (twoWinnersBoard.checkForWinner = some Symbol.O ↔ twoWinnersBoard.HasLine Symbol.O) := by
  decide

/-- C3, amended: for every board of side at least one and every symbol `s` in
`{X, O}`: if `checkForWinner` returns `s` then some full row, full column or main
diagonal is uniformly `s`; if some such line is uniformly `s` and none is uniformly the
other symbol, it returns `s`; and it returns `None` exactly when no line is uniformly
`X` or uniformly `O`, whether or not the board is full. -/
theorem checkForWinner_hasLine (b : Board) (hb : b.GridShape) (hN : 1 ≤ b.size) :
    (∀ s, s ≠ Symbol.None → b.checkForWinner = some s → b.HasLine s) ∧
    (∀ s, s ≠ Symbol.None → b.HasLine s → ¬ b.HasLine (b.getOpponent s) →
      b.checkForWinner = some s) ∧
    (b.checkForWinner = some Symbol.None ↔ ¬ b.HasLine Symbol.X ∧ ¬ b.HasLine Symbol.O) := by
  rw [checkForWinner_eq_firstMatch_aux hb hN]
  refine ⟨?_, ?_, ?_⟩
  · intro s hs h
    exact hasLine_of_firstMatch hs (Option.some.inj h)
  · intro s hs h hopp
    rw [firstMatch_of_hasLine hN hs h hopp]
  · rw [not_hasLine_iff hN, ← firstMatch_eq_none_iff]
    constructor
    · intro h; exact Option.some.inj h
    · intro h; rw [h]

/-- Instances of the amended C3: the scenario `X@(0,0), O@(1,1), X@(0,1), O@(2,2),
X@(0,2)` on a 3 x 3 board ends with `checkForWinner` returning `X`, and a full board
without a complete line gives `None`. -/
theorem checkForWinner_hasLine_witness :
    (Board.construct 3).bind (fun b0 => b0.run scenarioOps) = some scenarioBoard ∧
    scenarioBoard.GridShape ∧ 1 ≤ scenarioBoard.size ∧
    scenarioBoard.checkForWinner = some Symbol.X ∧
    tieBoard.isBoardFull = some true ∧ tieBoard.checkForWinner = some Symbol.None :=
  ⟨by decide, by decide, by decide,
   (checkForWinner_hasLine scenarioBoard (by decide) (by decide)).2.1 Symbol.X
     (by decide) (by decide) (by decide),
   by decide,
   (checkForWinner_hasLine tieBoard (by decide) (by decide)).2.2.2 (by decide)⟩

/-- C4: for every board of side at least one, `checkForWinner` equals the reference
first-match scan: the symbol of the first line, in the order row `0..N-1`, column
`0..N-1`, top-left diagonal, top-right diagonal, whose cells all hold the same symbol
other than `None`; it returns `None` exactly when no such line exists, whether or not
the board is full. -/
theorem checkForWinner_eq_firstMatch (b : Board) (hb : b.GridShape) (hN : 1 ≤ b.size) :
    b.checkForWinner = some b.firstMatch ∧
    (b.checkForWinner = some Symbol.None ↔
      ∀ l ∈ scanLines b.size.toNat, b.lineSymbol l = none) ∧
    (∀ l ∈ scanLines b.size.toNat, ∀ s,
      b.lineSymbol l = some s ↔ (s ≠ Symbol.None ∧ b.Uniform l s)) := by
  refine ⟨checkForWinner_eq_firstMatch_aux hb hN, ?_, ?_⟩
  · rw [checkForWinner_eq_firstMatch_aux hb hN, ← firstMatch_eq_none_iff]
    constructor
    · intro h; exact Option.some.inj h
    · intro h; rw [h]
  · intro l hl s
    constructor
    · exact lineSymbol_eq_some
    · rintro ⟨hs, hu⟩
      exact lineSymbol_of_uniform (scanLines_ne_nil (by omega) hl) hs hu

/-- Instances of C4: with row 0 uniformly `X` and row 1 uniformly `O` the scan stops
at row 0; on a full board without a complete line it returns `None`. -/
theorem checkForWinner_eq_firstMatch_witness :
    twoWinnersBoard.GridShape ∧ 1 ≤ twoWinnersBoard.size ∧
    twoWinnersBoard.firstMatch = Symbol.X ∧
    twoWinnersBoard.checkForWinner = some twoWinnersBoard.firstMatch ∧
    tieBoard.checkForWinner = some tieBoard.firstMatch ∧ tieBoard.firstMatch = Symbol.None :=
  ⟨by decide, by decide, by decide,
   (checkForWinner_eq_firstMatch twoWinnersBoard (by decide) (by decide)).1,
   (checkForWinner_eq_firstMatch tieBoard (by decide) (by decide)).1, by decide⟩

/-- C5: for every `N ≥ 1` the constructor `Board(N)` returns a board of size `N` and
of the right shape, every cell of which is `None`; on it `isBoardFull` returns false
and `checkForWinner` returns `None`. -/
theorem construct_empty (N : Int) (hN : 1 ≤ N) :
    ∃ b, Board.construct N = some b ∧ b.size = N ∧ b.GridShape ∧
      (∀ row col : Int, 0 ≤ row → row < N → 0 ≤ col → col < N →
        b.cell row col = some Symbol.None) ∧
      b.isBoardFull = some false ∧ b.checkForWinner = some Symbol.None := by
  have hshape := emptyBoard_gridShape (n := N) (by omega)
  refine ⟨emptyBoard N, construct_eq (by omega), rfl, hshape, ?_, ?_, ?_⟩
  · intro row col h0 h1 h2 h3
    exact emptyBoard_cell h0 h1 h2 h3
  · obtain ⟨full, hfull, hiff⟩ := isBoardFull_eq hshape
    rw [hfull]
    cases full with
    | false => rfl
    | true =>
      exfalso
      have hsz : (emptyBoard N).size = N := rfl
      have h := hiff.1 rfl 0 0 (by rw [hsz]; omega) (by rw [hsz]; omega)
      exact h (emptyBoard_cell (by simp) (by simp; omega) (by simp) (by simp; omega))
  · have hsz : (emptyBoard N).size = N := rfl
    rw [checkForWinner_eq_firstMatch_aux hshape (by rw [hsz]; exact hN)]
    congr 1
    rw [firstMatch_eq_none_iff]
    intro l hl
    exact emptyBoard_lineSymbol hN hl

/-- Instances of C5 for `N = 1` and `N = 3`. -/
theorem construct_empty_witness :
    (∃ b, Board.construct 1 = some b ∧ b.size = 1 ∧ b.GridShape ∧
      (∀ row col : Int, 0 ≤ row → row < 1 → 0 ≤ col → col < 1 →
        b.cell row col = some Symbol.None) ∧
      b.isBoardFull = some false ∧ b.checkForWinner = some Symbol.None) ∧
    (∃ b, Board.construct 3 = some b ∧ b.size = 3 ∧ b.GridShape ∧
      (∀ row col : Int, 0 ≤ row → row < 3 → 0 ≤ col → col < 3 →
        b.cell row col = some Symbol.None) ∧
      b.isBoardFull = some false ∧ b.checkForWinner = some Symbol.None) :=
  ⟨construct_empty 1 (by decide), construct_empty 3 (by decide)⟩

/-- C6: for every board state of the right shape (any previous size, any cell
contents) and every `n ≥ 1`, `Board::startNewGame(n)` returns and leaves a board of
size `n` whose grid is `n x n` with every cell `None`, whether `n` equals the previous
size, is larger or is smaller. -/
theorem startNewGame_resets (b : Board) (hb : b.GridShape) (n : Int) (hn : 1 ≤ n) :
    ∃ b1, b.startNewGame n = some b1 ∧ b1.size = n ∧ b1.GridShape ∧
      (∀ row col : Int, 0 ≤ row → row < n → 0 ≤ col → col < n →
        b1.cell row col = some Symbol.None) := by
  refine ⟨emptyBoard n, startNewGame_eq hb (by omega), rfl, emptyBoard_gridShape (by omega), ?_⟩
  intro row col h0 h1 h2 h3
  exact emptyBoard_cell h0 h1 h2 h3

/-- Instances of C6 on a 3 x 3 board in mid-game: the same size, a larger size and a
smaller size. -/
theorem startNewGame_resets_witness :
    sampleBoard.GridShape ∧
    sampleBoard.startNewGame 3 = some (emptyBoard 3) ∧
    sampleBoard.startNewGame 4 = some (emptyBoard 4) ∧
    sampleBoard.startNewGame 2 = some (emptyBoard 2) ∧
    (∃ b1, sampleBoard.startNewGame 3 = some b1 ∧ b1.size = 3 ∧ b1.GridShape ∧
      (∀ row col : Int, 0 ≤ row → row < 3 → 0 ≤ col → col < 3 →
        b1.cell row col = some Symbol.None)) ∧
    (∃ b1, sampleBoard.startNewGame 4 = some b1 ∧ b1.size = 4 ∧ b1.GridShape ∧
      (∀ row col : Int, 0 ≤ row → row < 4 → 0 ≤ col → col < 4 →
        b1.cell row col = some Symbol.None)) ∧
    (∃ b1, sampleBoard.startNewGame 2 = some b1 ∧ b1.size = 2 ∧ b1.GridShape ∧
      (∀ row col : Int, 0 ≤ row → row < 2 → 0 ≤ col → col < 2 →
        b1.cell row col = some Symbol.None)) :=
  ⟨by decide, by decide, by decide, by decide,
   startNewGame_resets sampleBoard (by decide) 3 (by decide),
   startNewGame_resets sampleBoard (by decide) 4 (by decide),
   startNewGame_resets sampleBoard (by decide) 2 (by decide)⟩

/-- Running admissible operations on a board of the right shape never fails and ends
on a board of the right shape. -/
theorem run_gridShape (ops : List BoardOp) (hops : ∀ op ∈ ops, op.Admissible) :
    ∀ b : Board, b.GridShape → ∃ b1, b.run ops = some b1 ∧ b1.GridShape := by
  induction ops with
  | nil => intro b hb; exact ⟨b, rfl, hb⟩
  | cons op ops ih =>
    intro b hb
    have ih1 := ih (fun o ho => hops o (List.mem_cons_of_mem _ ho))
    have hop := hops op (List.mem_cons_self _ _)
    cases op with
    | reset n =>
      have hn : 1 ≤ n := hop
      obtain ⟨b2, h2, hs2⟩ := ih1 (emptyBoard n) (emptyBoard_gridShape (by omega))
      refine ⟨b2, ?_, hs2⟩
      simp only [Board.run, startNewGame_eq hb (show 0 ≤ n by omega), Option.some_bind, h2]
    | applyMove pos s =>
      obtain ⟨r, b1, h1⟩ := makeMove_total hb pos s
      obtain ⟨b2, h2, hs2⟩ := ih1 b1 ((makeMove_size_shape h1).2 hb)
      refine ⟨b2, ?_, hs2⟩
      simp only [Board.run, h1, Option.some_bind, h2]

/-- C7: the grid-shape invariant holds in every reachable board state: after
`Board(N)` and any sequence of `startNewGame(n)` with `n ≥ 1` and `makeMove` calls,
every call has returned and the grid has exactly `size` rows of exactly `size` cells;
and `makeMove` never changes `size`. -/
theorem gridShape_reachable (N : Int) (hN : 0 ≤ N) (ops : List BoardOp)
    (hops : ∀ op ∈ ops, op.Admissible) :
    (∃ b, (Board.construct N).bind (fun b0 => b0.run ops) = some b ∧ b.GridShape) ∧
    (∀ (b : Board) (pos : QPoint) (s : Symbol) (r : Bool) (b1 : Board),
      b.makeMove pos s = some (r, b1) → b1.size = b.size) := by
  constructor
  · rw [construct_eq hN]
    exact run_gridShape ops hops (emptyBoard N) (emptyBoard_gridShape hN)
  · intro b pos s r b1 h
    exact (makeMove_size_shape h).1

/-- An instance of C7: a 3 x 3 board, two moves (one of them rejected), a reset to
side 4 and one more move. -/
theorem gridShape_reachable_witness :
    (∀ op ∈ [BoardOp.applyMove ⟨0, 0⟩ Symbol.X, BoardOp.applyMove ⟨0, 0⟩ Symbol.O,
        BoardOp.reset 4, BoardOp.applyMove ⟨3, 3⟩ Symbol.O], op.Admissible) ∧
    ∃ b, (Board.construct 3).bind (fun b0 => b0.run
        [BoardOp.applyMove ⟨0, 0⟩ Symbol.X, BoardOp.applyMove ⟨0, 0⟩ Symbol.O,
          BoardOp.reset 4, BoardOp.applyMove ⟨3, 3⟩ Symbol.O]) = some b ∧ b.GridShape :=
  ⟨by decide, (gridShape_reachable 3 (by decide) _ (by decide)).1⟩

/-! ## Legal games -/

/-- A call of `makeMove` that returns true was made on an in-bounds empty cell and
wrote it. -/
theorem makeMove_eq_true {b : Board} {pos : QPoint} {s : Symbol} {b1 : Board}
    (h : b.makeMove pos s = some (true, b1)) :
    b.InBounds pos ∧ b.cell pos.y pos.x = some Symbol.None ∧
      b.setCell pos.y pos.x s = some b1 := by
  by_cases hin : b.InBounds pos
  · cases hc : b.cell pos.y pos.x with
    | none =>
      unfold Board.InBounds at hin
      unfold Board.makeMove at h
      have hg : ¬ (pos.y < 0 ∨ pos.y ≥ b.size ∨ pos.x < 0 ∨ pos.x ≥ b.size) := by omega
      simp [hg, hc] at h
    | some c =>
      by_cases hne : c = Symbol.None
      · subst hne
        obtain ⟨b2, h2, h3⟩ := makeMove_of_empty hin hc s
        rw [h2] at h
        simp only [Option.some.injEq, Prod.mk.injEq, true_and] at h
        subst h
        exact ⟨hin, rfl, h3⟩
      · rw [makeMove_of_occupied hc hne s] at h
        simp at h
  · rw [makeMove_of_not_inBounds hin s] at h
    simp at h

theorem legalMove_eq_some {b : Board} {pos : QPoint} {s : Symbol} {b1 : Board}
    (h : b.legalMove pos s = some b1) :
    b.checkForWinner = some Symbol.None ∧ b.makeMove pos s = some (true, b1) := by
  unfold Board.legalMove at h
  cases hw : b.checkForWinner with
  | none => simp [hw] at h
  | some w =>
    cases w with
    | None =>
      simp only [hw] at h
      cases hm : b.makeMove pos s with
      | none => simp [hm] at h
      | some r =>
        obtain ⟨ok, b2⟩ := r
        cases ok with
        | false => simp [hm] at h
        | true =>
          simp only [hm, Option.some.injEq] at h
          subst h
          exact ⟨rfl, rfl⟩
    | X => simp [hw] at h
    | O => simp [hw] at h

/-- After a legal move with `X` or `O`, every complete line is uniformly the symbol
just played and contains the cell just played. -/
theorem legalMove_lines {b : Board} (hb : b.GridShape) (hN : 1 ≤ b.size) {pos : QPoint}
    {s : Symbol} {b1 : Board} (h : b.legalMove pos s = some b1) :
    b1.GridShape ∧ b1.size = b.size ∧
      ∀ l ∈ scanLines b1.size.toNat, ∀ t, b1.lineSymbol l = some t →
        t = s ∧ (pos.y.toNat, pos.x.toNat) ∈ l := by
  obtain ⟨hw, hm⟩ := legalMove_eq_some h
  obtain ⟨hin, hc, hset⟩ := makeMove_eq_true hm
  obtain ⟨b2, h2, hsize, hshape, hcell, hother⟩ := setCell_of_cell hc s
  rw [hset] at h2
  obtain rfl := Option.some.inj h2
  refine ⟨hshape hb, hsize, ?_⟩
  rw [checkForWinner_eq_firstMatch_aux hb hN] at hw
  have hnone := (firstMatch_eq_none_iff b).1 (Option.some.inj hw)
  rw [hsize]
  intro l hl t ht
  obtain ⟨htne, hu⟩ := lineSymbol_eq_some ht
  obtain ⟨hy0, -, hx0, -⟩ := hin
  have hmem : (pos.y.toNat, pos.x.toNat) ∈ l := by
    by_contra hnot
    have hub : b.Uniform l t := by
      intro p hp
      have hne : ((p.1 : Int) ≠ pos.y ∨ (p.2 : Int) ≠ pos.x) := by
        by_contra hcon
        have h1 : (p.1 : Int) = pos.y := by omega
        have h2 : (p.2 : Int) = pos.x := by omega
        apply hnot
        have : p = (pos.y.toNat, pos.x.toNat) := by
          apply Prod.ext
          · simp only; omega
          · simp only; omega
        rw [← this]
        exact hp
      rw [← hother _ _ hne]
      exact hu p hp
    exact lineSymbol_ne_none_of_uniform htne hub (hnone l hl)
  refine ⟨?_, hmem⟩
  have h3 := hu _ hmem
  simp only [Int.toNat_of_nonneg hy0, Int.toNat_of_nonneg hx0] at h3
  rw [hcell] at h3
  exact (Option.some.inj h3).symm

theorem getOpponent_ne_none (b : Board) {s : Symbol} (hs : s ≠ Symbol.None) :
    b.getOpponent s ≠ Symbol.None := by
  cases s with
  | None => exact absurd rfl hs
  | X => simp [Board.getOpponent]
  | O => simp [Board.getOpponent]

/-- At the end of a legal game of at least one move, every complete line is uniformly
one symbol, the same for all lines, and contains the cell of the last move. -/
theorem legalPlay_lines (ps : List QPoint) (hps : ps ≠ []) :
    ∀ (b : Board) (s : Symbol) (b1 : Board), b.GridShape → 1 ≤ b.size → s ≠ Symbol.None →
      b.legalPlay s ps = some b1 →
      ∃ t, t ≠ Symbol.None ∧ ∀ l ∈ scanLines b1.size.toNat, ∀ u, b1.lineSymbol l = some u →
        u = t ∧ ∀ p, ps.getLast? = some p → (p.y.toNat, p.x.toNat) ∈ l := by
  induction ps with
  | nil => exact absurd rfl hps
  | cons pos ps ih =>
    intro b s b1 hb hN hs h
    simp only [Board.legalPlay, Option.bind_eq_some] at h
    obtain ⟨b2, hmove, hrest⟩ := h
    obtain ⟨hshape2, hsize2, hlines2⟩ := legalMove_lines hb hN hmove
    cases ps with
    | nil =>
      simp only [Board.legalPlay, Option.some.injEq] at hrest
      subst hrest
      refine ⟨s, hs, ?_⟩
      intro l hl u hu
      obtain ⟨h1, h2⟩ := hlines2 l hl u hu
      refine ⟨h1, ?_⟩
      intro p hp
      simp only [List.getLast?_singleton, Option.some.injEq] at hp
      subst hp
      exact h2
    | cons q qs =>
      obtain ⟨t, ht, hall⟩ := ih (by simp) b2 (b.getOpponent s) b1 hshape2 (by omega)
        (getOpponent_ne_none b hs) hrest
      refine ⟨t, ht, ?_⟩
      intro l hl u hu
      obtain ⟨h1, h2⟩ := hall l hl u hu
      refine ⟨h1, ?_⟩
      intro p hp
      apply h2
      simpa [List.getLast?_cons_cons] using hp

theorem mem_completeLines {b : Board} {l : List (Nat × Nat)} :
    l ∈ b.completeLines ↔ l ∈ scanLines b.size.toNat ∧ ∃ s, b.lineSymbol l = some s := by
  unfold Board.completeLines
  rw [List.mem_filter, Option.isSome_iff_exists]

/-- C8, as stated, fails: in the legal 3 x 3 game `doubleLineMoves` (X and O alternate,
nobody has won before any move) the ninth move, `X` at row 0, column 0, completes
row 0 and column 0 together, so two lines are complete on a legal board. -/
theorem legal_one_line_counterexample :
    (Board.construct 3).bind (fun b0 => b0.legalPlay Symbol.X doubleLineMoves)
      = some doubleLineBoard ∧
    doubleLineBoard.completeLines = [rowLine 3 0, colLine 3 0] ∧
    rowLine 3 0 ≠ colLine 3 0 ∧
    ¬ (doubleLineBoard.completeLines.length ≤ 1) := by
  decide

/-- C8, amended: on every legal board (reached from the empty `N x N` board, `N ≥ 1`,
by successful `makeMove` calls that alternate `X` and `O`, none made once
`checkForWinner` differs from `None`) all complete full-length lines hold one and the
same symbol and all contain the cell of the last move; before the first move no line
is complete.  Several lines can be complete at once. -/
theorem legal_lines_same_symbol (N : Int) (hN : 1 ≤ N) (first : Symbol)
    (hfirst : first ≠ Symbol.None) (ps : List QPoint) (b : Board)
    (h : (Board.construct N).bind (fun b0 => b0.legalPlay first ps) = some b) :
    (∀ l1 ∈ b.completeLines, ∀ l2 ∈ b.completeLines, b.lineSymbol l1 = b.lineSymbol l2) ∧
    (∀ p, ps.getLast? = some p → ∀ l ∈ b.completeLines, (p.y.toNat, p.x.toNat) ∈ l) ∧
    (ps = [] → b.completeLines = []) := by
  rw [construct_eq (by omega), Option.some_bind] at h
  by_cases hps : ps = []
  · subst hps
    simp only [Board.legalPlay, Option.some.injEq] at h
    subst h
    have hempty : (emptyBoard N).completeLines = [] := by
      rw [List.eq_nil_iff_forall_not_mem]
      intro l hl
      obtain ⟨hl1, s, hs⟩ := mem_completeLines.1 hl
      rw [emptyBoard_lineSymbol hN hl1] at hs
      exact absurd hs (by simp)
    rw [hempty]
    refine ⟨?_, ?_, fun _ => rfl⟩
    · intro l1 h1; exact absurd h1 (List.not_mem_nil _)
    · intro p hp; exact absurd hp (by simp)
  · obtain ⟨t, -, hall⟩ := legalPlay_lines ps hps (emptyBoard N) first b
      (emptyBoard_gridShape (by omega)) hN hfirst h
    refine ⟨?_, ?_, fun hnil => absurd hnil hps⟩
    · intro l1 h1 l2 h2
      obtain ⟨hl1, s1, hs1⟩ := mem_completeLines.1 h1
      obtain ⟨hl2, s2, hs2⟩ := mem_completeLines.1 h2
      rw [hs1, hs2, (hall l1 hl1 s1 hs1).1, (hall l2 hl2 s2 hs2).1]
    · intro p hp l hl
      obtain ⟨hl1, s1, hs1⟩ := mem_completeLines.1 hl
      exact (hall l hl1 s1 hs1).2 p hp

/-- An instance of the amended C8: at the end of `doubleLineMoves` the two complete
lines, row 0 and column 0, both hold `X` and both contain the last cell played. -/
theorem legal_lines_same_symbol_witness :
    (Board.construct 3).bind (fun b0 => b0.legalPlay Symbol.X doubleLineMoves)
      = some doubleLineBoard ∧
    doubleLineBoard.completeLines = [rowLine 3 0, colLine 3 0] ∧
    (∀ l1 ∈ doubleLineBoard.completeLines, ∀ l2 ∈ doubleLineBoard.completeLines,
      doubleLineBoard.lineSymbol l1 = doubleLineBoard.lineSymbol l2) ∧
    (∀ p, doubleLineMoves.getLast? = some p →
      ∀ l ∈ doubleLineBoard.completeLines, (p.y.toNat, p.x.toNat) ∈ l) :=
  ⟨by decide, by decide,
   (legal_lines_same_symbol 3 (by decide) Symbol.X (by decide) doubleLineMoves doubleLineBoard
     (by decide)).1,
   (legal_lines_same_symbol 3 (by decide) Symbol.X (by decide) doubleLineMoves doubleLineBoard
     (by decide)).2.1⟩

/-- C9: for every board of the right shape, `isBoardFull` returns, and it returns true
if and only if no cell of the grid holds `None`. -/
theorem isBoardFull_iff (b : Board) (hb : b.GridShape) :
    ∃ full, b.isBoardFull = some full ∧
      (full = true ↔ ∀ row col : Int, b.cell row col ≠ some Symbol.None) := by
  obtain ⟨full, hfull, hiff⟩ := isBoardFull_eq hb
  refine ⟨full, hfull, ?_⟩
  rw [hiff]
  constructor
  · intro h row col
    by_cases hin : row < 0 ∨ row ≥ b.size ∨ col < 0 ∨ col ≥ b.size
    · rw [cell_eq_none_of_gridShape hb hin]
      simp
    · have := h row.toNat col.toNat (by omega) (by omega)
      rwa [Int.toNat_of_nonneg (by omega), Int.toNat_of_nonneg (by omega)] at this
  · intro h row col _ _
    exact h row col

/-- Instances of C9: a board with empty cells and a full board. -/
theorem isBoardFull_iff_witness :
    sampleBoard.GridShape ∧ tieBoard.GridShape ∧
    sampleBoard.isBoardFull = some false ∧ sampleBoard.cell 0 2 = some Symbol.None ∧
    tieBoard.isBoardFull = some true ∧
    (∃ full, sampleBoard.isBoardFull = some full ∧
      (full = true ↔ ∀ row col : Int, sampleBoard.cell row col ≠ some Symbol.None)) ∧
    (∃ full, tieBoard.isBoardFull = some full ∧
      (full = true ↔ ∀ row col : Int, tieBoard.cell row col ≠ some Symbol.None)) :=
  ⟨by decide, by decide, by decide, by decide, by decide,
   isBoardFull_iff sampleBoard (by decide), isBoardFull_iff tieBoard (by decide)⟩

/-- C10: for every board and every position, negative and too-large coordinates
included, `Board::isEmpty` returns true if and only if the position lies in
`[0,size) x [0,size)` and the cell there is `None`; for every out-of-range position
it returns false whatever the grid is, so without indexing the grid; and on a board
of the right shape it returns for every position. -/
theorem isEmpty_iff (b : Board) (pos : QPoint) :
    (b.isEmpty pos = some true ↔ b.InBounds pos ∧ b.cell pos.y pos.x = some Symbol.None) ∧
    (¬ b.InBounds pos → b.isEmpty pos = some false) ∧
    (b.GridShape → b.isEmpty pos
      = some (decide (b.InBounds pos ∧ b.cell pos.y pos.x = some Symbol.None))) := by
  have hout : ¬ b.InBounds pos → b.isEmpty pos = some false := by
    intro hin
    unfold Board.InBounds at hin
    unfold Board.isEmpty
    have : ¬ (pos.y ≥ 0 ∧ pos.y < b.size ∧ pos.x ≥ 0 ∧ pos.x < b.size) := by omega
    simp only [this, if_false]
  have hval : b.InBounds pos → ∀ c, b.cell pos.y pos.x = some c →
      b.isEmpty pos = some (decide (Symbol.None = c)) := by
    intro hin c hc
    unfold Board.InBounds at hin
    unfold Board.isEmpty
    have : pos.y ≥ 0 ∧ pos.y < b.size ∧ pos.x ≥ 0 ∧ pos.x < b.size := by omega
    simp only [this, and_self, if_true, hc, Option.map_some']
  refine ⟨?_, hout, ?_⟩
  · constructor
    · intro h
      by_cases hin : b.InBounds pos
      · refine ⟨hin, ?_⟩
        cases hc : b.cell pos.y pos.x with
        | none =>
          unfold Board.InBounds at hin
          unfold Board.isEmpty at h
          have : pos.y ≥ 0 ∧ pos.y < b.size ∧ pos.x ≥ 0 ∧ pos.x < b.size := by omega
          simp [this, hc] at h
        | some c =>
          rw [hval hin c hc] at h
          have : Symbol.None = c := by simpa using h
          rw [this]
      · rw [hout hin] at h
        simp at h
    · rintro ⟨hin, hc⟩
      rw [hval hin _ hc]
      simp
  · intro hb
    by_cases hin : b.InBounds pos
    · obtain ⟨c, hc⟩ := cell_isSome_of_gridShape hb hin.1 hin.2.1 hin.2.2.1 hin.2.2.2
      rw [hval hin c hc, hc]
      cases c <;> simp [hin]
    · rw [hout hin]
      simp [hin]

/-- Instances of C10: an empty cell, an occupied cell, and positions with a negative
and with a too-large coordinate. -/
theorem isEmpty_iff_witness :
    sampleBoard.isEmpty ⟨2, 0⟩ = some true ∧
    sampleBoard.isEmpty ⟨0, 0⟩ = some false ∧
    sampleBoard.isEmpty ⟨-1, 0⟩ = some false ∧
    sampleBoard.isEmpty ⟨0, 3⟩ = some false ∧
    (Board.mk 3 []).isEmpty ⟨0, 3⟩ = some false :=
  ⟨(isEmpty_iff sampleBoard ⟨2, 0⟩).1.2 ⟨by decide, by decide⟩,
   by decide,
   (isEmpty_iff sampleBoard ⟨-1, 0⟩).2.1 (by decide),
   (isEmpty_iff sampleBoard ⟨0, 3⟩).2.1 (by decide),
   (isEmpty_iff (Board.mk 3 []) ⟨0, 3⟩).2.1 (by decide)⟩

/-! ## Claims about the opponent symbol, the players and the orchestrator -/

/-- C11: `Board::getOpponent` maps `X` to `O`, `O` to `X` and `None` to `None`; hence
applying it twice gives the symbol back, and the opponent of `s` differs from `s`
exactly when `s` is not `None`. -/
theorem getOpponent_spec (b : Board) :
    b.getOpponent Symbol.X = Symbol.O ∧ b.getOpponent Symbol.O = Symbol.X ∧
    b.getOpponent Symbol.None = Symbol.None ∧
    (∀ s, b.getOpponent (b.getOpponent s) = s) ∧
    (∀ s, b.getOpponent s ≠ s ↔ s ≠ Symbol.None) := by
  refine ⟨rfl, rfl, rfl, ?_, ?_⟩
  · intro s; cases s <;> rfl
  · intro s; cases s <;> simp [Board.getOpponent]

/-- On a board of the right shape `isEmpty` returns, and it returns true exactly for an
in-bounds position whose cell is `None`. -/
theorem isEmpty_of_gridShape {b : Board} (hb : b.GridShape) (pos : QPoint) :
    b.isEmpty pos = some (decide (b.InBounds pos ∧ b.cell pos.y pos.x = some Symbol.None)) := by
  unfold Board.isEmpty
  by_cases hin : b.InBounds pos
  · obtain ⟨c, hc⟩ := cell_isSome_of_gridShape hb hin.1 hin.2.1 hin.2.2.1 hin.2.2.2
    have hg : pos.y ≥ 0 ∧ pos.y < b.size ∧ pos.x ≥ 0 ∧ pos.x < b.size := by
      unfold Board.InBounds at hin; omega
    simp only [hg, and_self, if_true, hc, Option.map_some']
    cases c <;> simp [hin]
  · have hg : ¬ (pos.y ≥ 0 ∧ pos.y < b.size ∧ pos.x ≥ 0 ∧ pos.x < b.size) := by
      unfold Board.InBounds at hin; omega
    simp only [hg, if_false]
    simp [hin]

/-- A call of `isEmpty` that returns true was made on an in-bounds position whose cell
is `None`. -/
theorem isEmpty_eq_true {b : Board} {pos : QPoint} (h : b.isEmpty pos = some true) :
    b.InBounds pos ∧ b.cell pos.y pos.x = some Symbol.None := by
  unfold Board.isEmpty at h
  by_cases hg : pos.y ≥ 0 ∧ pos.y < b.size ∧ pos.x ≥ 0 ∧ pos.x < b.size
  · simp only [hg, and_self, if_true] at h
    refine ⟨by unfold Board.InBounds; omega, ?_⟩
    cases hc : b.cell pos.y pos.x with
    | none => simp [hc] at h
    | some c =>
      simp only [hc, Option.map_some', Option.some.injEq, decide_eq_true_eq] at h
      rw [h]
  · simp [hg] at h

/-- C17: for every board, position and human symbol, `HumanPlayer::makeMove` returns
exactly the value that `Board::makeMove(pos, symbol)` returns on the same board and
leaves the board in exactly the same state: true with the cell set when the position is
in bounds and empty, false with the board unchanged otherwise. -/
theorem humanMakeMove_eq_boardMakeMove (p : Player) (pos : QPoint) (board : Board) :
    (HumanPlayer.makeMove p pos board).map (fun r => (r.1, r.2.2)) = board.makeMove pos p.symbol ∧
    (board.InBounds pos → board.cell pos.y pos.x = some Symbol.None →
      ∃ p1 b1, HumanPlayer.makeMove p pos board = some (true, p1, b1) ∧
        b1.cell pos.y pos.x = some p.symbol ∧ b1.size = board.size ∧
        ∀ row col, (row ≠ pos.y ∨ col ≠ pos.x) → b1.cell row col = board.cell row col) ∧
    ((¬ board.InBounds pos ∨ ∃ c, c ≠ Symbol.None ∧ board.cell pos.y pos.x = some c) →
      ∃ p1, HumanPlayer.makeMove p pos board = some (false, p1, board)) := by
  have hbounds : (pos.x < 0 ∨ pos.x ≥ board.size ∨ pos.y < 0 ∨ pos.y ≥ board.size) ↔
      ¬ board.InBounds pos := by
    unfold Board.InBounds; omega
  refine ⟨?_, ?_, ?_⟩
  · unfold HumanPlayer.makeMove
    by_cases hin : board.InBounds pos
    · have hg := mt hbounds.1 (not_not.2 hin)
      simp only [hg, if_false, Option.map_map]
      cases board.makeMove pos p.symbol <;> simp
    · simp only [hbounds.2 hin, if_true, Option.map_some']
      rw [makeMove_of_not_inBounds hin]
  · intro hin hc
    obtain ⟨b1, h1, h2⟩ := makeMove_of_empty hin hc p.symbol
    obtain ⟨b2, h3, hsize, -, hcell, hother⟩ := setCell_of_cell hc p.symbol
    rw [h2] at h3
    obtain rfl := Option.some.inj h3
    refine ⟨⟨p.ai, p.symbol, pos⟩, b1, ?_, hcell, hsize, hother⟩
    unfold HumanPlayer.makeMove
    have hg := mt hbounds.1 (not_not.2 hin)
    simp only [hg, if_false, h1, Option.map_some']
  · intro h
    unfold HumanPlayer.makeMove
    rcases h with hin | ⟨c, hne, hc⟩
    · exact ⟨p, by simp only [hbounds.2 hin, if_true]⟩
    · by_cases hin : board.InBounds pos
      · have hg := mt hbounds.1 (not_not.2 hin)
        refine ⟨⟨p.ai, p.symbol, pos⟩, ?_⟩
        simp only [hg, if_false, makeMove_of_occupied hc hne p.symbol, Option.map_some']
      · exact ⟨p, by simp only [hbounds.2 hin, if_true]⟩

/-- Instances of C17 on a 3 x 3 board: an empty cell, an occupied cell and a position
out of bounds. -/
theorem humanMakeMove_eq_boardMakeMove_witness :
    (HumanPlayer.makeMove samplePlayer ⟨2, 1⟩ sampleBoard).map (fun r => (r.1, r.2.2))
      = sampleBoard.makeMove ⟨2, 1⟩ Symbol.O ∧
    (∃ p1 b1, HumanPlayer.makeMove samplePlayer ⟨2, 1⟩ sampleBoard = some (true, p1, b1) ∧
        b1.cell 1 2 = some Symbol.O ∧ b1.size = sampleBoard.size ∧
        ∀ row col, (row ≠ 1 ∨ col ≠ 2) → b1.cell row col = sampleBoard.cell row col) ∧
    (∃ p1, HumanPlayer.makeMove samplePlayer ⟨1, 1⟩ sampleBoard = some (false, p1, sampleBoard)) ∧
    (∃ p1, HumanPlayer.makeMove samplePlayer ⟨3, 0⟩ sampleBoard = some (false, p1, sampleBoard)) :=
  ⟨(humanMakeMove_eq_boardMakeMove samplePlayer ⟨2, 1⟩ sampleBoard).1,
   (humanMakeMove_eq_boardMakeMove samplePlayer ⟨2, 1⟩ sampleBoard).2.1 (by decide) (by decide),
   (humanMakeMove_eq_boardMakeMove samplePlayer ⟨1, 1⟩ sampleBoard).2.2
     (Or.inr ⟨Symbol.X, by decide, by decide⟩),
   (humanMakeMove_eq_boardMakeMove samplePlayer ⟨3, 0⟩ sampleBoard).2.2 (Or.inl (by decide))⟩

/-- C19, as stated, fails: a human move to the in-bounds occupied cell at row 1,
column 1 returns false, yet `curPos` changes from `(0,0)` to `(1,1)`; a computer move
on a full board returns false, yet `curPos` changes from `(2,2)` to the `(0,0)` its
strategy returned. -/
theorem lastMove_only_on_success_counterexample :
    samplePlayer.curPos = ⟨0, 0⟩ ∧
    HumanPlayer.makeMove samplePlayer ⟨1, 1⟩ sampleBoard
      = some (false, ⟨none, Symbol.O, ⟨1, 1⟩⟩, sampleBoard) ∧
    ComputerPlayer.makeMove (fun _ => 0) 1 ⟨some (GameAI.new AIKind.Minimax), Symbol.O, ⟨2, 2⟩⟩
        ⟨-1, -1⟩ tieBoard
      = some (false, ⟨some (GameAI.new AIKind.Minimax), Symbol.O, ⟨0, 0⟩⟩, tieBoard) := by
  decide

/-- C19, amended: a failed move leaves `curPos` unchanged when the human position is
out of bounds or the computer has no strategy.  Otherwise `curPos` is written before
the board is asked: a human move to an in-bounds position records that position, and a
computer move records the cell its strategy returned, whether or not the board then
accepts the move.  The symbol and the strategy of the agent never change. -/
theorem lastMove_after_makeMove (rand : Nat → Nat) (fuel : Nat) (p : Player) (pos : QPoint)
    (board : Board) (r : Bool) (p1 : Player) (b1 : Board) :
    (HumanPlayer.makeMove p pos board = some (r, p1, b1) →
      p1.curPos = (if board.InBounds pos then pos else p.curPos) ∧
      (¬ board.InBounds pos → r = false) ∧ p1.symbol = p.symbol ∧ p1.ai = p.ai) ∧
    (ComputerPlayer.makeMove rand fuel p pos board = some (r, p1, b1) →
      (p.ai = none → r = false ∧ p1.curPos = p.curPos) ∧
      (∀ ai, p.ai = some ai → ai.makeMove rand fuel board p.symbol = some p1.curPos) ∧
      p1.symbol = p.symbol ∧ p1.ai = p.ai) := by
  constructor
  · intro h
    unfold HumanPlayer.makeMove at h
    by_cases hin : board.InBounds pos
    · have hg : ¬ (pos.x < 0 ∨ pos.x ≥ board.size ∨ pos.y < 0 ∨ pos.y ≥ board.size) := by
        unfold Board.InBounds at hin; omega
      simp only [hg, if_false] at h
      cases hm : board.makeMove pos p.symbol with
      | none => simp [hm] at h
      | some res =>
        simp only [hm, Option.map_some', Option.some.injEq, Prod.mk.injEq] at h
        obtain ⟨-, rfl, -⟩ := h
        simp [hin]
    · have hg : pos.x < 0 ∨ pos.x ≥ board.size ∨ pos.y < 0 ∨ pos.y ≥ board.size := by
        unfold Board.InBounds at hin; omega
      simp only [hg, if_true, Option.some.injEq, Prod.mk.injEq] at h
      obtain ⟨rfl, rfl, -⟩ := h
      simp [hin]
  · intro h
    unfold ComputerPlayer.makeMove at h
    cases hai : p.ai with
    | none =>
      simp only [hai, Option.some.injEq, Prod.mk.injEq] at h
      obtain ⟨rfl, rfl, -⟩ := h
      simp [hai]
    | some ai =>
      simp only [hai] at h
      cases hmove : ai.makeMove rand fuel board p.symbol with
      | none => simp [hmove] at h
      | some move =>
        simp only [hmove, Option.some_bind] at h
        cases hm : board.makeMove move p.symbol with
        | none => simp [hm] at h
        | some res =>
          simp only [hm, Option.map_some', Option.some.injEq, Prod.mk.injEq] at h
          obtain ⟨-, rfl, -⟩ := h
          simp [hmove]

/-- Instances of the amended C19: a human position out of bounds leaves `curPos` at
`(0,0)`; an accepted and a rejected in-bounds human move both record the position. -/
theorem lastMove_after_makeMove_witness :
    HumanPlayer.makeMove samplePlayer ⟨3, 0⟩ sampleBoard = some (false, samplePlayer, sampleBoard) ∧
    samplePlayer.curPos = (if sampleBoard.InBounds ⟨3, 0⟩ then ⟨3, 0⟩ else samplePlayer.curPos) ∧
    (⟨none, Symbol.O, ⟨1, 1⟩⟩ : Player).curPos
      = (if sampleBoard.InBounds ⟨1, 1⟩ then ⟨1, 1⟩ else samplePlayer.curPos) :=
  ⟨by decide,
   ((lastMove_after_makeMove (fun _ => 0) 1 samplePlayer ⟨3, 0⟩ sampleBoard false samplePlayer
     sampleBoard).1 (by decide)).1,
   ((lastMove_after_makeMove (fun _ => 0) 1 samplePlayer ⟨1, 1⟩ sampleBoard false
     ⟨none, Symbol.O, ⟨1, 1⟩⟩ sampleBoard).1 (by decide)).1⟩

/-- C20: for every orchestrator state whose board has the right shape, every human
symbol `h`, every AI type `t` and every board size `n ≥ 1`,
`TicTacToe::startNewGame(h, t, n)` returns and leaves the `n x n` board with every cell
`None`, the human's symbol `h`, the computer's symbol `opponent(h)`, the human as the
active agent and `t` as the recorded AI type. -/
theorem startNewGame_state (g : TicTacToe) (hb : g.board.GridShape) (h : Symbol) (t : AIType)
    (n : Int) (hn : 1 ≤ n) :
    ∃ g1, g.startNewGame h t n = some g1 ∧
      g1.board.size = n ∧ g1.board.GridShape ∧
      (∀ row col : Int, 0 ≤ row → row < n → 0 ≤ col → col < n →
        g1.board.cell row col = some Symbol.None) ∧
      g1.human.symbol = h ∧ g1.computer.symbol = g1.board.getOpponent h ∧
      g1.currentPlayer = some Player_Type.HUMAN ∧ g1.aitype_computer = t := by
  unfold TicTacToe.startNewGame
  rw [startNewGame_eq hb (show 0 ≤ n by omega)]
  refine ⟨_, rfl, ?_⟩
  have hboard : ∀ g0 : TicTacToe, (g0.setAITypeComputer t).board = g0.board := by
    intro g0; unfold TicTacToe.setAITypeComputer; split <;> rfl
  have htype : ∀ g0 : TicTacToe, (g0.setAITypeComputer t).aitype_computer = t := by
    intro g0; unfold TicTacToe.setAITypeComputer
    split
    · rfl
    · rename_i hne
      exact (not_not.1 hne)
  simp only [hboard, htype, Player.setSymbol]
  refine ⟨rfl, emptyBoard_gridShape (by omega), ?_, ?_⟩
  · intro row col h0 h1 h2 h3
    exact emptyBoard_cell h0 h1 h2 h3
  · simp

/-- Instances of C20: from a game in progress, with a change of the AI type and of the
board size, and with the same type and size. -/
theorem startNewGame_state_witness :
    sampleGame.board.GridShape ∧
    (∃ g1, sampleGame.startNewGame Symbol.O AIType.Random 4 = some g1 ∧
      g1.board.size = 4 ∧ g1.board.GridShape ∧
      (∀ row col : Int, 0 ≤ row → row < 4 → 0 ≤ col → col < 4 →
        g1.board.cell row col = some Symbol.None) ∧
      g1.human.symbol = Symbol.O ∧ g1.computer.symbol = g1.board.getOpponent Symbol.O ∧
      g1.currentPlayer = some Player_Type.HUMAN ∧ g1.aitype_computer = AIType.Random) ∧
    (∃ g1, sampleGame.startNewGame Symbol.X AIType.Minimax 3 = some g1 ∧
      g1.board.size = 3 ∧ g1.board.GridShape ∧
      (∀ row col : Int, 0 ≤ row → row < 3 → 0 ≤ col → col < 3 →
        g1.board.cell row col = some Symbol.None) ∧
      g1.human.symbol = Symbol.X ∧ g1.computer.symbol = g1.board.getOpponent Symbol.X ∧
      g1.currentPlayer = some Player_Type.HUMAN ∧ g1.aitype_computer = AIType.Minimax) :=
  ⟨by decide, startNewGame_state sampleGame (by decide) Symbol.O AIType.Random 4 (by decide),
   startNewGame_state sampleGame (by decide) Symbol.X AIType.Minimax 3 (by decide)⟩

/-! ## RandomAI -/

theorem drawLoop_succ (rand : Nat → Nat) (board : Board) (fuel k : Nat) :
    RandomAI.drawLoop rand board (fuel + 1) k =
      if board.size = 0 then none
      else
        match board.isEmpty (RandomAI.drawn rand board k) with
        | none => none
        | some true => some (RandomAI.drawn rand board k)
        | some false => RandomAI.drawLoop rand board fuel (k + 1) := by
  rfl

/-- Whatever the loop returns is a position it drew and found empty. -/
theorem drawLoop_eq_some (rand : Nat → Nat) (board : Board) (fuel : Nat) :
    ∀ (k : Nat) (pos : QPoint), RandomAI.drawLoop rand board fuel k = some pos →
      board.isEmpty pos = some true := by
  induction fuel with
  | zero => intro k pos h; simp [RandomAI.drawLoop] at h
  | succ fuel ih =>
    intro k pos h
    rw [drawLoop_succ] at h
    by_cases hs : board.size = 0
    · simp [hs] at h
    · simp only [hs, if_false] at h
      cases he : board.isEmpty (RandomAI.drawn rand board k) with
      | none => simp [he] at h
      | some e =>
        cases e with
        | true =>
          simp only [he, Option.some.injEq] at h
          rw [← h]; exact he
        | false =>
          simp only [he] at h
          exact ih (k + 1) pos h

/-- The loop skips the iterations that draw a cell that is not empty and returns at
the first that draws an empty one, if its fuel reaches that far. -/
theorem drawLoop_first_hit (rand : Nat → Nat) (board : Board) (hsize : board.size ≠ 0)
    (m : Nat) (hhit : board.isEmpty (RandomAI.drawn rand board m) = some true) :
    ∀ (fuel k : Nat), k ≤ m →
      (∀ j, k ≤ j → j < m → board.isEmpty (RandomAI.drawn rand board j) = some false) →
      RandomAI.drawLoop rand board fuel k
        = if m - k < fuel then some (RandomAI.drawn rand board m) else none := by
  intro fuel
  induction fuel with
  | zero => intro k _ _; simp [RandomAI.drawLoop]
  | succ fuel ih =>
    intro k hk hmiss
    rw [drawLoop_succ]
    simp only [hsize, if_false]
    by_cases hkm : k = m
    · subst hkm
      simp [hhit]
    · rw [hmiss k (le_refl k) (by omega)]
      simp only
      rw [ih (k + 1) (by omega) (fun j h1 h2 => hmiss j (by omega) h2)]
      have : (m - (k + 1) < fuel) ↔ (m - k < fuel + 1) := by omega
      simp only [this]

/-- The loop never returns when no iteration draws an empty cell. -/
theorem drawLoop_no_hit (rand : Nat → Nat) (board : Board)
    (hmiss : ∀ j, board.isEmpty (RandomAI.drawn rand board j) = some false) :
    ∀ (fuel k : Nat), RandomAI.drawLoop rand board fuel k = none := by
  intro fuel
  induction fuel with
  | zero => intro k; rfl
  | succ fuel ih =>
    intro k
    rw [drawLoop_succ, hmiss k]
    by_cases hs : board.size = 0
    · simp [hs]
    · simp only [hs, if_false]
      exact ih (k + 1)

/-- C15: for every board and every source of random numbers, whenever
`RandomAI::makeMove` returns, the returned position is in bounds and the cell there is
`None` on the board passed in. -/
theorem randomMakeMove_empty (rand : Nat → Nat) (fuel : Nat) (board : Board) (symbol : Symbol)
    (pos : QPoint) (h : RandomAI.makeMove rand fuel board symbol = some pos) :
    board.InBounds pos ∧ board.cell pos.y pos.x = some Symbol.None :=
  isEmpty_eq_true (drawLoop_eq_some rand board fuel 0 pos h)

/-- An instance of C15: with the draws `1, 8, 15, 22, ...` on a 3 x 3 board the first
iteration addresses the empty cell at row 1, column 2 and the call returns it. -/
theorem randomMakeMove_empty_witness :
    RandomAI.makeMove (fun i => 7 * i + 1) 5 sampleBoard Symbol.O = some ⟨2, 1⟩ ∧
    sampleBoard.InBounds ⟨2, 1⟩ ∧ sampleBoard.cell 1 2 = some Symbol.None :=
  ⟨by decide,
   randomMakeMove_empty (fun i => 7 * i + 1) 5 sampleBoard Symbol.O ⟨2, 1⟩ (by decide)⟩

/-- C16, as stated, fails: on a 3 x 3 board with empty cells whose cell at row 0,
column 0 is occupied, a source that keeps returning 0 makes every iteration address
that cell; the loop test is well defined each time and the call never returns,
whatever number of iterations it is given. -/
theorem randomMakeMove_unbounded_counterexample :
    sampleBoard.GridShape ∧ sampleBoard.isEmpty ⟨2, 0⟩ = some true ∧
    RandomAI.drawn (fun _ => 0) sampleBoard 0 = ⟨0, 0⟩ ∧
    sampleBoard.isEmpty ⟨0, 0⟩ = some false ∧
    ¬ ∃ fuel, RandomAI.makeMove (fun _ => 0) fuel sampleBoard Symbol.O ≠ none := by
  refine ⟨by decide, by decide, by decide, by decide, ?_⟩
  rintro ⟨fuel, h⟩
  apply h
  have hmiss : sampleBoard.isEmpty ⟨0, 0⟩ = some false := by decide
  exact drawLoop_no_hit (fun _ => 0) sampleBoard (fun _ => hmiss) fuel 0

/-- C16, amended: on a board of side other than 0, `RandomAI::makeMove` returns at the
first iteration whose two draws address an empty cell, and returns that cell: if
iteration `m` is the first such, the call needs exactly `m + 1` iterations.  The
number of draws has no bound that holds for every sequence of values: when no
iteration addresses an empty cell, the call never returns. -/
theorem randomMakeMove_first_hit (rand : Nat → Nat) (board : Board) (symbol : Symbol)
    (hsize : board.size ≠ 0) :
    (∀ m : Nat, (∀ j, j < m → board.isEmpty (RandomAI.drawn rand board j) = some false) →
      board.isEmpty (RandomAI.drawn rand board m) = some true →
      ∀ fuel, RandomAI.makeMove rand fuel board symbol
        = if m < fuel then some (RandomAI.drawn rand board m) else none) ∧
    ((∀ j, board.isEmpty (RandomAI.drawn rand board j) = some false) →
      ∀ fuel, RandomAI.makeMove rand fuel board symbol = none) := by
  constructor
  · intro m hmiss hhit fuel
    unfold RandomAI.makeMove
    rw [drawLoop_first_hit rand board hsize m hhit fuel 0 (Nat.zero_le _)
      (fun j _ h2 => hmiss j h2)]
    simp
  · intro hmiss fuel
    exact drawLoop_no_hit rand board hmiss fuel 0

/-- An instance of the amended C16: with the draws `0, 0, 0, 2, ...` the first
iteration addresses the occupied cell at row 0, column 0, the second the empty cell at
row 0, column 2; the call returns it with two iterations and not with one. -/
theorem randomMakeMove_first_hit_witness :
    sampleBoard.size ≠ 0 ∧
    RandomAI.makeMove (fun i => if i = 3 then 2 else 0) 2 sampleBoard Symbol.O = some ⟨2, 0⟩ ∧
    RandomAI.makeMove (fun i => if i = 3 then 2 else 0) 1 sampleBoard Symbol.O = none :=
  ⟨by decide,
   ((randomMakeMove_first_hit (fun i => if i = 3 then 2 else 0) sampleBoard Symbol.O
     (by decide)).1 1 (by decide) (by decide) 2),
   ((randomMakeMove_first_hit (fun i => if i = 3 then 2 else 0) sampleBoard Symbol.O
     (by decide)).1 1 (by decide) (by decide) 1)⟩

/-! ## Positions, empty cells and placing a symbol -/

theorem mem_positions {b : Board} {p : QPoint} : p ∈ b.positions ↔ b.InBounds p := by
  unfold Board.positions Board.InBounds
  simp only [List.mem_flatMap, List.mem_map, List.mem_range]
  constructor
  · rintro ⟨row, hrow, col, hcol, rfl⟩
    simp only
    omega
  · rintro ⟨h0, h1, h2, h3⟩
    refine ⟨p.y.toNat, by omega, p.x.toNat, by omega, ?_⟩
    cases p with
    | mk x y =>
      simp only at h0 h1 h2 h3
      simp only [QPoint.mk.injEq]
      omega

theorem mem_emptyCells {b : Board} {p : QPoint} :
    p ∈ b.emptyCells ↔ b.InBounds p ∧ b.cell p.y p.x = some Symbol.None := by
  unfold Board.emptyCells
  rw [List.mem_filter, mem_positions]
  simp

theorem positions_pairwise (b : Board) : b.positions.Pairwise QPoint.RowMajorLT := by
  unfold Board.positions
  rw [List.pairwise_flatMap]
  constructor
  · intro row _
    rw [List.pairwise_map]
    refine (List.pairwise_lt_range _).imp ?_
    intro c1 c2 h
    right
    exact ⟨rfl, by simp only; omega⟩
  · refine (List.pairwise_lt_range _).imp ?_
    intro r1 r2 h p hp q hq
    simp only [List.mem_map, List.mem_range] at hp hq
    obtain ⟨c1, -, rfl⟩ := hp
    obtain ⟨c2, -, rfl⟩ := hq
    left
    simp only
    omega

theorem emptyCells_pairwise (b : Board) : b.emptyCells.Pairwise QPoint.RowMajorLT :=
  (positions_pairwise b).filter _

theorem rowMajorLT_irrefl (p : QPoint) : ¬ p.RowMajorLT p := by
  unfold QPoint.RowMajorLT; omega

theorem emptyCells_nodup (b : Board) : b.emptyCells.Nodup := by
  refine (emptyCells_pairwise b).imp ?_
  intro p q h hpq
  subst hpq
  exact rowMajorLT_irrefl p h

/-- Placing a symbol on an empty cell is what `makeMove` does there. -/
theorem makeMove_of_mem_emptyCells {b : Board} {p : QPoint} (hp : p ∈ b.emptyCells)
    (s : Symbol) : b.makeMove p s = some (true, b.place p s) := by
  obtain ⟨hin, hc⟩ := mem_emptyCells.1 hp
  obtain ⟨b1, h1, h2⟩ := makeMove_of_empty hin hc s
  rw [h1]
  unfold Board.place
  rw [h2]
  rfl

theorem place_spec {b : Board} {p : QPoint} (hp : p ∈ b.emptyCells) (s : Symbol) :
    (b.place p s).size = b.size ∧ (b.GridShape → (b.place p s).GridShape) ∧
      (b.place p s).cell p.y p.x = some s ∧
      ∀ row col, (row ≠ p.y ∨ col ≠ p.x) → (b.place p s).cell row col = b.cell row col := by
  obtain ⟨-, hc⟩ := mem_emptyCells.1 hp
  obtain ⟨b1, h1, h2⟩ := setCell_of_cell hc s
  unfold Board.place
  rw [h1]
  exact h2

theorem positions_place {b : Board} {p : QPoint} (hp : p ∈ b.emptyCells) (s : Symbol) :
    (b.place p s).positions = b.positions := by
  unfold Board.positions
  rw [(place_spec hp s).1]

/-- Placing `X` or `O` on an empty cell removes that cell from the empty cells and
changes no other. -/
theorem emptyCells_place {b : Board} {p : QPoint} (hp : p ∈ b.emptyCells) {s : Symbol}
    (hs : s ≠ Symbol.None) :
    (b.place p s).emptyCells = b.emptyCells.filter (fun q => q != p) := by
  obtain ⟨hsize, -, hcell, hother⟩ := place_spec hp s
  unfold Board.emptyCells
  rw [positions_place hp s, List.filter_filter]
  apply List.filter_congr
  intro q _
  by_cases hq : q = p
  · subst hq
    rw [hcell]
    simp [hs]
  · have hne : q.y ≠ p.y ∨ q.x ≠ p.x := by
      by_contra hcon
      apply hq
      cases q; cases p
      simp only [QPoint.mk.injEq]
      simp only at hcon
      omega
    rw [hother _ _ hne]
    simp [hq]

theorem length_emptyCells_place {b : Board} {p : QPoint} (hp : p ∈ b.emptyCells) {s : Symbol}
    (hs : s ≠ Symbol.None) :
    (b.place p s).emptyCells.length + 1 = b.emptyCells.length := by
  rw [emptyCells_place hp hs, ← (emptyCells_nodup b).erase_eq_filter p,
    List.length_erase_of_mem hp]
  have : 0 < b.emptyCells.length := List.length_pos_of_mem hp
  omega

/-! ## The loops over the empty cells -/

theorem foldlM_congr_mem {σ α : Type} (F G : σ → α → Option σ) (l : List α)
    (h : ∀ st, ∀ p ∈ l, F st p = G st p) : ∀ init, l.foldlM F init = l.foldlM G init := by
  induction l with
  | nil => intro init; rfl
  | cons a l ih =>
    intro init
    rw [List.foldlM_cons, List.foldlM_cons, h init a (List.mem_cons_self _ _)]
    have ih1 := ih (fun st p hp => h st p (List.mem_cons_of_mem _ hp))
    cases G init a with
    | none => rfl
    | some st => exact ih1 st

theorem foldlM_nested {σ β : Type} (g : Nat → Nat → β) (F : σ → β → Option σ)
    (l1 l2 : List Nat) : ∀ init,
    l1.foldlM (fun st (r : Nat) => l2.foldlM (fun st1 (c : Nat) => F st1 (g r c)) st) init
      = (l1.flatMap (fun r => l2.map (fun c => g r c))).foldlM F init := by
  induction l1 with
  | nil => intro init; rfl
  | cons r l1 ih =>
    intro init
    rw [List.foldlM_cons, List.flatMap_cons, List.foldlM_append, List.foldlM_map]
    cases l2.foldlM (fun st1 (c : Nat) => F st1 (g r c)) init with
    | none => rfl
    | some st => exact ih st

theorem foldlM_filter_skip {σ α : Type} (P : α → Bool) (F : σ → α → Option σ) (l : List α) :
    ∀ init, l.foldlM (fun st p => if P p then F st p else some st) init
      = (l.filter P).foldlM F init := by
  induction l with
  | nil => intro init; rfl
  | cons a l ih =>
    intro init
    rw [List.foldlM_cons]
    by_cases ha : P a = true
    · rw [List.filter_cons_of_pos ha, List.foldlM_cons]
      simp only [ha, if_true]
      cases F init a with
      | none => rfl
      | some st => exact ih st
    · rw [List.filter_cons_of_neg ha]
      simp only [ha, Bool.false_eq_true, if_false]
      exact ih init

/-- The two nested loops of the strategies (`for row`, `for col`, `if isEmpty`) visit
exactly the empty cells, in row-major order. -/
theorem foldCells_eq {σ : Type} {b : Board} (hb : b.GridShape) (F : σ → QPoint → Option σ)
    (init : σ) :
    (List.range b.size.toNat).foldlM
      (fun (st : σ) (row : Nat) =>
        (List.range b.size.toNat).foldlM
          (fun (st1 : σ) (col : Nat) =>
            (b.isEmpty ⟨col, row⟩).bind (fun empty =>
              if empty then F st1 ⟨col, row⟩ else some st1))
          st)
      init
    = b.emptyCells.foldlM F init := by
  have h1 := foldlM_nested (fun (r c : Nat) => (⟨c, r⟩ : QPoint))
    (fun (st1 : σ) (p : QPoint) =>
      (b.isEmpty p).bind (fun empty => if empty then F st1 p else some st1))
    (List.range b.size.toNat) (List.range b.size.toNat) init
  rw [h1]
  have h2 : ∀ init, b.positions.foldlM
      (fun (st1 : σ) (p : QPoint) =>
        (b.isEmpty p).bind (fun empty => if empty then F st1 p else some st1)) init
      = b.positions.foldlM
        (fun (st1 : σ) (p : QPoint) =>
          if decide (b.cell p.y p.x = some Symbol.None) then F st1 p else some st1) init := by
    apply foldlM_congr_mem
    intro st p hp
    rw [isEmpty_of_gridShape hb p]
    simp [mem_positions.1 hp]
  have h3 : (List.range b.size.toNat).flatMap
      (fun (r : Nat) => (List.range b.size.toNat).map (fun (c : Nat) => (⟨c, r⟩ : QPoint)))
      = b.positions := rfl
  rw [h3, h2 init, foldlM_filter_skip]
  rfl

/-! ## Unfolding the minimax search -/

theorem emptyCells_eq_nil_iff (b : Board) :
    b.emptyCells = [] ↔ ∀ row col : Nat, row < b.size.toNat → col < b.size.toNat →
      b.cell row col ≠ some Symbol.None := by
  rw [List.eq_nil_iff_forall_not_mem]
  constructor
  · intro h row col hrow hcol hc
    apply h ⟨col, row⟩
    rw [mem_emptyCells]
    refine ⟨?_, hc⟩
    unfold Board.InBounds
    simp only
    omega
  · intro h p hp
    obtain ⟨hin, hc⟩ := mem_emptyCells.1 hp
    unfold Board.InBounds at hin
    apply h p.y.toNat p.x.toNat (by omega) (by omega)
    rwa [Int.toNat_of_nonneg (by omega), Int.toNat_of_nonneg (by omega)]

theorem isBoardFull_eq_emptyCells {b : Board} (hb : b.GridShape) :
    b.isBoardFull = some (decide (b.emptyCells = [])) := by
  obtain ⟨full, hfull, hiff⟩ := isBoardFull_eq hb
  rw [hfull, ← emptyCells_eq_nil_iff] at *
  congr 1
  cases full with
  | true => simp [hiff.1 rfl]
  | false =>
    have : ¬ b.emptyCells = [] := fun h => by simpa using hiff.2 h
    simp [this]

/-- The value `MinimaxAI::score` gives a board whose winner is `winner`. -/
theorem score_eq {b : Board} (hb : b.GridShape) (hN : 1 ≤ b.size) (s : Symbol) :
    MinimaxAI.score b s =
      some (if b.firstMatch = s then DEFAULT_MAX_SCORE
        else if b.getOpponent s = b.firstMatch then DEFAULT_MIN_SCORE else 0) := by
  unfold MinimaxAI.score
  rw [checkForWinner_eq_firstMatch_aux hb hN]
  simp only [Option.some_bind]
  split
  · rfl
  · split <;> rfl

/-- One step of `MinimaxAI::minimax` on a board of the right shape: the three base
cases, then the fold over the empty cells, each nested call behind the check of
`depth - 1`. -/
theorem minimax_succ_raw {b : Board} (hb : b.GridShape) (hN : 1 ≤ b.size) (fuel : Nat)
    (depth : Int) (isMax : Bool) (s : Symbol) :
    MinimaxAI.minimax (fuel + 1) b depth isMax s =
      if b.firstMatch ≠ Symbol.None then
        some (if b.firstMatch = s then DEFAULT_MAX_SCORE
          else if b.getOpponent s = b.firstMatch then DEFAULT_MIN_SCORE else 0)
      else if b.emptyCells = [] then some 0
      else if depth = 0 then some 0
      else
        b.emptyCells.foldlM
          (fun (best : Int) (p : QPoint) =>
            (if depth - 1 < INT_MIN then none
              else MinimaxAI.minimax fuel (b.place p (if isMax then s else b.getOpponent s))
                (depth - 1) (!isMax) s).bind
              (fun sc => if isMax then some (max best sc) else some (min best sc)))
          (if isMax then -INT_MAX else INT_MAX) := by
  rw [MinimaxAI.minimax, checkForWinner_eq_firstMatch_aux hb hN, Option.some_bind,
    score_eq hb hN, isBoardFull_eq_emptyCells hb, Option.some_bind]
  by_cases hw : b.firstMatch = Symbol.None
  · have hw1 : ¬ (Symbol.None ≠ b.firstMatch) := fun h => h hw.symm
    have hw2 : ¬ (b.firstMatch ≠ Symbol.None) := fun h => h hw
    rw [if_neg hw1, if_neg hw2]
    by_cases he : b.emptyCells = []
    · simp [he]
    · by_cases hd : depth = 0
      · simp [he, hd]
      · have hd1 : ¬ (0 = depth) := fun h => hd h.symm
        simp only [he, decide_False, Bool.false_eq_true, if_false, hd, hd1]
        rw [foldCells_eq hb
          (fun (bestScore : Int) (p : QPoint) =>
            (b.makeMove p (if isMax then s else b.getOpponent s)).bind
              (fun moved =>
                (if depth - 1 < INT_MIN then none
                  else MinimaxAI.minimax fuel moved.2 (depth - 1) (!isMax) s).bind
                  (fun score_calc =>
                    if isMax then some (max bestScore score_calc)
                    else some (min bestScore score_calc))))]
        apply foldlM_congr_mem
        intro st p hp
        rw [makeMove_of_mem_emptyCells hp]
        rfl
  · have hw1 : Symbol.None ≠ b.firstMatch := fun h => hw h.symm
    rw [if_pos hw1, if_pos hw]

/-- One step of `MinimaxAI::minimax` at a depth above `INT_MIN`, where `depth - 1` is
an `int`. -/
theorem minimax_succ {b : Board} (hb : b.GridShape) (hN : 1 ≤ b.size) {depth : Int}
    (hd : INT_MIN < depth) (fuel : Nat) (isMax : Bool) (s : Symbol) :
    MinimaxAI.minimax (fuel + 1) b depth isMax s =
      if b.firstMatch ≠ Symbol.None then
        some (if b.firstMatch = s then DEFAULT_MAX_SCORE
          else if b.getOpponent s = b.firstMatch then DEFAULT_MIN_SCORE else 0)
      else if b.emptyCells = [] then some 0
      else if depth = 0 then some 0
      else
        b.emptyCells.foldlM
          (fun (best : Int) (p : QPoint) =>
            (MinimaxAI.minimax fuel (b.place p (if isMax then s else b.getOpponent s))
              (depth - 1) (!isMax) s).bind
              (fun sc => if isMax then some (max best sc) else some (min best sc)))
          (if isMax then -INT_MAX else INT_MAX) := by
  have hno : ¬ (depth - 1 < INT_MIN) := by omega
  rw [minimax_succ_raw hb hN]
  simp only [if_neg hno]

/-- One step of `MinimaxAI::minimax` at the depth `INT_MIN`: past the base cases the
first nested call overflows. -/
theorem minimax_succ_overflow {b : Board} (hb : b.GridShape) (hN : 1 ≤ b.size) {depth : Int}
    (hd : depth ≤ INT_MIN) (fuel : Nat) (isMax : Bool) (s : Symbol) :
    MinimaxAI.minimax (fuel + 1) b depth isMax s =
      if b.firstMatch ≠ Symbol.None then
        some (if b.firstMatch = s then DEFAULT_MAX_SCORE
          else if b.getOpponent s = b.firstMatch then DEFAULT_MIN_SCORE else 0)
      else if b.emptyCells = [] then some 0
      else none := by
  have hyes : depth - 1 < INT_MIN := by omega
  have hd0 : depth ≠ 0 := by
    simp only [INT_MIN] at hd
    omega
  rw [minimax_succ_raw hb hN]
  simp only [if_pos hyes, if_neg hd0]
  by_cases hw : b.firstMatch ≠ Symbol.None
  · rw [if_pos hw, if_pos hw]
  · rw [if_neg hw, if_neg hw]
    by_cases he : b.emptyCells = []
    · rw [if_pos he, if_pos he]
    · rw [if_neg he, if_neg he]
      obtain ⟨p0, l, hl⟩ := List.exists_cons_of_ne_nil he
      rw [hl, List.foldlM_cons]
      rfl

/-! ## Folding scores with max and min -/

/-- A fold that takes the maximum of scores, all of which are defined: the result
bounds the initial value and every score and is one of them. -/
theorem foldlM_max {α : Type} (g : α → Option Int) (l : List α)
    (hg : ∀ p ∈ l, ∃ v, g p = some v) : ∀ init : Int,
    ∃ r, l.foldlM (fun (best : Int) (p : α) => (g p).bind (fun sc => some (max best sc))) init
        = some r ∧ init ≤ r ∧ (∀ p ∈ l, ∀ v, g p = some v → v ≤ r) ∧
      (r = init ∨ ∃ p ∈ l, g p = some r) := by
  induction l with
  | nil =>
    intro init
    exact ⟨init, rfl, le_refl _, fun p hp => absurd hp (List.not_mem_nil _), Or.inl rfl⟩
  | cons a l ih =>
    intro init
    obtain ⟨v, hv⟩ := hg a (List.mem_cons_self _ _)
    obtain ⟨r, hr, h1, h2, h3⟩ := ih (fun p hp => hg p (List.mem_cons_of_mem _ hp)) (max init v)
    refine ⟨r, ?_, le_trans (le_max_left _ _) h1, ?_, ?_⟩
    · rw [List.foldlM_cons, hv]
      exact hr
    · intro p hp w hw
      rcases List.mem_cons.1 hp with rfl | hp
      · rw [hv] at hw
        obtain rfl := Option.some.inj hw
        exact le_trans (le_max_right _ _) h1
      · exact h2 p hp w hw
    · rcases h3 with h3 | ⟨p, hp, hpr⟩
      · rcases max_choice init v with hm | hm
        · left; rw [h3, hm]
        · right
          exact ⟨a, List.mem_cons_self _ _, by rw [hv, h3, hm]⟩
      · right
        exact ⟨p, List.mem_cons_of_mem _ hp, hpr⟩

/-- A fold that takes the minimum of scores, all of which are defined. -/
theorem foldlM_min {α : Type} (g : α → Option Int) (l : List α)
    (hg : ∀ p ∈ l, ∃ v, g p = some v) : ∀ init : Int,
    ∃ r, l.foldlM (fun (best : Int) (p : α) => (g p).bind (fun sc => some (min best sc))) init
        = some r ∧ r ≤ init ∧ (∀ p ∈ l, ∀ v, g p = some v → r ≤ v) ∧
      (r = init ∨ ∃ p ∈ l, g p = some r) := by
  induction l with
  | nil =>
    intro init
    exact ⟨init, rfl, le_refl _, fun p hp => absurd hp (List.not_mem_nil _), Or.inl rfl⟩
  | cons a l ih =>
    intro init
    obtain ⟨v, hv⟩ := hg a (List.mem_cons_self _ _)
    obtain ⟨r, hr, h1, h2, h3⟩ := ih (fun p hp => hg p (List.mem_cons_of_mem _ hp)) (min init v)
    refine ⟨r, ?_, le_trans h1 (min_le_left _ _), ?_, ?_⟩
    · rw [List.foldlM_cons, hv]
      exact hr
    · intro p hp w hw
      rcases List.mem_cons.1 hp with rfl | hp
      · rw [hv] at hw
        obtain rfl := Option.some.inj hw
        exact le_trans h1 (min_le_right _ _)
      · exact h2 p hp w hw
    · rcases h3 with h3 | ⟨p, hp, hpr⟩
      · rcases min_choice init v with hm | hm
        · left; rw [h3, hm]
        · right
          exact ⟨a, List.mem_cons_self _ _, by rw [hv, h3, hm]⟩
      · right
        exact ⟨p, List.mem_cons_of_mem _ hp, hpr⟩

/-- For `X` and `O` the search returns when its fuel exceeds the number of empty
cells and its depth can be counted down within `int`, and its result lies between
the minimum and the maximum score. -/
theorem minimax_total {s : Symbol} (hs : s ≠ Symbol.None) (fuel : Nat) :
    ∀ (b : Board) (depth : Int) (isMax : Bool), b.GridShape → 1 ≤ b.size →
      b.emptyCells.length < fuel → MinimaxAI.DepthInRange depth b.emptyCells.length →
      ∃ v, MinimaxAI.minimax fuel b depth isMax s = some v ∧
        DEFAULT_MIN_SCORE ≤ v ∧ v ≤ DEFAULT_MAX_SCORE := by
  induction fuel with
  | zero => intro b depth isMax _ _ h; omega
  | succ fuel ih =>
    intro b depth isMax hb hN hlen hrange
    unfold MinimaxAI.DepthInRange at hrange
    by_cases hmin : ¬ (INT_MIN < depth)
    · have he0 : b.emptyCells = [] := by
        apply List.eq_nil_of_length_eq_zero
        simp only [INT_MIN] at hmin hrange
        omega
      rw [minimax_succ_overflow hb hN (by omega)]
      by_cases hw : b.firstMatch ≠ Symbol.None
      · rw [if_pos hw]
        refine ⟨_, rfl, ?_, ?_⟩ <;> split <;> try split
        all_goals simp [DEFAULT_MIN_SCORE, DEFAULT_MAX_SCORE]
      · rw [if_neg hw, if_pos he0]
        exact ⟨0, rfl, by simp [DEFAULT_MIN_SCORE], by simp [DEFAULT_MAX_SCORE]⟩
    rw [minimax_succ hb hN (not_not.1 hmin)]
    by_cases hw : b.firstMatch ≠ Symbol.None
    · rw [if_pos hw]
      refine ⟨_, rfl, ?_, ?_⟩ <;> split <;> try split
      all_goals simp [DEFAULT_MIN_SCORE, DEFAULT_MAX_SCORE]
    · rw [if_neg hw]
      by_cases he : b.emptyCells = []
      · rw [if_pos he]
        exact ⟨0, rfl, by simp [DEFAULT_MIN_SCORE], by simp [DEFAULT_MAX_SCORE]⟩
      · rw [if_neg he]
        by_cases hd : depth = 0
        · rw [if_pos hd]
          exact ⟨0, rfl, by simp [DEFAULT_MIN_SCORE], by simp [DEFAULT_MAX_SCORE]⟩
        · rw [if_neg hd]
          have hsym : (if isMax then s else b.getOpponent s) ≠ Symbol.None := by
            cases isMax
            · simpa using getOpponent_ne_none b hs
            · simpa using hs
          have hchild : ∀ p ∈ b.emptyCells, ∃ v,
              MinimaxAI.minimax fuel (b.place p (if isMax then s else b.getOpponent s))
                (depth - 1) (!isMax) s = some v ∧
              DEFAULT_MIN_SCORE ≤ v ∧ v ≤ DEFAULT_MAX_SCORE := by
            intro p hp
            obtain ⟨hsize, hshape, -, -⟩ := place_spec hp (if isMax then s else b.getOpponent s)
            have hl := length_emptyCells_place hp hsym
            refine ih _ _ _ (hshape hb) (by omega) (by omega) ?_
            unfold MinimaxAI.DepthInRange
            rcases hrange with h0 | h0
            · left; omega
            · right; omega
          obtain ⟨p0, hp0⟩ := List.exists_mem_of_ne_nil _ he
          obtain ⟨v0, hv0, hlo0, hhi0⟩ := hchild p0 hp0
          cases isMax with
          | true =>
            simp only [if_true]
            obtain ⟨r, hr, -, h2, h3⟩ := foldlM_max _ b.emptyCells
              (fun p hp => (hchild p hp).imp (fun v hv => hv.1)) (-INT_MAX)
            refine ⟨r, hr, le_trans hlo0 (h2 p0 hp0 v0 hv0), ?_⟩
            rcases h3 with h3 | ⟨p, hp, hpr⟩
            · have := h2 p0 hp0 v0 hv0
              rw [h3] at this
              simp only [DEFAULT_MIN_SCORE, INT_MAX] at *
              omega
            · obtain ⟨v, hv, -, hhi⟩ := hchild p hp
              rw [hpr] at hv
              rw [Option.some.inj hv]
              exact hhi
          | false =>
            simp only [Bool.false_eq_true, if_false]
            obtain ⟨r, hr, -, h2, h3⟩ := foldlM_min _ b.emptyCells
              (fun p hp => (hchild p hp).imp (fun v hv => hv.1)) INT_MAX
            refine ⟨r, hr, ?_, le_trans (h2 p0 hp0 v0 hv0) hhi0⟩
            rcases h3 with h3 | ⟨p, hp, hpr⟩
            · have := h2 p0 hp0 v0 hv0
              rw [h3] at this
              simp only [DEFAULT_MAX_SCORE, INT_MAX] at *
              omega
            · obtain ⟨v, hv, hlo, -⟩ := hchild p hp
              rw [hpr] at hv
              rw [Option.some.inj hv]
              exact hlo

/-! ## The move chosen by MinimaxAI::makeMove -/

/-- `MinimaxAI::makeMove` on a board of the right shape: one fold over the empty
cells that keeps the best score so far and the cell that reached it first. -/
theorem minimaxMakeMove_eq {b : Board} (hb : b.GridShape) (fuel : Nat) (level : GameLevel)
    (s : Symbol) :
    MinimaxAI.makeMove fuel level b s =
      (b.emptyCells.foldlM
        (fun (st : Int × QPoint) (p : QPoint) =>
          (MinimaxAI.minimax fuel (b.place p s) level.raw false s).bind
            (fun sc => if sc > st.1 then some (sc, p) else some st))
        (-INT_MAX, ⟨0, 0⟩)).map (fun st => st.2) := by
  unfold MinimaxAI.makeMove
  rw [foldCells_eq hb
    (fun (st : Int × QPoint) (p : QPoint) =>
      (b.makeMove p s).bind (fun moved =>
        (MinimaxAI.minimax fuel moved.2 level.raw false s).bind (fun score_calc =>
          if score_calc > st.1 then some (score_calc, p) else some st)))]
  congr 1
  apply foldlM_congr_mem
  intro st p hp
  rw [makeMove_of_mem_emptyCells hp]
  rfl

/-- A fold that replaces the best pair only by a strictly better score ends on the
first element of the list that has the maximal score. -/
theorem foldlM_first_max {α : Type} (g : α → Option Int) (init : Int) (d : α) (l : List α)
    (hg : ∀ p ∈ l, ∃ v, g p = some v ∧ init < v) :
    ∃ st, l.foldlM
        (fun (st : Int × α) (p : α) =>
          (g p).bind (fun sc => if sc > st.1 then some (sc, p) else some st)) (init, d)
        = some st ∧
      ((l = [] ∧ st = (init, d)) ∨
        ∃ l1 l2, l = l1 ++ st.2 :: l2 ∧ g st.2 = some st.1 ∧
          (∀ q ∈ l1, ∀ w, g q = some w → w < st.1) ∧
          (∀ q ∈ l2, ∀ w, g q = some w → w ≤ st.1)) := by
  induction l using List.reverseRecOn with
  | nil => exact ⟨(init, d), rfl, Or.inl ⟨rfl, rfl⟩⟩
  | append_singleton l a ih =>
    obtain ⟨st, hst, hcase⟩ := ih (fun p hp => hg p (List.mem_append_left _ hp))
    obtain ⟨w, hw, hinit⟩ := hg a (List.mem_append_right _ (List.mem_singleton_self a))
    rw [List.foldlM_append, hst]
    simp only [Option.some_bind, List.foldlM_cons, List.foldlM_nil, hw]
    by_cases hgt : w > st.1
    · refine ⟨(w, a), by simp [hgt], Or.inr ⟨l, [], by simp, hw, ?_, ?_⟩⟩
      · intro q hq u hu
        rcases hcase with ⟨rfl, -⟩ | ⟨l1, l2, hl, hbest, h1, h2⟩
        · exact absurd hq (List.not_mem_nil _)
        · rw [hl] at hq
          rcases List.mem_append.1 hq with hq | hq
          · exact lt_trans (h1 q hq u hu) hgt
          · rcases List.mem_cons.1 hq with rfl | hq
            · rw [hbest] at hu
              rw [← Option.some.inj hu]
              exact hgt
            · exact lt_of_le_of_lt (h2 q hq u hu) hgt
      · intro q hq
        exact absurd hq (List.not_mem_nil _)
    · refine ⟨st, by simp [hgt], Or.inr ?_⟩
      rcases hcase with ⟨rfl, hst0⟩ | ⟨l1, l2, hl, hbest, h1, h2⟩
      · exfalso
        rw [hst0] at hgt
        exact hgt hinit
      · refine ⟨l1, l2 ++ [a], by simp [hl], hbest, h1, ?_⟩
        intro q hq u hu
        rcases List.mem_append.1 hq with hq | hq
        · exact h2 q hq u hu
        · rw [List.mem_singleton.1 hq, hw] at hu
          rw [← Option.some.inj hu]
          exact not_lt.1 hgt

/-- When every empty cell has a score above the initial `-INT_MAX`, the move returned
is an empty cell with the maximal score, and the first such cell in row-major order. -/
theorem minimaxMakeMove_of_scores {b : Board} (hb : b.GridShape) (fuel : Nat)
    (level : GameLevel) (s : Symbol) (hne : b.emptyCells ≠ [])
    (hscore : ∀ p ∈ b.emptyCells, ∃ v,
      MinimaxAI.minimax fuel (b.place p s) level.raw false s = some v ∧ -INT_MAX < v) :
    ∃ pos v, MinimaxAI.makeMove fuel level b s = some pos ∧ pos ∈ b.emptyCells ∧
      MinimaxAI.minimax fuel (b.place pos s) level.raw false s = some v ∧
      ∀ q ∈ b.emptyCells, ∀ w,
        MinimaxAI.minimax fuel (b.place q s) level.raw false s = some w →
          w ≤ v ∧ (w = v → pos.RowMajorLE q) := by
  obtain ⟨st, hst, hcase⟩ := foldlM_first_max
    (fun p => MinimaxAI.minimax fuel (b.place p s) level.raw false s) (-INT_MAX) ⟨0, 0⟩
    b.emptyCells hscore
  rcases hcase with ⟨hnil, -⟩ | ⟨l1, l2, hl, hbest, h1, h2⟩
  · exact absurd hnil hne
  · have hmem : st.2 ∈ b.emptyCells := by rw [hl]; simp
    refine ⟨st.2, st.1, ?_, hmem, hbest, ?_⟩
    · rw [minimaxMakeMove_eq hb, hst]
      rfl
    · intro q hq w hw
      have hpw := emptyCells_pairwise b
      rw [hl] at hq hpw
      rcases List.mem_append.1 hq with hq | hq
      · have := h1 q hq w hw
        exact ⟨le_of_lt this, fun h => absurd h (ne_of_lt this)⟩
      · rcases List.mem_cons.1 hq with rfl | hq
        · have hw1 : some st.1 = some w := hbest.symm.trans hw
          refine ⟨le_of_eq (Option.some.inj hw1).symm, fun _ => ?_⟩
          unfold QPoint.RowMajorLE; omega
        · refine ⟨h2 q hq w hw, fun _ => ?_⟩
          have hlt : st.2.RowMajorLT q :=
            List.rel_of_pairwise_cons (List.pairwise_append.1 hpw).2.1 hq
          unfold QPoint.RowMajorLT at hlt
          unfold QPoint.RowMajorLE
          omega

/-! ## The symbol `None` in the search -/

theorem set_of_getElem? {α : Type} {l : List α} {i : Nat} {a : α} (h : l[i]? = some a) :
    l.set i a = l := by
  induction l generalizing i with
  | nil => simp
  | cons x l ih =>
    cases i with
    | zero =>
      simp only [List.getElem?_cons_zero, Option.some.injEq] at h
      simp [h]
    | succ i =>
      simp only [List.getElem?_cons_succ] at h
      simp [ih h]

/-- Writing `None` on an empty cell leaves the board as it is. -/
theorem place_none {b : Board} {p : QPoint} (hp : p ∈ b.emptyCells) :
    b.place p Symbol.None = b := by
  obtain ⟨-, hc⟩ := mem_emptyCells.1 hp
  rw [cell_eq_some_iff] at hc
  obtain ⟨h0, h2, r, hr, hcs⟩ := hc
  have hrlt : p.y.toNat < b.board.length := by
    by_contra hcon
    rw [List.getElem?_eq_none (by omega)] at hr
    exact absurd hr (by simp)
  have hclt : p.x.toNat < r.length := by
    by_contra hcon
    rw [List.getElem?_eq_none (by omega)] at hcs
    exact absurd hcs (by simp)
  have e1 : vecAt b.board p.y = some r := (vecAt_eq_some_iff _ _ _).2 ⟨h0, hr⟩
  have e2 : vecSet r p.x Symbol.None = some r := by
    rw [vecSet_eq_some_iff]
    exact ⟨h2, hclt, (set_of_getElem? hcs).symm⟩
  have e3 : vecSet b.board p.y r = some b.board := by
    rw [vecSet_eq_some_iff]
    exact ⟨h0, hrlt, (set_of_getElem? hr).symm⟩
  unfold Board.place Board.setCell
  simp [e1, e2, e3]

/-- With the symbol `None` and a depth that is not negative, the search returns 0
when its fuel exceeds the depth. -/
theorem minimax_none_total (fuel : Nat) :
    ∀ (b : Board) (depth : Int) (isMax : Bool), b.GridShape → 1 ≤ b.size →
      0 ≤ depth → depth < fuel →
      MinimaxAI.minimax fuel b depth isMax Symbol.None = some 0 := by
  induction fuel with
  | zero => intro b depth isMax _ _ h0 h1; simp at h1; omega
  | succ fuel ih =>
    intro b depth isMax hb hN h0 h1
    rw [minimax_succ hb hN (lt_of_lt_of_le (by decide) h0)]
    by_cases hw : b.firstMatch ≠ Symbol.None
    · rw [if_pos hw]
      have h2 : ¬ b.firstMatch = Symbol.None := hw
      have h3 : ¬ Symbol.None = b.firstMatch := fun h => hw h.symm
      simp [h2, h3, Board.getOpponent]
    · rw [if_neg hw]
      by_cases he : b.emptyCells = []
      · rw [if_pos he]
      · rw [if_neg he]
        by_cases hd : depth = 0
        · rw [if_pos hd]
        · rw [if_neg hd]
          have hsym : (if isMax then Symbol.None else b.getOpponent Symbol.None) = Symbol.None := by
            cases isMax <;> rfl
          rw [hsym]
          have hchild : ∀ p ∈ b.emptyCells,
              MinimaxAI.minimax fuel (b.place p Symbol.None) (depth - 1) (!isMax) Symbol.None
                = some 0 := by
            intro p hp
            rw [place_none hp]
            exact ih b (depth - 1) (!isMax) hb hN (by omega) (by push_cast at h1; omega)
          obtain ⟨p0, hp0⟩ := List.exists_mem_of_ne_nil _ he
          cases isMax with
          | true =>
            simp only [if_true]
            obtain ⟨r, hr, -, h2, h3⟩ := foldlM_max _ b.emptyCells
              (fun p hp => ⟨0, hchild p hp⟩) (-INT_MAX)
            rw [hr]
            congr 1
            rcases h3 with h3 | ⟨p, hp, hpr⟩
            · have := h2 p0 hp0 0 (hchild p0 hp0)
              rw [h3] at this
              simp only [INT_MAX] at this
              omega
            · rw [hchild p hp] at hpr
              exact (Option.some.inj hpr).symm
          | false =>
            simp only [Bool.false_eq_true, if_false]
            obtain ⟨r, hr, -, h2, h3⟩ := foldlM_min _ b.emptyCells
              (fun p hp => ⟨0, hchild p hp⟩) INT_MAX
            rw [hr]
            congr 1
            rcases h3 with h3 | ⟨p, hp, hpr⟩
            · have := h2 p0 hp0 0 (hchild p0 hp0)
              rw [h3] at this
              simp only [INT_MAX] at this
              omega
            · rw [hchild p hp] at hpr
              exact (Option.some.inj hpr).symm

/-- With the symbol `None` and a negative depth the search never returns on a board
that has an empty cell and no complete line: every nested call sees the same board. -/
theorem minimax_none_diverges {b : Board} (hb : b.GridShape) (hN : 1 ≤ b.size)
    (hw : b.firstMatch = Symbol.None) (he : b.emptyCells ≠ []) (fuel : Nat) :
    ∀ (depth : Int) (isMax : Bool), depth < 0 →
      MinimaxAI.minimax fuel b depth isMax Symbol.None = none := by
  induction fuel with
  | zero => intro depth isMax _; rfl
  | succ fuel ih =>
    intro depth isMax hd
    have hw1 : ¬ b.firstMatch ≠ Symbol.None := fun h => h hw
    by_cases hmin : ¬ (INT_MIN < depth)
    · rw [minimax_succ_overflow hb hN (by omega), if_neg hw1, if_neg he]
    rw [minimax_succ hb hN (not_not.1 hmin)]
    have hd1 : ¬ depth = 0 := by omega
    rw [if_neg hw1, if_neg he, if_neg hd1]
    have hsym : (if isMax then Symbol.None else b.getOpponent Symbol.None) = Symbol.None := by
      cases isMax <;> rfl
    rw [hsym]
    obtain ⟨p0, l, hl⟩ := List.exists_cons_of_ne_nil he
    have hp0 : p0 ∈ b.emptyCells := by rw [hl]; exact List.mem_cons_self _ _
    rw [hl, List.foldlM_cons, place_none hp0, ih (depth - 1) (!isMax) (by omega)]
    rfl

theorem minimaxMakeMove_none_diverges {b : Board} (hb : b.GridShape) (hN : 1 ≤ b.size)
    (hw : b.firstMatch = Symbol.None) (he : b.emptyCells ≠ []) (fuel : Nat)
    (level : GameLevel) (hl : level.raw < 0) :
    MinimaxAI.makeMove fuel level b Symbol.None = none := by
  rw [minimaxMakeMove_eq hb]
  obtain ⟨p0, l, hl0⟩ := List.exists_cons_of_ne_nil he
  have hp0 : p0 ∈ b.emptyCells := by rw [hl0]; exact List.mem_cons_self _ _
  rw [hl0, List.foldlM_cons, place_none hp0,
    minimax_none_diverges hb hN hw he fuel level.raw false hl]
  rfl

/-- The scores of the empty cells are defined and above `-INT_MAX` for `X` and `O`
when the fuel reaches the number of empty cells and the level can be counted down
within `int`, and for `None` when the level is not negative and below the fuel. -/
theorem minimax_scores_defined {b : Board} (hb : b.GridShape) (hN : 1 ≤ b.size)
    (fuel : Nat) (level : GameLevel) (s : Symbol)
    (hfuel : (s ≠ Symbol.None ∧ b.emptyCells.length ≤ fuel ∧
        MinimaxAI.DepthInRange level.raw b.emptyCells.length) ∨
      (s = Symbol.None ∧ 0 ≤ level.raw ∧ level.raw < fuel)) :
    ∀ p ∈ b.emptyCells, ∃ v,
      MinimaxAI.minimax fuel (b.place p s) level.raw false s = some v ∧ -INT_MAX < v := by
  intro p hp
  rcases hfuel with ⟨hs, hlen, hrange⟩ | ⟨rfl, h0, h1⟩
  · obtain ⟨hsize, hshape, -, -⟩ := place_spec hp s
    have hl := length_emptyCells_place hp hs
    have hrange1 : MinimaxAI.DepthInRange level.raw (b.place p s).emptyCells.length := by
      unfold MinimaxAI.DepthInRange at hrange ⊢
      rcases hrange with h0 | h0
      · left; exact h0
      · right; omega
    obtain ⟨v, hv, hlo, -⟩ := minimax_total hs fuel (b.place p s) level.raw false (hshape hb)
      (by omega) (by omega) hrange1
    refine ⟨v, hv, ?_⟩
    simp only [DEFAULT_MIN_SCORE, INT_MAX] at *
    omega
  · rw [place_none hp]
    exact ⟨0, minimax_none_total fuel b level.raw false hb hN h0 h1, by simp [INT_MAX]⟩

/-- At a depth of `INT_MIN` the search does not return on a board that has an empty
cell and no complete line: the first nested call needs `depth - 1`, which is not an
`int`. -/
theorem minimax_overflow {b : Board} (hb : b.GridShape) (hN : 1 ≤ b.size)
    (hw : b.firstMatch = Symbol.None) (he : b.emptyCells ≠ []) {depth : Int}
    (hd : depth ≤ INT_MIN) (fuel : Nat) (isMax : Bool) (s : Symbol) :
    MinimaxAI.minimax fuel b depth isMax s = none := by
  cases fuel with
  | zero => rfl
  | succ fuel =>
    rw [minimax_succ_overflow hb hN hd, if_neg (not_not.2 hw), if_neg he]

/-- At a level of `INT_MIN`, `MinimaxAI::makeMove` does not return when the first empty
cell leads to a board with an empty cell and no complete line. -/
theorem minimaxMakeMove_overflow {b : Board} (hb : b.GridShape) (hN : 1 ≤ b.size)
    {s : Symbol} {level : GameLevel} (hl : level.raw ≤ INT_MIN) {p : QPoint}
    {l : List QPoint} (hcells : b.emptyCells = p :: l)
    (hw : (b.place p s).firstMatch = Symbol.None) (he : (b.place p s).emptyCells ≠ [])
    (fuel : Nat) : MinimaxAI.makeMove fuel level b s = none := by
  have hp : p ∈ b.emptyCells := by rw [hcells]; exact List.mem_cons_self _ _
  obtain ⟨hsize, hshape, -, -⟩ := place_spec hp s
  rw [minimaxMakeMove_eq hb, hcells, List.foldlM_cons,
    minimax_overflow (hshape hb) (by omega) hw he hl]
  rfl

/-- C12, as stated, fails for the symbol `None` with a negative level: on the empty
3 x 3 board `MinimaxAI::makeMove` with level -1 never returns, whatever number of
nested calls it is given, because placing `None` leaves the board unchanged and the
depth never reaches 0.  It also fails for `X` at the level `INT_MIN`: the first nested
call of the search computes `INT_MIN - 1`, a signed overflow, so the call has no
defined result. -/
theorem minimaxMakeMove_every_symbol_counterexample :
    (emptyBoard 3).GridShape ∧ (emptyBoard 3).isEmpty ⟨0, 0⟩ = some true ∧
    (emptyBoard 3).makeMove ⟨0, 0⟩ Symbol.None = some (true, emptyBoard 3) ∧
    (¬ ∃ fuel, MinimaxAI.makeMove fuel ⟨-1⟩ (emptyBoard 3) Symbol.None ≠ none) ∧
    ¬ ∃ fuel, MinimaxAI.makeMove fuel ⟨INT_MIN⟩ (emptyBoard 3) Symbol.X ≠ none := by
  refine ⟨by decide, by decide, by decide, ?_, ?_⟩
  · rintro ⟨fuel, h⟩
    exact h (minimaxMakeMove_none_diverges (by decide) (by decide) (by decide) (by decide) fuel
      ⟨-1⟩ (by decide))
  · rintro ⟨fuel, h⟩
    have hcells : (emptyBoard 3).emptyCells
        = ⟨0, 0⟩ :: [⟨1, 0⟩, ⟨2, 0⟩, ⟨0, 1⟩, ⟨1, 1⟩, ⟨2, 1⟩, ⟨0, 2⟩, ⟨1, 2⟩, ⟨2, 2⟩] := by
      decide
    exact h (minimaxMakeMove_overflow (by decide) (by decide) (le_refl _) hcells (by decide)
      (by decide) fuel)

/-- C12, amended: for every board of the right shape with at least one empty cell, with
the symbol `X` or `O` and a level that can be counted down within `int` (a level that
is not negative, or one at least the number of empty cells above `INT_MIN`; and fuel
for as many nested calls as there are empty cells), or with the symbol `None` and a
level that is not negative (and fuel above the level), `MinimaxAI::makeMove` returns
an in-bounds empty cell whose score,
`minimax(board with symbol placed there, level, false, symbol)`, is the maximum over
all empty cells, and among the cells with that score the first in row-major order. -/
theorem minimaxMakeMove_firstMax (board : Board) (hb : board.GridShape) (symbol : Symbol)
    (level : GameLevel) (fuel : Nat)
    (hempty : ∃ q, board.InBounds q ∧ board.cell q.y q.x = some Symbol.None)
    (hfuel : (symbol ≠ Symbol.None ∧ board.emptyCells.length ≤ fuel ∧
        MinimaxAI.DepthInRange level.raw board.emptyCells.length) ∨
      (symbol = Symbol.None ∧ 0 ≤ level.raw ∧ level.raw < fuel)) :
    ∃ pos v, MinimaxAI.makeMove fuel level board symbol = some pos ∧
      board.InBounds pos ∧ board.cell pos.y pos.x = some Symbol.None ∧
      (∃ b1, board.makeMove pos symbol = some (true, b1) ∧
        MinimaxAI.minimax fuel b1 level.raw false symbol = some v) ∧
      ∀ q, board.InBounds q → board.cell q.y q.x = some Symbol.None →
        ∃ bq w, board.makeMove q symbol = some (true, bq) ∧
          MinimaxAI.minimax fuel bq level.raw false symbol = some w ∧
          w ≤ v ∧ (w = v → pos.RowMajorLE q) := by
  obtain ⟨q0, hq0in, hq0c⟩ := hempty
  have hN : 1 ≤ board.size := by unfold Board.InBounds at hq0in; omega
  have hne : board.emptyCells ≠ [] := List.ne_nil_of_mem (mem_emptyCells.2 ⟨hq0in, hq0c⟩)
  have hscore := minimax_scores_defined hb hN fuel level symbol hfuel
  obtain ⟨pos, v, hmove, hmem, hv, hmax⟩ := minimaxMakeMove_of_scores hb fuel level symbol hne hscore
  obtain ⟨hin, hc⟩ := mem_emptyCells.1 hmem
  refine ⟨pos, v, hmove, hin, hc, ⟨_, makeMove_of_mem_emptyCells hmem symbol, hv⟩, ?_⟩
  intro q hqin hqc
  have hq := mem_emptyCells.2 ⟨hqin, hqc⟩
  obtain ⟨w, hw, -⟩ := hscore q hq
  obtain ⟨h1, h2⟩ := hmax q hq w hw
  exact ⟨_, w, makeMove_of_mem_emptyCells hq symbol, hw, h1, h2⟩

/-- An instance of the amended C12: at level 0 on a 3 x 3 board with five empty cells,
none of which completes a line for `X`, the strategy returns the first empty cell,
row 0, column 2. -/
theorem minimaxMakeMove_firstMax_witness :
    sampleBoard.GridShape ∧ sampleBoard.emptyCells.length = 5 ∧
    MinimaxAI.makeMove 5 ⟨0⟩ sampleBoard Symbol.X = some ⟨2, 0⟩ ∧
    ∃ pos v, MinimaxAI.makeMove 5 ⟨0⟩ sampleBoard Symbol.X = some pos ∧
      sampleBoard.InBounds pos ∧ sampleBoard.cell pos.y pos.x = some Symbol.None ∧
      (∃ b1, sampleBoard.makeMove pos Symbol.X = some (true, b1) ∧
        MinimaxAI.minimax 5 b1 0 false Symbol.X = some v) ∧
      ∀ q, sampleBoard.InBounds q → sampleBoard.cell q.y q.x = some Symbol.None →
        ∃ bq w, sampleBoard.makeMove q Symbol.X = some (true, bq) ∧
          MinimaxAI.minimax 5 bq 0 false Symbol.X = some w ∧
          w ≤ v ∧ (w = v → pos.RowMajorLE q) :=
  ⟨by decide, by decide, by decide,
   minimaxMakeMove_firstMax sampleBoard (by decide) Symbol.X ⟨0⟩ 5
     ⟨⟨2, 0⟩, by decide, by decide⟩ (Or.inl ⟨by decide, by decide, by decide⟩)⟩

/-- C18: `ComputerPlayer::makeMove` does not depend on the position it is passed: for
every two hints the returned flag, the resulting board and the recorded `curPos` are
equal.  With a strategy they are those of the specification (choose `m`, record
`lastMove := m`, return `board.applyMove(m, symbol)`), and the symbol and the strategy
are kept.  With a minimax strategy and the symbol `X` or `O` the call returns on every
board of the right shape once the fuel reaches the number of empty cells, at every
level that can be counted down within `int`. -/
theorem computerMakeMove_spec (rand : Nat → Nat) (fuel : Nat) (p : Player)
    (hint1 hint2 : QPoint) (board : Board) :
    ComputerPlayer.makeMove rand fuel p hint1 board
      = ComputerPlayer.makeMove rand fuel p hint2 board ∧
    (∀ ai, p.ai = some ai →
      (ComputerPlayer.makeMove rand fuel p hint1 board).map
          (fun r => (r.1, r.2.1.curPos, r.2.2))
        = ComputerAgent.makeMoveSpec rand fuel ai p.symbol board ∧
      ∀ r p1 b1, ComputerPlayer.makeMove rand fuel p hint1 board = some (r, p1, b1) →
        p1.symbol = p.symbol ∧ p1.ai = p.ai) ∧
    (∀ level, p.ai = some ⟨AIKind.Minimax, level⟩ → p.symbol ≠ Symbol.None →
      board.GridShape → 1 ≤ board.size → board.emptyCells.length ≤ fuel →
      MinimaxAI.DepthInRange level.raw board.emptyCells.length →
      ∃ r p1 b1, ComputerPlayer.makeMove rand fuel p hint1 board = some (r, p1, b1)) := by
  refine ⟨rfl, ?_, ?_⟩
  · intro ai hai
    unfold ComputerPlayer.makeMove ComputerAgent.makeMoveSpec
    simp only [hai]
    constructor
    · cases ai.makeMove rand fuel board p.symbol with
      | none => rfl
      | some m =>
        simp only [Option.some_bind, Option.map_map]
        cases board.makeMove m p.symbol with
        | none => rfl
        | some res => rfl
    · intro r p1 b1 h
      cases hm : ai.makeMove rand fuel board p.symbol with
      | none => simp [hm] at h
      | some m =>
        simp only [hm, Option.some_bind] at h
        cases hb : board.makeMove m p.symbol with
        | none => simp [hb] at h
        | some res =>
          simp only [hb, Option.map_some', Option.some.injEq, Prod.mk.injEq] at h
          obtain ⟨-, rfl, -⟩ := h
          exact ⟨rfl, rfl⟩
  · intro level hai hs hb hN hlen hrange
    have hchoose : ∃ m, MinimaxAI.makeMove fuel level board p.symbol = some m := by
      by_cases he : board.emptyCells = []
      · rw [minimaxMakeMove_eq hb, he]
        exact ⟨_, rfl⟩
      · obtain ⟨pos, v, hmove, -⟩ := minimaxMakeMove_of_scores hb fuel level p.symbol he
          (minimax_scores_defined hb hN fuel level p.symbol (Or.inl ⟨hs, hlen, hrange⟩))
        exact ⟨pos, hmove⟩
    obtain ⟨m, hm⟩ := hchoose
    obtain ⟨r, b1, hr⟩ := makeMove_total hb m p.symbol
    refine ⟨r, ⟨p.ai, p.symbol, m⟩, b1, ?_⟩
    unfold ComputerPlayer.makeMove
    simp only [hai, GameAI.makeMove, hm, Option.some_bind, hr, Option.map_some']

/-- An instance of C18: a minimax player at level 0 on a 3 x 3 board, asked with the
hints `(-1,-1)` and `(1,1)`, plays row 0, column 2 both times and records it. -/
theorem computerMakeMove_spec_witness :
    ComputerPlayer.makeMove (fun _ => 0) 5 ⟨some ⟨AIKind.Minimax, ⟨0⟩⟩, Symbol.X, ⟨1, 1⟩⟩
        ⟨-1, -1⟩ sampleBoard
      = ComputerPlayer.makeMove (fun _ => 0) 5 ⟨some ⟨AIKind.Minimax, ⟨0⟩⟩, Symbol.X, ⟨1, 1⟩⟩
        ⟨1, 1⟩ sampleBoard ∧
    (ComputerPlayer.makeMove (fun _ => 0) 5 ⟨some ⟨AIKind.Minimax, ⟨0⟩⟩, Symbol.X, ⟨1, 1⟩⟩
        ⟨-1, -1⟩ sampleBoard).map (fun r => (r.1, r.2.1.curPos))
      = some (true, ⟨2, 0⟩) ∧
    ∃ r p1 b1, ComputerPlayer.makeMove (fun _ => 0) 5
        ⟨some ⟨AIKind.Minimax, ⟨0⟩⟩, Symbol.X, ⟨1, 1⟩⟩ ⟨-1, -1⟩ sampleBoard = some (r, p1, b1) :=
  ⟨(computerMakeMove_spec (fun _ => 0) 5 ⟨some ⟨AIKind.Minimax, ⟨0⟩⟩, Symbol.X, ⟨1, 1⟩⟩
     ⟨-1, -1⟩ ⟨1, 1⟩ sampleBoard).1,
   by decide,
   (computerMakeMove_spec (fun _ => 0) 5 ⟨some ⟨AIKind.Minimax, ⟨0⟩⟩, Symbol.X, ⟨1, 1⟩⟩
     ⟨-1, -1⟩ ⟨1, 1⟩ sampleBoard).2.2 ⟨0⟩ rfl (by decide) (by decide) (by decide) (by decide)
     (by decide)⟩

/-! ## The children of a grid -/

theorem mem_rowChildren {s : Symbol} {r r1 : List Symbol} :
    r1 ∈ rowChildren s r ↔ ∃ j : Nat, r[j]? = some Symbol.None ∧ r1 = r.set j s := by
  induction r generalizing r1 with
  | nil => simp [rowChildren]
  | cons c rest ih =>
    simp only [rowChildren, List.mem_append, List.mem_map]
    constructor
    · rintro (h | ⟨r2, hr2, rfl⟩)
      · by_cases hc : c = Symbol.None
        · simp only [hc, if_true, List.mem_singleton] at h
          exact ⟨0, by simp [hc], by simp [h]⟩
        · simp [hc] at h
      · obtain ⟨j, hj, rfl⟩ := ih.1 hr2
        exact ⟨j + 1, by simpa using hj, by simp⟩
    · rintro ⟨j, hj, rfl⟩
      cases j with
      | zero =>
        left
        simp only [List.getElem?_cons_zero, Option.some.injEq] at hj
        simp [hj]
      | succ j =>
        right
        simp only [List.getElem?_cons_succ] at hj
        exact ⟨rest.set j s, ih.2 ⟨j, hj, rfl⟩, by simp⟩

theorem mem_gridChildren {s : Symbol} {g g1 : List (List Symbol)} :
    g1 ∈ gridChildren s g ↔
      ∃ (i : Nat) (r : List Symbol) (j : Nat), g[i]? = some r ∧ r[j]? = some Symbol.None ∧
        g1 = g.set i (r.set j s) := by
  induction g generalizing g1 with
  | nil => simp [gridChildren]
  | cons r0 rest ih =>
    simp only [gridChildren, List.mem_append, List.mem_map]
    constructor
    · rintro (⟨r1, hr1, rfl⟩ | ⟨g2, hg2, rfl⟩)
      · obtain ⟨j, hj, rfl⟩ := mem_rowChildren.1 hr1
        exact ⟨0, r0, j, by simp, hj, by simp⟩
      · obtain ⟨i, r, j, hi, hj, rfl⟩ := ih.1 hg2
        exact ⟨i + 1, r, j, by simpa using hi, hj, by simp⟩
    · rintro ⟨i, r, j, hi, hj, rfl⟩
      cases i with
      | zero =>
        left
        simp only [List.getElem?_cons_zero, Option.some.injEq] at hi
        subst hi
        exact ⟨r0.set j s, mem_rowChildren.2 ⟨j, hj, rfl⟩, by simp⟩
      | succ i =>
        right
        simp only [List.getElem?_cons_succ] at hi
        exact ⟨rest.set i (r.set j s), ih.2 ⟨i, r, j, hi, hj, rfl⟩, by simp⟩

/-- The board after placing a symbol on an empty cell, in terms of its grid. -/
theorem place_eq {b : Board} {p : QPoint} (hp : p ∈ b.emptyCells) (s : Symbol) :
    ∃ r, b.board[p.y.toNat]? = some r ∧ r[p.x.toNat]? = some Symbol.None ∧
      b.place p s = ⟨b.size, b.board.set p.y.toNat (r.set p.x.toNat s)⟩ := by
  obtain ⟨-, hc⟩ := mem_emptyCells.1 hp
  rw [cell_eq_some_iff] at hc
  obtain ⟨h0, h2, r, hr, hcs⟩ := hc
  have hrlt : p.y.toNat < b.board.length := by
    by_contra hcon
    rw [List.getElem?_eq_none (by omega)] at hr
    exact absurd hr (by simp)
  have hclt : p.x.toNat < r.length := by
    by_contra hcon
    rw [List.getElem?_eq_none (by omega)] at hcs
    exact absurd hcs (by simp)
  have e1 : vecAt b.board p.y = some r := (vecAt_eq_some_iff _ _ _).2 ⟨h0, hr⟩
  have e2 : vecSet r p.x s = some (r.set p.x.toNat s) :=
    (vecSet_eq_some_iff _ _ _ _).2 ⟨h2, hclt, rfl⟩
  have e3 : vecSet b.board p.y (r.set p.x.toNat s)
      = some (b.board.set p.y.toNat (r.set p.x.toNat s)) :=
    (vecSet_eq_some_iff _ _ _ _).2 ⟨h0, hrlt, rfl⟩
  refine ⟨r, hr, hcs, ?_⟩
  unfold Board.place Board.setCell
  simp [e1, e2, e3]

theorem mem_gridChildren_of_mem_emptyCells {b : Board} {p : QPoint} (hp : p ∈ b.emptyCells)
    (s : Symbol) : (b.place p s).board ∈ gridChildren s b.board := by
  obtain ⟨r, hr, hc, he⟩ := place_eq hp s
  rw [he]
  exact mem_gridChildren.2 ⟨_, r, _, hr, hc, rfl⟩

theorem exists_emptyCell_of_mem_gridChildren {b : Board} (hb : b.GridShape) {s : Symbol}
    {g1 : List (List Symbol)} (h : g1 ∈ gridChildren s b.board) :
    ∃ p ∈ b.emptyCells, (b.place p s).board = g1 := by
  obtain ⟨i, r, j, hi, hj, rfl⟩ := mem_gridChildren.1 h
  obtain ⟨hs, hlen, hrows⟩ := hb
  have hil : i < b.board.length := by
    by_contra hcon
    rw [List.getElem?_eq_none (by omega)] at hi
    exact absurd hi (by simp)
  have hrl := hrows r (List.mem_iff_getElem?.2 ⟨_, hi⟩)
  have hjl : j < r.length := by
    by_contra hcon
    rw [List.getElem?_eq_none (by omega)] at hj
    exact absurd hj (by simp)
  have hp : (⟨(j : Int), (i : Int)⟩ : QPoint) ∈ b.emptyCells := by
    rw [mem_emptyCells]
    refine ⟨by unfold Board.InBounds; simp only; omega, ?_⟩
    rw [cell_eq_some_iff]
    exact ⟨by simp, by simp, r, by simpa using hi, by simpa using hj⟩
  refine ⟨_, hp, ?_⟩
  obtain ⟨r2, hr2, -, he⟩ := place_eq hp s
  simp only [Int.toNat_ofNat] at hr2 he
  rw [hi] at hr2
  obtain rfl := Option.some.inj hr2
  rw [he]

/-! ## The winner of a 3 x 3 grid -/

theorem cell3 (a b c d e f g h i : Symbol) :
    let B : Board := ⟨3, [[a, b, c], [d, e, f], [g, h, i]]⟩
    B.cell 0 0 = some a ∧ B.cell 0 1 = some b ∧ B.cell 0 2 = some c ∧
    B.cell 1 0 = some d ∧ B.cell 1 1 = some e ∧ B.cell 1 2 = some f ∧
    B.cell 2 0 = some g ∧ B.cell 2 1 = some h ∧ B.cell 2 2 = some i := by
  refine ⟨rfl, rfl, rfl, rfl, rfl, rfl, rfl, rfl, rfl⟩

theorem uniform3 (B : Board) (p1 p2 p3 : Nat × Nat) (x y z s : Symbol)
    (h1 : B.cell p1.1 p1.2 = some x) (h2 : B.cell p2.1 p2.2 = some y)
    (h3 : B.cell p3.1 p3.2 = some z) :
    B.Uniform [p1, p2, p3] s ↔ (x = s ∧ y = s ∧ z = s) := by
  unfold Board.Uniform
  simp only [List.mem_cons, List.mem_singleton, List.not_mem_nil, or_false, forall_eq_or_imp,
    forall_eq, h1, h2, h3, Option.some.injEq]

theorem lineSymbol3 (B : Board) (p1 p2 p3 : Nat × Nat) (x y z : Symbol)
    (h1 : B.cell p1.1 p1.2 = some x) (h2 : B.cell p2.1 p2.2 = some y)
    (h3 : B.cell p3.1 p3.2 = some z) :
    B.lineSymbol [p1, p2, p3] = line3 x y z := by
  unfold Board.lineSymbol line3
  rw [if_congr (uniform3 B p1 p2 p3 x y z Symbol.X h1 h2 h3) rfl
    (if_congr (uniform3 B p1 p2 p3 x y z Symbol.O h1 h2 h3) rfl rfl)]

theorem firstMatch3 (a b c d e f g h i : Symbol) :
    (Board.mk 3 [[a, b, c], [d, e, f], [g, h, i]]).firstMatch
      = winner3 [[a, b, c], [d, e, f], [g, h, i]] := by
  have hscan : scanLines (3 : Int).toNat =
      [[(0, 0), (0, 1), (0, 2)], [(1, 0), (1, 1), (1, 2)], [(2, 0), (2, 1), (2, 2)],
       [(0, 0), (1, 0), (2, 0)], [(0, 1), (1, 1), (2, 1)], [(0, 2), (1, 2), (2, 2)],
       [(0, 0), (1, 1), (2, 2)], [(0, 2), (1, 1), (2, 0)]] := by decide
  obtain ⟨c00, c01, c02, c10, c11, c12, c20, c21, c22⟩ := cell3 a b c d e f g h i
  unfold Board.firstMatch winner3
  simp only [hscan, List.findSome?_cons, List.findSome?_nil, id]
  rw [lineSymbol3 _ (0, 0) (0, 1) (0, 2) a b c c00 c01 c02,
    lineSymbol3 _ (1, 0) (1, 1) (1, 2) d e f c10 c11 c12,
    lineSymbol3 _ (2, 0) (2, 1) (2, 2) g h i c20 c21 c22,
    lineSymbol3 _ (0, 0) (1, 0) (2, 0) a d g c00 c10 c20,
    lineSymbol3 _ (0, 1) (1, 1) (2, 1) b e h c01 c11 c21,
    lineSymbol3 _ (0, 2) (1, 2) (2, 2) c f i c02 c12 c22,
    lineSymbol3 _ (0, 0) (1, 1) (2, 2) a e i c00 c11 c22,
    lineSymbol3 _ (0, 2) (1, 1) (2, 0) c e g c02 c11 c20]

theorem board3 {b : Board} (hb : b.GridShape) (h3 : b.size = 3) :
    ∃ a0 a1 a2 a3 a4 a5 a6 a7 a8 : Symbol,
      b = ⟨3, [[a0, a1, a2], [a3, a4, a5], [a6, a7, a8]]⟩ := by
  obtain ⟨-, hlen, hrows⟩ := hb
  cases b with
  | mk size board =>
    simp only at h3 hlen hrows
    subst h3
    have hl3 : ∀ r : List Symbol, r.length = 3 → ∃ x y z, r = [x, y, z] := by
      intro r hr
      match r, hr with
      | [x, y, z], _ => exact ⟨x, y, z, rfl⟩
    match board, hlen, hrows with
    | [r0, r1, r2], _, hrows =>
      obtain ⟨a0, a1, a2, rfl⟩ := hl3 r0 (hrows r0 (by simp))
      obtain ⟨a3, a4, a5, rfl⟩ := hl3 r1 (hrows r1 (by simp))
      obtain ⟨a6, a7, a8, rfl⟩ := hl3 r2 (hrows r2 (by simp))
      exact ⟨a0, a1, a2, a3, a4, a5, a6, a7, a8, rfl⟩

/-- On a 3 x 3 board the winner computed on the grid is the result of the reference
scan. -/
theorem winner3_eq_firstMatch {b : Board} (hb : b.GridShape) (h3 : b.size = 3) :
    winner3 b.board = b.firstMatch := by
  obtain ⟨a0, a1, a2, a3, a4, a5, a6, a7, a8, rfl⟩ := board3 hb h3
  exact (firstMatch3 a0 a1 a2 a3 a4 a5 a6 a7 a8).symm

/-! ## Safety of a position -/

theorem safe_succ (ai : Symbol) (n : Nat) (aiToMove : Bool) (b : Board) :
    Safe ai (n + 1) aiToMove b ↔
      if b.firstMatch ≠ Symbol.None then b.firstMatch = ai
      else if aiToMove then
        b.emptyCells = [] ∨ ∃ p ∈ b.emptyCells, Safe ai n false (b.place p ai)
      else ∀ p ∈ b.emptyCells, Safe ai n true (b.place p (b.getOpponent ai)) := by
  rw [Safe]

theorem gridChildren_eq_nil_iff {b : Board} (hb : b.GridShape) (s : Symbol) :
    gridChildren s b.board = [] ↔ b.emptyCells = [] := by
  constructor
  · intro h
    rw [List.eq_nil_iff_forall_not_mem]
    intro p hp
    have := mem_gridChildren_of_mem_emptyCells hp s
    rw [h] at this
    exact absurd this (List.not_mem_nil _)
  · intro h
    rw [List.eq_nil_iff_forall_not_mem]
    intro g1 hg1
    obtain ⟨p, hp, -⟩ := exists_emptyCell_of_mem_gridChildren hb hg1
    rw [h] at hp
    exact absurd hp (List.not_mem_nil _)

/-- On a 3 x 3 board the computation on the grid decides `Safe`. -/
theorem safe3_iff (ai opp : Symbol) (hopp : ∀ b : Board, b.getOpponent ai = opp) (n : Nat) :
    ∀ (aiToMove : Bool) (b : Board), b.GridShape → b.size = 3 →
      (safe3 ai opp n aiToMove b.board = true ↔ Safe ai n aiToMove b) := by
  induction n with
  | zero => intro aiToMove b _ _; simp [safe3, Safe]
  | succ n ih =>
    intro aiToMove b hb h3
    have hchild : ∀ (s : Symbol) (t : Bool) (p : QPoint), p ∈ b.emptyCells →
        (safe3 ai opp n t (b.place p s).board = true ↔ Safe ai n t (b.place p s)) := by
      intro s t p hp
      obtain ⟨hsize, hshape, -, -⟩ := place_spec hp s
      exact ih t (b.place p s) (hshape hb) (by rw [hsize, h3])
    rw [safe_succ, safe3, winner3_eq_firstMatch hb h3]
    by_cases hw : b.firstMatch ≠ Symbol.None
    · rw [if_pos hw, if_pos hw, decide_eq_true_eq]
    · rw [if_neg hw, if_neg hw]
      cases aiToMove with
      | true =>
        simp only [if_true, Bool.or_eq_true, List.isEmpty_iff, List.any_eq_true]
        rw [gridChildren_eq_nil_iff hb]
        constructor
        · rintro (h | ⟨g1, hg1, hs⟩)
          · exact Or.inl h
          · obtain ⟨p, hp, rfl⟩ := exists_emptyCell_of_mem_gridChildren hb hg1
            exact Or.inr ⟨p, hp, (hchild ai false p hp).1 hs⟩
        · rintro (h | ⟨p, hp, hs⟩)
          · exact Or.inl h
          · exact Or.inr ⟨_, mem_gridChildren_of_mem_emptyCells hp ai,
              (hchild ai false p hp).2 hs⟩
      | false =>
        simp only [Bool.false_eq_true, if_false, List.all_eq_true]
        rw [hopp b]
        constructor
        · intro h p hp
          exact (hchild opp true p hp).1 (h _ (mem_gridChildren_of_mem_emptyCells hp opp))
        · intro h g1 hg1
          obtain ⟨p, hp, rfl⟩ := exists_emptyCell_of_mem_gridChildren hb hg1
          exact (hchild opp true p hp).2 (h p hp)

/-- For `X` or `O`, with fuel above the number of empty cells and a depth that is at
least that number, the search returns a score that is not negative exactly when the
searching side can avoid defeat. -/
theorem minimax_nonneg_iff_safe {ai : Symbol} (hai : ai ≠ Symbol.None) (n : Nat) :
    ∀ (b : Board) (fuel : Nat) (depth : Int) (aiToMove : Bool), b.GridShape → 1 ≤ b.size →
      b.emptyCells.length + 1 = n → b.emptyCells.length < fuel →
      (b.emptyCells.length : Int) ≤ depth →
      ∃ v, MinimaxAI.minimax fuel b depth aiToMove ai = some v ∧
        (0 ≤ v ↔ Safe ai n aiToMove b) := by
  induction n with
  | zero => intro b fuel depth aiToMove _ _ h; omega
  | succ n ih =>
    intro b fuel depth aiToMove hb hN hn hfuel hdepth
    obtain ⟨fuel, rfl⟩ : ∃ f, fuel = f + 1 := ⟨fuel - 1, by omega⟩
    have hmin : INT_MIN < depth := by
      simp only [INT_MIN]
      omega
    rw [minimax_succ hb hN hmin, safe_succ]
    by_cases hw : b.firstMatch ≠ Symbol.None
    · rw [if_pos hw, if_pos hw]
      refine ⟨_, rfl, ?_⟩
      by_cases hfa : b.firstMatch = ai
      · simp [hfa, DEFAULT_MAX_SCORE]
      · have hopp : b.getOpponent ai = b.firstMatch := by
          cases hf : b.firstMatch <;> cases ai <;> simp_all [Board.getOpponent]
        simp [hfa, hopp, DEFAULT_MIN_SCORE]
    · rw [if_neg hw, if_neg hw]
      by_cases he : b.emptyCells = []
      · rw [if_pos he]
        refine ⟨0, rfl, ?_⟩
        cases aiToMove <;> simp [he]
      · have hlen : 0 < b.emptyCells.length := List.length_pos.2 he
        have hd : ¬ depth = 0 := by omega
        rw [if_neg he, if_neg hd]
        simp only [he, false_or]
        have hsym : (if aiToMove then ai else b.getOpponent ai) ≠ Symbol.None := by
          cases aiToMove
          · simpa using getOpponent_ne_none b hai
          · simpa using hai
        have hchild : ∀ p ∈ b.emptyCells, ∃ v,
            MinimaxAI.minimax fuel (b.place p (if aiToMove then ai else b.getOpponent ai))
              (depth - 1) (!aiToMove) ai = some v ∧
            (0 ≤ v ↔ Safe ai n (!aiToMove)
              (b.place p (if aiToMove then ai else b.getOpponent ai))) := by
          intro p hp
          obtain ⟨hsize, hshape, -, -⟩ := place_spec hp (if aiToMove then ai else b.getOpponent ai)
          have hl := length_emptyCells_place hp hsym
          exact ih _ fuel (depth - 1) (!aiToMove) (hshape hb) (by omega) (by omega) (by omega)
            (by omega)
        obtain ⟨p0, hp0⟩ := List.exists_mem_of_ne_nil _ he
        cases aiToMove with
        | true =>
          simp only [if_true] at hchild ⊢
          obtain ⟨r, hr, -, h2, h3⟩ := foldlM_max _ b.emptyCells
            (fun p hp => (hchild p hp).imp (fun v hv => hv.1)) (-INT_MAX)
          refine ⟨r, hr, ?_⟩
          constructor
          · intro h0
            rcases h3 with h3 | ⟨p, hp, hpr⟩
            · rw [h3] at h0
              simp only [INT_MAX] at h0
              omega
            · obtain ⟨v, hv, hiff⟩ := hchild p hp
              rw [hpr] at hv
              obtain rfl := Option.some.inj hv
              exact ⟨p, hp, hiff.1 h0⟩
          · rintro ⟨p, hp, hs⟩
            obtain ⟨v, hv, hiff⟩ := hchild p hp
            exact le_trans (hiff.2 hs) (h2 p hp v hv)
        | false =>
          simp only [Bool.false_eq_true, if_false] at hchild ⊢
          obtain ⟨r, hr, -, h2, h3⟩ := foldlM_min _ b.emptyCells
            (fun p hp => (hchild p hp).imp (fun v hv => hv.1)) INT_MAX
          refine ⟨r, hr, ?_⟩
          constructor
          · intro h0 p hp
            obtain ⟨v, hv, hiff⟩ := hchild p hp
            exact hiff.1 (le_trans h0 (h2 p hp v hv))
          · intro hall
            rcases h3 with h3 | ⟨p, hp, hpr⟩
            · rw [h3]
              simp [INT_MAX]
            · obtain ⟨v, hv, hiff⟩ := hchild p hp
              rw [hpr] at hv
              obtain rfl := Option.some.inj hv
              exact hiff.2 (hall p hp)

/-! ## Games of the minimax strategy -/

theorem getOpponent_getOpponent (b1 b2 : Board) {s : Symbol} :
    b1.getOpponent (b2.getOpponent s) = s := by
  cases s <;> rfl

theorem getOpponent_ne_self (b : Board) {s : Symbol} (hs : s ≠ Symbol.None) :
    b.getOpponent s ≠ s := by
  cases s with
  | None => exact absurd rfl hs
  | X => simp [Board.getOpponent]
  | O => simp [Board.getOpponent]

/-- The move of the minimax strategy keeps its side safe. -/
theorem minimaxMove_safe {ai : Symbol} (hai : ai ≠ Symbol.None) {b : Board} (hb : b.GridShape)
    (hN : 1 ≤ b.size) (hw : b.firstMatch = Symbol.None) (he : b.emptyCells ≠ [])
    (fuel : Nat) (hfuel : b.emptyCells.length ≤ fuel) (level : GameLevel)
    (hl : (b.emptyCells.length : Int) ≤ level.raw)
    (hs : Safe ai (b.emptyCells.length + 1) true b) :
    ∃ m, MinimaxAI.makeMove fuel level b ai = some m ∧ m ∈ b.emptyCells ∧
      Safe ai b.emptyCells.length false (b.place m ai) := by
  have hchild : ∀ p ∈ b.emptyCells, ∃ v,
      MinimaxAI.minimax fuel (b.place p ai) level.raw false ai = some v ∧
      (0 ≤ v ↔ Safe ai b.emptyCells.length false (b.place p ai)) := by
    intro p hp
    obtain ⟨hsize, hshape, -, -⟩ := place_spec hp ai
    have hlen := length_emptyCells_place hp hai
    exact minimax_nonneg_iff_safe hai _ _ fuel level.raw false (hshape hb) (by omega) hlen
      (by omega) (by omega)
  have hscore : ∀ p ∈ b.emptyCells, ∃ v,
      MinimaxAI.minimax fuel (b.place p ai) level.raw false ai = some v ∧ -INT_MAX < v :=
    minimax_scores_defined hb hN fuel level ai (Or.inl ⟨hai, hfuel, Or.inl (by omega)⟩)
  obtain ⟨pos, v, hmove, hmem, hv, hmax⟩ := minimaxMakeMove_of_scores hb fuel level ai he hscore
  refine ⟨pos, hmove, hmem, ?_⟩
  rw [safe_succ] at hs
  have hw1 : ¬ b.firstMatch ≠ Symbol.None := fun h => h hw
  rw [if_neg hw1] at hs
  simp only [if_true, he, false_or] at hs
  obtain ⟨p0, hp0, hs0⟩ := hs
  obtain ⟨w0, hw0, hiff0⟩ := hchild p0 hp0
  obtain ⟨v1, hv1, hiff1⟩ := hchild pos hmem
  rw [hv] at hv1
  obtain rfl := Option.some.inj hv1
  exact hiff1.1 (le_trans (hiff0.2 hs0) (hmax p0 hp0 w0 hw0).1)

/-- Every move of the opponent keeps the minimax side safe. -/
theorem opponentMove_safe {ai : Symbol} {b : Board} (hw : b.firstMatch = Symbol.None)
    {p : QPoint} (hp : p ∈ b.emptyCells)
    (hs : Safe ai (b.emptyCells.length + 1) false b) :
    Safe ai b.emptyCells.length true (b.place p (b.getOpponent ai)) := by
  rw [safe_succ] at hs
  have hw1 : ¬ b.firstMatch ≠ Symbol.None := fun h => h hw
  rw [if_neg hw1] at hs
  simp only [Bool.false_eq_true, if_false] at hs
  exact hs p hp

theorem safe_winner {ai : Symbol} {n : Nat} {t : Bool} {b : Board} (hs : Safe ai n t b)
    (hw : b.firstMatch ≠ Symbol.None) : b.firstMatch = ai := by
  cases n with
  | zero => exact absurd hs (by simp [Safe])
  | succ n =>
    rw [safe_succ, if_pos hw] at hs
    exact hs

/-- From a position that is safe for the minimax side, the game against any opponent
who plays empty cells ends, and it ends with a win of the minimax side or with a full
board without a winner. -/
theorem playVs_safe {ai : Symbol} (hai : ai ≠ Symbol.None) (N : Int) (hN : 1 ≤ N) (fuel : Nat)
    (level : GameLevel) (opp : Board → QPoint)
    (hopp : ∀ b : Board, b.GridShape → b.size = N → b.checkForWinner = some Symbol.None →
      b.isBoardFull = some false → b.isEmpty (opp b) = some true)
    (steps : Nat) :
    ∀ (aiToMove : Bool) (b : Board), b.GridShape → b.size = N →
      b.emptyCells.length < steps → b.emptyCells.length ≤ fuel →
      (b.emptyCells.length : Int) ≤ level.raw →
      Safe ai (b.emptyCells.length + 1) aiToMove b →
      ∃ final, playVs fuel level ai opp steps aiToMove b = some final ∧
        (final.checkForWinner = some ai ∨
          (final.checkForWinner = some Symbol.None ∧ final.isBoardFull = some true)) := by
  induction steps with
  | zero => intro aiToMove b _ _ h; omega
  | succ steps ih =>
    intro aiToMove b hb hsize hsteps hfuel hlevel hs
    have hN1 : 1 ≤ b.size := by omega
    have hcw := checkForWinner_eq_firstMatch_aux hb hN1
    have hfull := isBoardFull_eq_emptyCells hb
    rw [playVs, hcw]
    by_cases hw : b.firstMatch ≠ Symbol.None
    · simp only [if_pos hw]
      exact ⟨b, rfl, Or.inl (by rw [hcw, safe_winner hs hw])⟩
    · have hw0 : b.firstMatch = Symbol.None := not_not.1 hw
      simp only [if_neg hw, hfull]
      by_cases he : b.emptyCells = []
      · simp only [he, decide_True]
        refine ⟨b, rfl, Or.inr ⟨by rw [hcw, hw0], by rw [hfull]; simp [he]⟩⟩
      · simp only [he, decide_False]
        have hlen : 0 < b.emptyCells.length := List.length_pos.2 he
        cases aiToMove with
        | true =>
          obtain ⟨m, hm, hmem, hsafe⟩ := minimaxMove_safe hai hb hN1 hw0 he fuel hfuel level
            hlevel hs
          obtain ⟨hsz, hshape, -, -⟩ := place_spec hmem ai
          have hl := length_emptyCells_place hmem hai
          have hsafe1 : Safe ai ((b.place m ai).emptyCells.length + 1) false (b.place m ai) := by
            rw [hl]; exact hsafe
          obtain ⟨final, hfinal, hres⟩ := ih false (b.place m ai) (hshape hb) (by omega)
            (by omega) (by omega) (by omega) hsafe1
          refine ⟨final, ?_, hres⟩
          simp only [if_true, hm, makeMove_of_mem_emptyCells hmem]
          exact hfinal
        | false =>
          have hoppmem : opp b ∈ b.emptyCells :=
            mem_emptyCells.2 (isEmpty_eq_true (hopp b hb hsize (by rw [hcw, hw0])
              (by rw [hfull]; simp [he])))
          have hosym := getOpponent_ne_none b hai
          obtain ⟨hsz, hshape, -, -⟩ := place_spec hoppmem (b.getOpponent ai)
          have hl := length_emptyCells_place hoppmem hosym
          have hsafe1 : Safe ai ((b.place (opp b) (b.getOpponent ai)).emptyCells.length + 1) true
              (b.place (opp b) (b.getOpponent ai)) := by
            rw [hl]; exact opponentMove_safe hw0 hoppmem hs
          obtain ⟨final, hfinal, hres⟩ := ih true (b.place (opp b) (b.getOpponent ai))
            (hshape hb) (by omega) (by omega) (by omega) (by omega) hsafe1
          refine ⟨final, ?_, hres⟩
          simp only [Bool.false_eq_true, if_false, makeMove_of_mem_emptyCells hoppmem]
          exact hfinal

/-- From a position that is safe for both sides, the game of two minimax strategies
ends with a full board and without a winner. -/
theorem selfPlay_safe (fuel : Nat) (steps : Nat) :
    ∀ (toMove : Symbol) (levelToMove levelOther : GameLevel) (b : Board),
      toMove ≠ Symbol.None → b.GridShape → 1 ≤ b.size →
      b.emptyCells.length < steps → b.emptyCells.length ≤ fuel →
      (b.emptyCells.length : Int) ≤ levelToMove.raw →
      (b.emptyCells.length : Int) ≤ levelOther.raw →
      Safe toMove (b.emptyCells.length + 1) true b →
      Safe (b.getOpponent toMove) (b.emptyCells.length + 1) false b →
      ∃ final, selfPlay fuel steps toMove levelToMove levelOther b = some final ∧
        final.isBoardFull = some true ∧ final.checkForWinner = some Symbol.None := by
  induction steps with
  | zero => intro toMove _ _ b _ _ _ h; omega
  | succ steps ih =>
    intro toMove levelToMove levelOther b hto hb hN1 hsteps hfuel hl1 hl2 hs1 hs2
    have hcw := checkForWinner_eq_firstMatch_aux hb hN1
    have hfull := isBoardFull_eq_emptyCells hb
    rw [selfPlay, hcw]
    by_cases hw : b.firstMatch ≠ Symbol.None
    · exfalso
      have h1 := safe_winner hs1 hw
      have h2 := safe_winner hs2 hw
      rw [h1] at h2
      exact getOpponent_ne_self b hto h2.symm
    · have hw0 : b.firstMatch = Symbol.None := not_not.1 hw
      simp only [if_neg hw, hfull]
      by_cases he : b.emptyCells = []
      · simp only [he, decide_True]
        exact ⟨b, rfl, by rw [hfull]; simp [he], by rw [hcw, hw0]⟩
      · simp only [he, decide_False]
        have hlen : 0 < b.emptyCells.length := List.length_pos.2 he
        obtain ⟨m, hm, hmem, hsafe⟩ := minimaxMove_safe hto hb hN1 hw0 he fuel hfuel levelToMove
          hl1 hs1
        obtain ⟨hsz, hshape, -, -⟩ := place_spec hmem toMove
        have hl := length_emptyCells_place hmem hto
        have hother := opponentMove_safe hw0 hmem hs2
        rw [getOpponent_getOpponent] at hother
        have hsafe1 : Safe (b.getOpponent toMove) ((b.place m toMove).emptyCells.length + 1) true
            (b.place m toMove) := by
          rw [hl]; exact hother
        have hsafe2 : Safe ((b.place m toMove).getOpponent (b.getOpponent toMove))
            ((b.place m toMove).emptyCells.length + 1) false (b.place m toMove) := by
          rw [hl, getOpponent_getOpponent]; exact hsafe
        obtain ⟨final, hfinal, hres⟩ := ih (b.getOpponent toMove) levelOther levelToMove
          (b.place m toMove) (getOpponent_ne_none b hto) (hshape hb) (by omega) (by omega)
          (by omega) (by omega) (by omega) hsafe1 hsafe2
        refine ⟨final, ?_, hres⟩
        simp only [hm, makeMove_of_mem_emptyCells hmem]
        exact hfinal

/-! ## The empty 3 x 3 board is safe for both sides, moving first or second -/

set_option maxRecDepth 100000 in
theorem safe3_X_first : safe3 Symbol.X Symbol.O 10 true (emptyBoard 3).board = true := by
  decide!

set_option maxRecDepth 100000 in
theorem safe3_X_second : safe3 Symbol.X Symbol.O 10 false (emptyBoard 3).board = true := by
  decide!

set_option maxRecDepth 100000 in
theorem safe3_O_first : safe3 Symbol.O Symbol.X 10 true (emptyBoard 3).board = true := by
  decide!

set_option maxRecDepth 100000 in
theorem safe3_O_second : safe3 Symbol.O Symbol.X 10 false (emptyBoard 3).board = true := by
  decide!

theorem emptyBoard3_length : (emptyBoard 3).emptyCells.length = 9 := by decide

/-- On the empty 3 x 3 board either side can avoid defeat, moving first or second. -/
theorem emptyBoard3_safe {ai : Symbol} (hai : ai ≠ Symbol.None) (aiToMove : Bool) :
    Safe ai 10 aiToMove (emptyBoard 3) := by
  have hshape : (emptyBoard 3).GridShape := emptyBoard_gridShape (by decide)
  cases ai with
  | None => exact absurd rfl hai
  | X =>
    cases aiToMove with
    | true => exact (safe3_iff Symbol.X Symbol.O (fun _ => rfl) 10 true _ hshape rfl).1 safe3_X_first
    | false =>
      exact (safe3_iff Symbol.X Symbol.O (fun _ => rfl) 10 false _ hshape rfl).1 safe3_X_second
  | O =>
    cases aiToMove with
    | true => exact (safe3_iff Symbol.O Symbol.X (fun _ => rfl) 10 true _ hshape rfl).1 safe3_O_first
    | false =>
      exact (safe3_iff Symbol.O Symbol.X (fun _ => rfl) 10 false _ hshape rfl).1 safe3_O_second

theorem firstEmpty_legal (b : Board) (hb : b.GridShape) (hfull : b.isBoardFull = some false) :
    b.isEmpty (firstEmpty b) = some true := by
  rw [isBoardFull_eq_emptyCells hb] at hfull
  have hne : b.emptyCells ≠ [] := by
    intro h
    simp [h] at hfull
  obtain ⟨p, l, hl⟩ := List.exists_cons_of_ne_nil hne
  have hmem : firstEmpty b ∈ b.emptyCells := by
    unfold firstEmpty
    rw [hl]
    simp
  rw [isEmpty_of_gridShape hb]
  simp [mem_emptyCells.1 hmem]

/-- C13: on a 3 x 3 board two minimax strategies with levels of at least 9, playing
each other from the empty board with `X` or `O` moving first and stopping at the first
win or full board, finish the game, and finish it with a full board and
`checkForWinner` equal to `None`. -/
theorem minimax_selfPlay_tie (fuel : Nat) (hfuel : 9 ≤ fuel) (levelFirst levelSecond : GameLevel)
    (h1 : 9 ≤ levelFirst.raw) (h2 : 9 ≤ levelSecond.raw) (first : Symbol)
    (hfirst : first ≠ Symbol.None) :
    ∃ final, selfPlay fuel 10 first levelFirst levelSecond (emptyBoard 3) = some final ∧
      final.isBoardFull = some true ∧ final.checkForWinner = some Symbol.None := by
  have hlen := emptyBoard3_length
  apply selfPlay_safe fuel 10 first levelFirst levelSecond (emptyBoard 3) hfirst
    (emptyBoard_gridShape (by decide)) (by decide)
  · omega
  · omega
  · rw [hlen]; push_cast; omega
  · rw [hlen]; push_cast; omega
  · rw [hlen]; exact emptyBoard3_safe hfirst true
  · rw [hlen]; exact emptyBoard3_safe (getOpponent_ne_none _ hfirst) false

/-- An instance of C13: levels 9 and 20, `X` moving first. -/
theorem minimax_selfPlay_tie_witness :
    ∃ final, selfPlay 9 10 Symbol.X ⟨9⟩ ⟨20⟩ (emptyBoard 3) = some final ∧
      final.isBoardFull = some true ∧ final.checkForWinner = some Symbol.None :=
  minimax_selfPlay_tie 9 (by decide) ⟨9⟩ ⟨20⟩ (by decide) (by decide) Symbol.X (by decide)

/-- C14: on a 3 x 3 board a minimax strategy with a level of at least 9 never loses:
against every opponent who plays an empty cell on each of his turns, whether the
minimax side moves first or second, the game from the empty board is played to
completion and ends with `checkForWinner` equal to the minimax side's symbol or with a
full board and `checkForWinner` equal to `None`, never with the opponent's symbol. -/
theorem minimax_never_loses (fuel : Nat) (hfuel : 9 ≤ fuel) (level : GameLevel)
    (hl : 9 ≤ level.raw) (ai : Symbol) (hai : ai ≠ Symbol.None) (aiFirst : Bool)
    (opp : Board → QPoint)
    (hopp : ∀ b : Board, b.GridShape → b.size = 3 → b.checkForWinner = some Symbol.None →
      b.isBoardFull = some false → b.isEmpty (opp b) = some true) :
    ∃ final, playVs fuel level ai opp 10 aiFirst (emptyBoard 3) = some final ∧
      (final.checkForWinner = some ai ∨
        (final.checkForWinner = some Symbol.None ∧ final.isBoardFull = some true)) ∧
      final.checkForWinner ≠ some (final.getOpponent ai) := by
  have hlen := emptyBoard3_length
  obtain ⟨final, hfinal, hres⟩ := playVs_safe hai 3 (by decide) fuel level opp hopp 10 aiFirst
    (emptyBoard 3) (emptyBoard_gridShape (by decide)) rfl (by omega) (by omega)
    (by rw [hlen]; push_cast; omega) (by rw [hlen]; exact emptyBoard3_safe hai aiFirst)
  refine ⟨final, hfinal, hres, ?_⟩
  intro h
  rcases hres with h1 | ⟨h1, -⟩
  · rw [h1] at h
    exact getOpponent_ne_self final hai (Option.some.inj h).symm
  · rw [h1] at h
    exact getOpponent_ne_none final hai (Option.some.inj h).symm

/-- An instance of C14: the minimax side plays `O` at level 9 and moves second against
the opponent who always takes the first empty cell. -/
theorem minimax_never_loses_witness :
    ∃ final, playVs 9 ⟨9⟩ Symbol.O firstEmpty 10 false (emptyBoard 3) = some final ∧
      (final.checkForWinner = some Symbol.O ∨
        (final.checkForWinner = some Symbol.None ∧ final.isBoardFull = some true)) ∧
      final.checkForWinner ≠ some (final.getOpponent Symbol.O) :=
  minimax_never_loses 9 (by decide) ⟨9⟩ (by decide) Symbol.O (by decide) false firstEmpty
    (fun b hb _ _ hfull => firstEmpty_legal b hb hfull)

/-! ## The orchestrator: one call -/

/-- A call of `Board::makeMove` that returns false leaves the board as it was. -/
theorem makeMove_eq_false {b : Board} {pos : QPoint} {s : Symbol} {b1 : Board}
    (h : b.makeMove pos s = some (false, b1)) : b1 = b := by
  unfold Board.makeMove at h
  by_cases hg : pos.y < 0 ∨ pos.y ≥ b.size ∨ pos.x < 0 ∨ pos.x ≥ b.size
  · simp only [hg, if_true, Option.some.injEq, Prod.mk.injEq, true_and] at h
    exact h.symm
  · simp only [hg, if_false] at h
    cases hc : b.cell pos.y pos.x with
    | none => simp [hc] at h
    | some c =>
      simp only [hc] at h
      by_cases hne : c ≠ Symbol.None
      · rw [if_pos hne] at h
        simp only [Option.some.injEq, Prod.mk.injEq, true_and] at h
        exact h.symm
      · rw [if_neg hne] at h
        cases hset : b.setCell pos.y pos.x s with
        | none => simp [hset] at h
        | some b2 => simp [hset] at h

/-- What a returning call of `HumanPlayer::makeMove` did. -/
theorem humanMakeMove_eq_some {p : Player} {pos : QPoint} {b : Board} {r : Bool} {p1 : Player}
    {b1 : Board} (h : HumanPlayer.makeMove p pos b = some (r, p1, b1)) :
    b.makeMove pos p.symbol = some (r, b1) ∧ p1.ai = p.ai ∧ p1.symbol = p.symbol := by
  unfold HumanPlayer.makeMove at h
  by_cases hg : pos.x < 0 ∨ pos.x ≥ b.size ∨ pos.y < 0 ∨ pos.y ≥ b.size
  · simp only [hg, if_true, Option.some.injEq, Prod.mk.injEq] at h
    obtain ⟨rfl, rfl, rfl⟩ := h
    refine ⟨makeMove_of_not_inBounds ?_ _, rfl, rfl⟩
    unfold Board.InBounds; omega
  · simp only [hg, if_false] at h
    cases hm : b.makeMove pos p.symbol with
    | none => simp [hm] at h
    | some res =>
      simp only [hm, Option.map_some', Option.some.injEq, Prod.mk.injEq] at h
      obtain ⟨rfl, rfl, rfl⟩ := h
      exact ⟨rfl, rfl, rfl⟩

/-- What a returning call of `ComputerPlayer::makeMove` did. -/
theorem computerMakeMove_eq_some {rand : Nat → Nat} {fuel : Nat} {p : Player} {hint : QPoint}
    {b : Board} {r : Bool} {p1 : Player} {b1 : Board}
    (h : ComputerPlayer.makeMove rand fuel p hint b = some (r, p1, b1)) :
    p1.ai = p.ai ∧ p1.symbol = p.symbol ∧
      ((p.ai = none ∧ r = false ∧ b1 = b ∧ p1 = p) ∨
        ∃ ai m, p.ai = some ai ∧ ai.makeMove rand fuel b p.symbol = some m ∧
          b.makeMove m p.symbol = some (r, b1) ∧ p1.curPos = m) := by
  unfold ComputerPlayer.makeMove at h
  cases hai : p.ai with
  | none =>
    simp only [hai, Option.some.injEq, Prod.mk.injEq] at h
    obtain ⟨rfl, rfl, rfl⟩ := h
    exact ⟨hai, rfl, Or.inl ⟨rfl, rfl, rfl, rfl⟩⟩
  | some ai =>
    simp only [hai] at h
    cases hmove : ai.makeMove rand fuel b p.symbol with
    | none => simp [hmove] at h
    | some m =>
      simp only [hmove, Option.some_bind] at h
      cases hm : b.makeMove m p.symbol with
      | none => simp [hm] at h
      | some res =>
        simp only [hm, Option.map_some', Option.some.injEq, Prod.mk.injEq] at h
        obtain ⟨rfl, rfl, rfl⟩ := h
        exact ⟨rfl, rfl, Or.inr ⟨ai, m, rfl, hmove, hm, rfl⟩⟩

/-- What a returning call of `TicTacToe::makeMove` changed and what it kept. -/
theorem tttMakeMove_eq_some {rand : Nat → Nat} {fuel : Nat} {g : TicTacToe} {pos : QPoint}
    {type : Player_Type} {r : Bool} {g1 : TicTacToe}
    (h : TicTacToe.makeMove rand fuel g pos type = some (r, g1)) :
    g1.aitype_computer = g.aitype_computer ∧ g1.computer.ai = g.computer.ai ∧
      g1.human.ai = g.human.ai ∧ g1.computer.symbol = g.computer.symbol ∧
      g1.human.symbol = g.human.symbol ∧ g1.board.size = g.board.size ∧
      (g.board.GridShape → g1.board.GridShape) ∧ (r = false → g1.board = g.board) ∧
      (g.currentPlayer = none → r = false ∧ g1 = g) ∧
      (g.currentPlayer ≠ none → g1.currentPlayer = some type) := by
  unfold TicTacToe.makeMove at h
  cases hcur : g.currentPlayer with
  | none =>
    simp only [hcur, Option.some.injEq, Prod.mk.injEq] at h
    obtain ⟨rfl, rfl⟩ := h
    exact ⟨rfl, rfl, rfl, rfl, rfl, rfl, id, fun _ => rfl, fun _ => ⟨rfl, rfl⟩,
      fun hne => absurd rfl hne⟩
  | some cur =>
    simp only [hcur] at h
    cases type with
    | COMPUTER =>
      simp only at h
      cases hc : ComputerPlayer.makeMove rand fuel g.computer pos g.board with
      | none => simp [hc] at h
      | some res =>
        obtain ⟨r0, p1, b1⟩ := res
        simp only [hc, Option.map_some', Option.some.injEq, Prod.mk.injEq] at h
        obtain ⟨rfl, rfl⟩ := h
        obtain ⟨hai, hsym, hcase⟩ := computerMakeMove_eq_some hc
        have hboard : b1.size = g.board.size ∧ (g.board.GridShape → b1.GridShape) ∧
            (r0 = false → b1 = g.board) := by
          rcases hcase with ⟨-, -, rfl, -⟩ | ⟨ai, m, -, -, hm, -⟩
          · exact ⟨rfl, id, fun _ => rfl⟩
          · refine ⟨(makeMove_size_shape hm).1, (makeMove_size_shape hm).2, ?_⟩
            rintro rfl
            exact makeMove_eq_false hm
        exact ⟨rfl, hai, rfl, hsym, rfl, hboard.1, hboard.2.1, hboard.2.2,
          fun hn => by simp at hn, fun _ => rfl⟩
    | HUMAN =>
      simp only at h
      cases hc : HumanPlayer.makeMove g.human pos g.board with
      | none => simp [hc] at h
      | some res =>
        obtain ⟨r0, p1, b1⟩ := res
        simp only [hc, Option.map_some', Option.some.injEq, Prod.mk.injEq] at h
        obtain ⟨rfl, rfl⟩ := h
        obtain ⟨hm, hai, hsym⟩ := humanMakeMove_eq_some hc
        refine ⟨rfl, rfl, hai, rfl, hsym, (makeMove_size_shape hm).1, (makeMove_size_shape hm).2,
          ?_, fun hn => by simp at hn, fun _ => rfl⟩
        rintro rfl
        exact makeMove_eq_false hm
    | UNKNOWN => simp at h

/-! ## The orchestrator: sessions -/

theorem tttNew_eq : TicTacToe.new = some idleGame := by decide

theorem idleGame_wellFormed : idleGame.WellFormed := by decide

theorem changeAI_kind (p : Player) (t : AIType) :
    (ComputerPlayer.changeAI p t).2.ai = AIFactory.createAI t ∧
    (ComputerPlayer.changeAI p t).2.symbol = p.symbol ∧
    (ComputerPlayer.changeAI p t).2.curPos = p.curPos ∧
    ((ComputerPlayer.changeAI p t).1 = true ↔ AIFactory.createAI t ≠ none) := by
  unfold ComputerPlayer.changeAI
  cases AIFactory.createAI t <;> simp

theorem setAITypeComputer_spec (g : TicTacToe) (t : AIType) :
    (g.setAITypeComputer t).board = g.board ∧
    (g.setAITypeComputer t).currentPlayer = g.currentPlayer ∧
    (g.setAITypeComputer t).human = g.human ∧
    (g.setAITypeComputer t).computer.symbol = g.computer.symbol ∧
    (g.setAITypeComputer t).computer.curPos = g.computer.curPos ∧
    (g.setAITypeComputer t).aitype_computer = t ∧
    (g.aitype_computer = t → g.setAITypeComputer t = g) ∧
    (g.aitype_computer ≠ t → (g.setAITypeComputer t).computer.ai = AIFactory.createAI t) := by
  unfold TicTacToe.setAITypeComputer
  by_cases h : g.aitype_computer ≠ t
  · rw [if_pos h]
    obtain ⟨h1, h2, h3, -⟩ := changeAI_kind g.computer t
    exact ⟨rfl, rfl, rfl, h2, h3, rfl, fun he => absurd he h, fun _ => h1⟩
  · rw [if_neg h]
    have he : g.aitype_computer = t := not_not.1 h
    exact ⟨rfl, rfl, rfl, rfl, rfl, he, fun _ => rfl, fun hne => absurd he hne⟩

theorem setAITypeComputer_consistent {g : TicTacToe} (hc : g.Consistent) (t : AIType) :
    (g.setAITypeComputer t).Consistent := by
  obtain ⟨-, -, -, -, -, h6, h7, h8⟩ := setAITypeComputer_spec g t
  by_cases h : g.aitype_computer = t
  · rw [h7 h]; exact hc
  · unfold TicTacToe.Consistent
    rw [h6, h8 h]

theorem setLevel_spec (p : Player) (l : GameLevel) :
    (p.setLevel l).symbol = p.symbol ∧ (p.setLevel l).curPos = p.curPos ∧
    (p.setLevel l).ai = p.ai.map (fun ai => ai.setLevel l) := by
  unfold Player.setLevel
  cases h : p.ai <;> simp [h]

theorem setGameLevel_consistent {g : TicTacToe} (hc : g.Consistent) (l : GameLevel) :
    (g.setGameLevel l).Consistent := by
  unfold TicTacToe.Consistent at *
  unfold TicTacToe.setGameLevel
  simp only [(setLevel_spec g.computer l).2.2, Option.map_map]
  rw [← hc]
  cases g.computer.ai <;> rfl

/-- `TicTacToe::startNewGame` on a board of the right shape: the state it leaves. -/
theorem tttStartNewGame_eq {g : TicTacToe} (hb : g.board.GridShape) (h : Symbol) (t : AIType)
    {n : Int} (hn : 0 ≤ n) :
    g.startNewGame h t n = some
      ⟨emptyBoard n, some Player_Type.HUMAN,
        (TicTacToe.setAITypeComputer
          ⟨emptyBoard n, g.currentPlayer, g.computer, g.human, g.aitype_computer⟩
          t).computer.setSymbol ((emptyBoard n).getOpponent h),
        g.human.setSymbol h, t⟩ := by
  unfold TicTacToe.startNewGame
  rw [startNewGame_eq hb hn]
  obtain ⟨h1, -, h3, -, -, h6, -, -⟩ := setAITypeComputer_spec
    ⟨emptyBoard n, g.currentPlayer, g.computer, g.human, g.aitype_computer⟩ t
  simp only [Option.map_some', h1, h3, h6]

theorem tttStartNewGame_wellFormed {g g1 : TicTacToe} (hw : g.WellFormed) {h : Symbol}
    {t : AIType} {n : Int} (hn : 1 ≤ n) (hs : g.startNewGame h t n = some g1) :
    g1.WellFormed ∧ g1.currentPlayer = some Player_Type.HUMAN := by
  rw [tttStartNewGame_eq hw.1 h t (by omega)] at hs
  obtain rfl := Option.some.inj hs
  refine ⟨⟨emptyBoard_gridShape (by omega), hn, ?_⟩, rfl⟩
  have hc := setAITypeComputer_consistent
    (g := ⟨emptyBoard n, g.currentPlayer, g.computer, g.human, g.aitype_computer⟩) hw.2.2 t
  obtain ⟨-, -, -, -, -, h6, -, -⟩ := setAITypeComputer_spec
    ⟨emptyBoard n, g.currentPlayer, g.computer, g.human, g.aitype_computer⟩ t
  unfold TicTacToe.Consistent at hc ⊢
  rw [h6] at hc
  exact hc

/-- Every admissible call that returns keeps the state well formed; the active agent is
set after it exactly when it was set before or the call is a `startNewGame`. -/
theorem step_wellFormed {g g1 : TicTacToe} (hw : g.WellFormed) {op : TicTacToeOp}
    (hop : op.Admissible) (hs : g.step op = some g1) :
    g1.WellFormed ∧ (g1.currentPlayer ≠ none ↔ (g.currentPlayer ≠ none ∨ op.IsStart)) := by
  cases op with
  | startNewGame h t n =>
    obtain ⟨h1, h2⟩ := tttStartNewGame_wellFormed hw hop hs
    refine ⟨h1, ?_⟩
    rw [h2]
    simp [TicTacToeOp.IsStart]
  | makeMove pos type rand fuel =>
    simp only [TicTacToe.step] at hs
    cases hm : TicTacToe.makeMove rand fuel g pos type with
    | none => simp [hm] at hs
    | some res =>
      obtain ⟨r, g2⟩ := res
      simp only [hm, Option.map_some', Option.some.injEq] at hs
      subst hs
      obtain ⟨h1, h2, -, -, -, h6, h7, -, h9, h10⟩ := tttMakeMove_eq_some hm
      refine ⟨⟨h7 hw.1, by rw [h6]; exact hw.2.1, ?_⟩, ?_⟩
      · have hc := hw.2.2
        unfold TicTacToe.Consistent at hc ⊢
        rw [h1, h2]; exact hc
      · simp only [TicTacToeOp.IsStart, or_false]
        by_cases hcur : g.currentPlayer = none
        · rw [(h9 hcur).2]
        · rw [h10 hcur]
          simp [hcur]
  | setGameLevel l =>
    simp only [TicTacToe.step, Option.some.injEq] at hs
    subst hs
    refine ⟨⟨hw.1, hw.2.1, setGameLevel_consistent hw.2.2 l⟩, ?_⟩
    simp [TicTacToeOp.IsStart, TicTacToe.setGameLevel]
  | setAITypeComputer t =>
    simp only [TicTacToe.step, Option.some.injEq] at hs
    subst hs
    obtain ⟨h1, h2, -⟩ := setAITypeComputer_spec g t
    refine ⟨⟨by rw [h1]; exact hw.1, by rw [h1]; exact hw.2.1,
      setAITypeComputer_consistent hw.2.2 t⟩, ?_⟩
    rw [h2]
    simp [TicTacToeOp.IsStart]

theorem run_wellFormed (ops : List TicTacToeOp) :
    ∀ (g g1 : TicTacToe), g.WellFormed → (∀ op ∈ ops, op.Admissible) → g.run ops = some g1 →
      g1.WellFormed ∧
        (g1.currentPlayer ≠ none ↔ (g.currentPlayer ≠ none ∨ ∃ op ∈ ops, op.IsStart)) := by
  induction ops with
  | nil =>
    intro g g1 hw _ hr
    simp only [TicTacToe.run, Option.some.injEq] at hr
    subst hr
    exact ⟨hw, by simp⟩
  | cons op ops ih =>
    intro g g1 hw hops hr
    simp only [TicTacToe.run, Option.bind_eq_some] at hr
    obtain ⟨g2, hstep, hrest⟩ := hr
    obtain ⟨hw2, hcur2⟩ := step_wellFormed hw (hops op (List.mem_cons_self _ _)) hstep
    obtain ⟨hw1, hcur1⟩ := ih g2 g1 hw2 (fun o ho => hops o (List.mem_cons_of_mem _ ho)) hrest
    refine ⟨hw1, ?_⟩
    rw [hcur1, hcur2]
    simp only [List.mem_cons, exists_eq_or_imp]
    tauto

/-- Every state reached from the constructor is well formed, and its active agent is
set exactly when `startNewGame` has been called. -/
theorem reachedBy_wellFormed {ops : List TicTacToeOp} {g : TicTacToe}
    (h : TicTacToe.ReachedBy ops g) :
    g.WellFormed ∧ (g.currentPlayer ≠ none ↔ ∃ op ∈ ops, op.IsStart) := by
  obtain ⟨hops, hrun⟩ := h
  rw [tttNew_eq, Option.some_bind] at hrun
  obtain ⟨h1, h2⟩ := run_wellFormed ops idleGame g idleGame_wellFormed hops hrun
  refine ⟨h1, ?_⟩
  rw [h2]
  simp [idleGame]

/-! ## The orchestrator: moves of the two agents -/

/-- A human move through the orchestrator in a started game. -/
theorem tttMakeMove_human_spec (rand : Nat → Nat) (fuel : Nat) {g : TicTacToe}
    (hcur : g.currentPlayer ≠ none) (hb : g.board.GridShape) (pos : QPoint) :
    ∃ r g1, TicTacToe.makeMove rand fuel g pos Player_Type.HUMAN = some (r, g1) ∧
      g1.currentPlayer = some Player_Type.HUMAN ∧
      (r = true ↔ g.board.InBounds pos ∧ g.board.cell pos.y pos.x = some Symbol.None) ∧
      (r = true → g1.board = g.board.place pos g.human.symbol) ∧
      (r = false → g1.board = g.board) ∧
      g1.computer = g.computer ∧ g1.human.symbol = g.human.symbol ∧
      g1.human.ai = g.human.ai ∧ g1.aitype_computer = g.aitype_computer := by
  obtain ⟨c, hc⟩ : ∃ c, g.currentPlayer = some c := Option.ne_none_iff_exists'.1 hcur
  by_cases hin : g.board.InBounds pos
  · have hcond : ¬ (pos.x < 0 ∨ pos.x ≥ g.board.size ∨ pos.y < 0 ∨ pos.y ≥ g.board.size) := by
      unfold Board.InBounds at hin; omega
    obtain ⟨s, hs⟩ := cell_isSome_of_gridShape hb hin.1 hin.2.1 hin.2.2.1 hin.2.2.2
    by_cases hs0 : s = Symbol.None
    · subst hs0
      have hmem := mem_emptyCells.2 ⟨hin, hs⟩
      refine ⟨true, ⟨g.board.place pos g.human.symbol, some Player_Type.HUMAN, g.computer,
        ⟨g.human.ai, g.human.symbol, pos⟩, g.aitype_computer⟩, ?_, rfl, ?_, ?_, ?_,
        rfl, rfl, rfl, rfl⟩
      · simp only [TicTacToe.makeMove, hc, HumanPlayer.makeMove, if_neg hcond,
          makeMove_of_mem_emptyCells hmem, Option.map_some']
      · exact ⟨fun _ => ⟨hin, hs⟩, fun _ => rfl⟩
      · intro _; rfl
      · intro h; cases h
    · refine ⟨false, ⟨g.board, some Player_Type.HUMAN, g.computer,
        ⟨g.human.ai, g.human.symbol, pos⟩, g.aitype_computer⟩, ?_, rfl, ?_, ?_, ?_,
        rfl, rfl, rfl, rfl⟩
      · simp only [TicTacToe.makeMove, hc, HumanPlayer.makeMove, if_neg hcond,
          makeMove_of_occupied hs hs0, Option.map_some']
      · constructor
        · intro h; cases h
        · rintro ⟨-, h⟩
          rw [hs] at h
          exact absurd (Option.some.inj h) hs0
      · intro h; cases h
      · intro _; rfl
  · have hcond : pos.x < 0 ∨ pos.x ≥ g.board.size ∨ pos.y < 0 ∨ pos.y ≥ g.board.size := by
      unfold Board.InBounds at hin; omega
    refine ⟨false, ⟨g.board, some Player_Type.HUMAN, g.computer, g.human, g.aitype_computer⟩,
      ?_, rfl, ?_, ?_, ?_, rfl, rfl, rfl, rfl⟩
    · simp only [TicTacToe.makeMove, hc, HumanPlayer.makeMove, if_pos hcond, Option.map_some']
    · constructor
      · intro h; cases h
      · rintro ⟨h, -⟩
        exact absurd h hin
    · intro h; cases h
    · intro _; rfl

/-- `MinimaxAI::makeMove` on a board without an empty cell answers `(0, 0)`. -/
theorem minimaxMakeMove_full {b : Board} (hb : b.GridShape) (he : b.emptyCells = [])
    (fuel : Nat) (level : GameLevel) (s : Symbol) :
    MinimaxAI.makeMove fuel level b s = some ⟨0, 0⟩ := by
  rw [minimaxMakeMove_eq hb, he]
  rfl

/-- On a board without an empty cell every call of `Board::makeMove` is rejected. -/
theorem makeMove_full {b : Board} (hb : b.GridShape) (he : b.emptyCells = []) (pos : QPoint)
    (s : Symbol) : b.makeMove pos s = some (false, b) := by
  by_cases hin : b.InBounds pos
  · obtain ⟨c, hc⟩ := cell_isSome_of_gridShape hb hin.1 hin.2.1 hin.2.2.1 hin.2.2.2
    have hne : c ≠ Symbol.None := by
      rintro rfl
      have hmem := mem_emptyCells.2 ⟨hin, hc⟩
      rw [he] at hmem
      cases hmem
    exact makeMove_of_occupied hc hne s
  · exact makeMove_of_not_inBounds hin s

/-- A move of a minimax computer agent through the orchestrator in a started game. -/
theorem tttMakeMove_minimax_spec (rand : Nat → Nat) (fuel : Nat) {g : TicTacToe}
    (hcur : g.currentPlayer ≠ none) (hb : g.board.GridShape) (hN : 1 ≤ g.board.size)
    {level : GameLevel} (hai : g.computer.ai = some ⟨AIKind.Minimax, level⟩)
    (hs : g.computer.symbol ≠ Symbol.None) (hint : QPoint) :
    (g.board.emptyCells = [] →
      TicTacToe.makeMove rand fuel g hint Player_Type.COMPUTER =
        some (false, ⟨g.board, some Player_Type.COMPUTER,
          ⟨g.computer.ai, g.computer.symbol, ⟨0, 0⟩⟩, g.human, g.aitype_computer⟩)) ∧
    (g.board.emptyCells ≠ [] → g.board.emptyCells.length ≤ fuel →
      MinimaxAI.DepthInRange level.raw g.board.emptyCells.length →
      ∃ m, MinimaxAI.makeMove fuel level g.board g.computer.symbol = some m ∧
        m ∈ g.board.emptyCells ∧
        TicTacToe.makeMove rand fuel g hint Player_Type.COMPUTER =
          some (true, ⟨g.board.place m g.computer.symbol, some Player_Type.COMPUTER,
            ⟨g.computer.ai, g.computer.symbol, m⟩, g.human, g.aitype_computer⟩)) := by
  obtain ⟨c, hc⟩ : ∃ c, g.currentPlayer = some c := Option.ne_none_iff_exists'.1 hcur
  constructor
  · intro he
    simp only [TicTacToe.makeMove, hc, ComputerPlayer.makeMove, hai, GameAI.makeMove,
      minimaxMakeMove_full hb he, Option.some_bind, makeMove_full hb he, Option.map_some']
  · intro he hlen hrange
    obtain ⟨m, v, hm, hmem, -⟩ := minimaxMakeMove_of_scores hb fuel level g.computer.symbol he
      (minimax_scores_defined hb hN fuel level g.computer.symbol
        (Or.inl ⟨hs, hlen, hrange⟩))
    refine ⟨m, hm, hmem, ?_⟩
    simp only [TicTacToe.makeMove, hc, ComputerPlayer.makeMove, hai, GameAI.makeMove,
      hm, Option.some_bind, makeMove_of_mem_emptyCells hmem, Option.map_some']

/-! ## The orchestrator: winner, turn order, rejected moves -/

/-- C22: in every orchestrator state whose board has the right shape, in which the human
holds `h` in `{X, O}` and the computer holds `opponent(h)`, both `Board::checkForWinner`
and `TicTacToe::checkForWinner` return, and the latter is `HUMAN` iff the board reports
`h`, `COMPUTER` iff it reports `opponent(h)`, and `UNKNOWN` iff it reports `None`. -/
theorem tttCheckForWinner_spec (g : TicTacToe) (h : Symbol)
    (hb : g.board.GridShape) (hN : 1 ≤ g.board.size)
    (hh : h = Symbol.X ∨ h = Symbol.O) (hhum : g.human.symbol = h)
    (hcomp : g.computer.symbol = g.board.getOpponent h) :
    ∃ w r, g.board.checkForWinner = some w ∧ g.checkForWinner = some r ∧
      (r = Player_Type.HUMAN ↔ w = h) ∧
      (r = Player_Type.COMPUTER ↔ w = g.board.getOpponent h) ∧
      (r = Player_Type.UNKNOWN ↔ w = Symbol.None) := by
  have hw := checkForWinner_eq_firstMatch_aux hb hN
  have hg : g.checkForWinner = some
      (if g.board.firstMatch = Symbol.None then Player_Type.UNKNOWN
       else if g.human.symbol = g.board.firstMatch then Player_Type.HUMAN
       else if g.computer.symbol = g.board.firstMatch then Player_Type.COMPUTER
       else Player_Type.UNKNOWN) := by
    unfold TicTacToe.checkForWinner
    rw [hw, Option.map_some']
  refine ⟨_, _, hw, hg, ?_⟩
  rw [hhum, hcomp]
  rcases hh with rfl | rfl <;> cases g.board.firstMatch <;> simp [Board.getOpponent]

/-- An instance of C22: with the human on `X` and row 0 filled with `X` the orchestrator
reports `HUMAN`. -/
theorem tttCheckForWinner_spec_witness :
    ∃ w r, wonGame.board.checkForWinner = some w ∧ wonGame.checkForWinner = some r ∧
      (r = Player_Type.HUMAN ↔ w = Symbol.X) ∧
      (r = Player_Type.COMPUTER ↔ w = wonGame.board.getOpponent Symbol.X) ∧
      (r = Player_Type.UNKNOWN ↔ w = Symbol.None) :=
  tttCheckForWinner_spec wonGame Symbol.X (by decide) (by decide) (Or.inl rfl) rfl rfl

/-- C23: in every state reached from the constructor by a session that contains a
`startNewGame`, `makeMove(pos, HUMAN)` returns, sets the active agent to the human and
answers true exactly when `pos` is in bounds and empty.  Nothing is asked about who
moved last or about the winner: the state is any reachable one. -/
theorem turn_order_not_enforced (ops : List TicTacToeOp) (g : TicTacToe)
    (hr : TicTacToe.ReachedBy ops g) (hstart : ∃ op ∈ ops, op.IsStart)
    (rand : Nat → Nat) (fuel : Nat) (pos : QPoint) :
    ∃ r g1, TicTacToe.makeMove rand fuel g pos Player_Type.HUMAN = some (r, g1) ∧
      g1.currentPlayer = some Player_Type.HUMAN ∧
      (r = true ↔ g.board.InBounds pos ∧ g.board.cell pos.y pos.x = some Symbol.None) := by
  obtain ⟨hw, hcur⟩ := reachedBy_wellFormed hr
  obtain ⟨r, g1, h1, h2, h3, -⟩ := tttMakeMove_human_spec rand fuel (hcur.2 hstart) hw.1 pos
  exact ⟨r, g1, h1, h2, h3⟩

/-- An instance of C23: after three human moves in a row, the last of which completed
row 0, the winner is reported as `HUMAN` and a fourth human move on the empty cell
at row 1, column 0 is still accepted. -/
theorem turn_order_not_enforced_witness :
    wonGame.checkForWinner = some Player_Type.HUMAN ∧
    (TicTacToe.makeMove (fun _ => 0) 0 wonGame ⟨0, 1⟩ Player_Type.HUMAN).map (fun r => r.1)
      = some true ∧
    ∃ r g1, TicTacToe.makeMove (fun _ => 0) 0 wonGame ⟨0, 1⟩ Player_Type.HUMAN = some (r, g1) ∧
      g1.currentPlayer = some Player_Type.HUMAN ∧
      (r = true ↔ wonGame.board.InBounds ⟨0, 1⟩ ∧ wonGame.board.cell 1 0 = some Symbol.None) :=
  ⟨by decide, by decide, turn_order_not_enforced wonOps wonGame ⟨by decide, by decide⟩
    ⟨_, List.mem_cons_self _ _, trivial⟩ (fun _ => 0) 0 ⟨0, 1⟩⟩

/-- C24: in every state reached by a session that contains a `startNewGame`, a call of
`TicTacToe::makeMove` that returns false leaves the board as it was.  The call does
return false for a human move that is out of bounds or on an occupied cell, and for a
move of a minimax computer agent on a board without an empty cell. -/
theorem tttMakeMove_false_board_unchanged (ops : List TicTacToeOp) (g : TicTacToe)
    (hr : TicTacToe.ReachedBy ops g) (hstart : ∃ op ∈ ops, op.IsStart)
    (rand : Nat → Nat) (fuel : Nat) (pos : QPoint) :
    (∀ actor g1, TicTacToe.makeMove rand fuel g pos actor = some (false, g1) →
      g1.board = g.board) ∧
    (¬ (g.board.InBounds pos ∧ g.board.cell pos.y pos.x = some Symbol.None) →
      ∃ g1, TicTacToe.makeMove rand fuel g pos Player_Type.HUMAN = some (false, g1) ∧
        g1.board = g.board) ∧
    (∀ level, g.computer.ai = some ⟨AIKind.Minimax, level⟩ → g.board.emptyCells = [] →
      ∃ g1, TicTacToe.makeMove rand fuel g pos Player_Type.COMPUTER = some (false, g1) ∧
        g1.board = g.board) := by
  obtain ⟨hw, hcur⟩ := reachedBy_wellFormed hr
  have hc := hcur.2 hstart
  refine ⟨?_, ?_, ?_⟩
  · intro actor g1 hm
    obtain ⟨-, -, -, -, -, -, -, h8, -⟩ := tttMakeMove_eq_some hm
    exact h8 rfl
  · intro hnot
    obtain ⟨r, g1, h1, -, h3, -, h5, -⟩ := tttMakeMove_human_spec rand fuel hc hw.1 pos
    have hrf : r = false := by
      cases r with
      | false => rfl
      | true => exact absurd (h3.1 rfl) hnot
    subst hrf
    exact ⟨g1, h1, h5 rfl⟩
  · intro level hai he
    obtain ⟨obs, hobs⟩ : ∃ c, g.currentPlayer = some c := Option.ne_none_iff_exists'.1 hc
    refine ⟨⟨g.board, some Player_Type.COMPUTER,
      ⟨g.computer.ai, g.computer.symbol, ⟨0, 0⟩⟩, g.human, g.aitype_computer⟩, ?_, rfl⟩
    simp only [TicTacToe.makeMove, hobs, ComputerPlayer.makeMove, hai, GameAI.makeMove,
      minimaxMakeMove_full hw.1 he, Option.some_bind, makeMove_full hw.1 he, Option.map_some']

/-- An instance of C24: in the state after `wonOps` a human move on the occupied cell
at row 0, column 0 returns false and the board is the same. -/
theorem tttMakeMove_false_board_unchanged_witness :
    ∃ g1, TicTacToe.makeMove (fun _ => 0) 0 wonGame ⟨0, 0⟩ Player_Type.HUMAN = some (false, g1) ∧
      g1.board = wonGame.board :=
  (tttMakeMove_false_board_unchanged wonOps wonGame ⟨by decide, by decide⟩
    ⟨_, List.mem_cons_self _ _, trivial⟩ (fun _ => 0) 0 ⟨0, 0⟩).2.1 (by decide)

/-- C29: while no `startNewGame` has been called (the freshly constructed object, and
every state reached from it by other calls), `TicTacToe::makeMove` returns false for
every position and every actor and leaves the whole state, board and both agents
included, as it was.  Once a `startNewGame` has been called the active agent is set,
so this failure no longer occurs: a human move on an empty cell in bounds returns
true. -/
theorem idle_makeMove_fails (ops : List TicTacToeOp) (g : TicTacToe)
    (hr : TicTacToe.ReachedBy ops g) (rand : Nat → Nat) (fuel : Nat) (pos : QPoint) :
    ((∀ op ∈ ops, ¬ op.IsStart) →
      g.currentPlayer = none ∧
      ∀ actor, TicTacToe.makeMove rand fuel g pos actor = some (false, g)) ∧
    ((∃ op ∈ ops, op.IsStart) →
      g.currentPlayer ≠ none ∧
      (g.board.InBounds pos → g.board.cell pos.y pos.x = some Symbol.None →
        ∃ g1, TicTacToe.makeMove rand fuel g pos Player_Type.HUMAN = some (true, g1))) := by
  obtain ⟨hw, hcur⟩ := reachedBy_wellFormed hr
  constructor
  · intro hno
    have hnone : g.currentPlayer = none := by
      by_contra hne
      obtain ⟨op, hop, hs⟩ := hcur.1 hne
      exact hno op hop hs
    refine ⟨hnone, fun actor => ?_⟩
    simp only [TicTacToe.makeMove, hnone]
  · intro hstart
    refine ⟨hcur.2 hstart, fun hin hcell => ?_⟩
    obtain ⟨r, g1, h1, -, h3, -⟩ := tttMakeMove_human_spec rand fuel (hcur.2 hstart) hw.1 pos
    have hrt : r = true := h3.2 ⟨hin, hcell⟩
    subst hrt
    exact ⟨g1, h1⟩

/-- An instance of C29: on the freshly constructed orchestrator a human move and a
computer move at row 1, column 1 both return false and change nothing; after `wonOps`
the active agent is set. -/
theorem idle_makeMove_fails_witness :
    TicTacToe.new = some idleGame ∧
    TicTacToe.makeMove (fun _ => 0) 9 idleGame ⟨1, 1⟩ Player_Type.HUMAN
      = some (false, idleGame) ∧
    TicTacToe.makeMove (fun _ => 0) 9 idleGame ⟨1, 1⟩ Player_Type.COMPUTER
      = some (false, idleGame) ∧
    wonGame.currentPlayer ≠ none :=
  ⟨by decide,
   ((idle_makeMove_fails [] idleGame ⟨by decide, by decide⟩ (fun _ => 0) 9 ⟨1, 1⟩).1
      (by decide)).2 Player_Type.HUMAN,
   ((idle_makeMove_fails [] idleGame ⟨by decide, by decide⟩ (fun _ => 0) 9 ⟨1, 1⟩).1
      (by decide)).2 Player_Type.COMPUTER,
   ((idle_makeMove_fails wonOps wonGame ⟨by decide, by decide⟩ (fun _ => 0) 0 ⟨0, 1⟩).2
      ⟨_, List.mem_cons_self _ _, trivial⟩).1⟩

/-! ## Changing the strategy, the AI type and the level -/

/-- The value `AIFactory::createAI` returns, by the type asked for. -/
theorem createAI_eq (t : AIType) :
    (t = AIType.Random → AIFactory.createAI t = some (GameAI.new AIKind.Random)) ∧
    (t = AIType.Minimax → AIFactory.createAI t = some (GameAI.new AIKind.Minimax)) ∧
    (t ≠ AIType.Random → t ≠ AIType.Minimax → AIFactory.createAI t = none) := by
  unfold AIFactory.createAI
  refine ⟨?_, ?_, ?_⟩
  · rintro rfl; rfl
  · rintro rfl; rfl
  · intro h1 h2
    rw [if_neg h1, if_neg h2]

/-- A computer agent without a strategy does not move. -/
theorem computerMakeMove_no_ai (rand : Nat → Nat) (fuel : Nat) {p : Player} (hai : p.ai = none)
    (hint : QPoint) (board : Board) :
    ComputerPlayer.makeMove rand fuel p hint board = some (false, p, board) := by
  unfold ComputerPlayer.makeMove
  rw [hai]

/-- C25, refuted as stated: a computer agent holding a minimax strategy is asked to
change to the unknown type 5.  The call returns false, and afterwards the agent holds
no strategy: its next `makeMove` on the empty 3 x 3 board returns false and leaves the
board empty, whereas with the strategy installed before it returned true. -/
theorem changeAI_prior_strategy_counterexample :
    (ComputerPlayer.changeAI minimaxPlayer ⟨5⟩).1 = false ∧
    (ComputerPlayer.changeAI minimaxPlayer ⟨5⟩).2.ai = none ∧
    (ComputerPlayer.changeAI minimaxPlayer ⟨5⟩).2.ai ≠ minimaxPlayer.ai ∧
    (ComputerPlayer.makeMove (fun _ => 0) 9 (ComputerPlayer.changeAI minimaxPlayer ⟨5⟩).2
        ⟨0, 0⟩ (emptyBoard 3)).map (fun r => (r.1, r.2.2)) = some (false, emptyBoard 3) ∧
    (ComputerPlayer.makeMove (fun _ => 0) 9 minimaxPlayer ⟨0, 0⟩ (emptyBoard 3)).map
        (fun r => r.1) = some true := by
  refine ⟨by decide, by decide, by decide, by decide, by decide⟩

/-- C25, amended: when `ComputerPlayer::changeAI` is asked for a type the factory does
not recognise it returns false, keeps the symbol and the recorded position, and
leaves the agent without any strategy: the strategy installed before the call is
destroyed first, so an agent that held one no longer holds it, and every later
`makeMove` that returns answers false and leaves the board as it was. -/
theorem changeAI_unknown_discards (p : Player) (t : AIType)
    (h1 : t ≠ AIType.Random) (h2 : t ≠ AIType.Minimax) :
    (ComputerPlayer.changeAI p t).1 = false ∧
    (ComputerPlayer.changeAI p t).2.ai = none ∧
    (ComputerPlayer.changeAI p t).2.symbol = p.symbol ∧
    (ComputerPlayer.changeAI p t).2.curPos = p.curPos ∧
    (p.ai ≠ none → (ComputerPlayer.changeAI p t).2.ai ≠ p.ai) ∧
    ∀ rand fuel hint board r p1 b1,
      ComputerPlayer.makeMove rand fuel (ComputerPlayer.changeAI p t).2 hint board
        = some (r, p1, b1) → r = false ∧ b1 = board := by
  have hnone := (createAI_eq t).2.2 h1 h2
  have hch : ComputerPlayer.changeAI p t = (false, ⟨none, p.symbol, p.curPos⟩) := by
    unfold ComputerPlayer.changeAI
    rw [hnone]
  rw [hch]
  refine ⟨rfl, rfl, rfl, rfl, fun h => h.symm, ?_⟩
  intro rand fuel hint board r p1 b1 hm
  rw [computerMakeMove_no_ai rand fuel rfl] at hm
  simp only [Option.some.injEq, Prod.mk.injEq] at hm
  exact ⟨hm.1.symm, hm.2.2.symm⟩

/-- An instance of the amended C25: the minimax agent asked for the unknown type 5. -/
theorem changeAI_unknown_discards_witness :
    (ComputerPlayer.changeAI minimaxPlayer ⟨5⟩).1 = false ∧
    (ComputerPlayer.changeAI minimaxPlayer ⟨5⟩).2.ai = none :=
  ⟨(changeAI_unknown_discards minimaxPlayer ⟨5⟩ (by decide) (by decide)).1,
   (changeAI_unknown_discards minimaxPlayer ⟨5⟩ (by decide) (by decide)).2.1⟩

/-- C26: `ComputerPlayer::changeAI` discards the current strategy and installs what the
factory returns.  For `Random` and for `Minimax` it returns true and the agent holds a
freshly constructed strategy of that type (level `EASY`, whatever the level before);
for any other type it returns false and the agent holds no strategy, and the
following `ComputerPlayer::makeMove` returns false with the agent and the board
unchanged.  Symbol and recorded position are kept in every case. -/
theorem changeAI_spec (p : Player) (t : AIType) :
    (t = AIType.Random →
      ComputerPlayer.changeAI p t
        = (true, ⟨some ⟨AIKind.Random, GameLevel.EASY⟩, p.symbol, p.curPos⟩)) ∧
    (t = AIType.Minimax →
      ComputerPlayer.changeAI p t
        = (true, ⟨some ⟨AIKind.Minimax, GameLevel.EASY⟩, p.symbol, p.curPos⟩)) ∧
    (t ≠ AIType.Random → t ≠ AIType.Minimax →
      ComputerPlayer.changeAI p t = (false, ⟨none, p.symbol, p.curPos⟩) ∧
      ∀ rand fuel hint board,
        ComputerPlayer.makeMove rand fuel (ComputerPlayer.changeAI p t).2 hint board
          = some (false, (ComputerPlayer.changeAI p t).2, board)) := by
  refine ⟨?_, ?_, ?_⟩
  · rintro rfl; rfl
  · rintro rfl; rfl
  · intro h1 h2
    have hch : ComputerPlayer.changeAI p t = (false, ⟨none, p.symbol, p.curPos⟩) := by
      unfold ComputerPlayer.changeAI
      rw [(createAI_eq t).2.2 h1 h2]
    rw [hch]
    exact ⟨rfl, fun rand fuel hint board => computerMakeMove_no_ai rand fuel rfl hint board⟩

/-- An instance of C26: the minimax agent at level 0 changes to `Random`, to `Minimax`
(the level is `EASY` again) and to the unknown type 7. -/
theorem changeAI_spec_witness :
    ComputerPlayer.changeAI minimaxPlayer AIType.Random
      = (true, ⟨some ⟨AIKind.Random, GameLevel.EASY⟩, Symbol.X, ⟨0, 0⟩⟩) ∧
    ComputerPlayer.changeAI minimaxPlayer AIType.Minimax
      = (true, ⟨some ⟨AIKind.Minimax, GameLevel.EASY⟩, Symbol.X, ⟨0, 0⟩⟩) ∧
    ComputerPlayer.changeAI minimaxPlayer ⟨7⟩ = (false, ⟨none, Symbol.X, ⟨0, 0⟩⟩) :=
  ⟨(changeAI_spec minimaxPlayer AIType.Random).1 rfl,
   (changeAI_spec minimaxPlayer AIType.Minimax).2.1 rfl,
   ((changeAI_spec minimaxPlayer ⟨7⟩).2.2 (by decide) (by decide)).1⟩

/-- C27: `TicTacToe::setAITypeComputer(t)` on a state whose recorded AI type is already
`t` leaves the whole state as it was, strategy and its level included; hence calling
it twice with the same type gives the state that calling it once gives. -/
theorem setAITypeComputer_idempotent (g : TicTacToe) (t : AIType) :
    (g.aitype_computer = t → g.setAITypeComputer t = g) ∧
    (g.setAITypeComputer t).setAITypeComputer t = g.setAITypeComputer t := by
  obtain ⟨-, -, -, -, -, h6, h7, -⟩ := setAITypeComputer_spec g t
  refine ⟨h7, ?_⟩
  exact (setAITypeComputer_spec (g.setAITypeComputer t) t).2.2.2.2.2.2.1 h6

/-- An instance of C27: the state after `wonOps` records `Minimax`; its strategy was set
to level 20 and is kept by `setAITypeComputer(Minimax)`. -/
theorem setAITypeComputer_idempotent_witness :
    (wonGame.setGameLevel GameLevel.MASTER).setAITypeComputer AIType.Minimax
      = wonGame.setGameLevel GameLevel.MASTER :=
  (setAITypeComputer_idempotent (wonGame.setGameLevel GameLevel.MASTER) AIType.Minimax).1 rfl

/-- A move of a computer agent that holds a strategy, through the orchestrator in a
started game: the strategy chooses, the board is asked, the choice is recorded. -/
theorem tttMakeMove_computer_eq (rand : Nat → Nat) (fuel : Nat) {g : TicTacToe}
    (hcur : g.currentPlayer ≠ none) {ai : GameAI} (hai : g.computer.ai = some ai)
    (hint : QPoint) :
    TicTacToe.makeMove rand fuel g hint Player_Type.COMPUTER =
      (ai.makeMove rand fuel g.board g.computer.symbol).bind (fun m =>
        (g.board.makeMove m g.computer.symbol).map (fun r =>
          (r.1, ⟨r.2, some Player_Type.COMPUTER, ⟨g.computer.ai, g.computer.symbol, m⟩,
            g.human, g.aitype_computer⟩))) := by
  obtain ⟨c, hc⟩ : ∃ c, g.currentPlayer = some c := Option.ne_none_iff_exists'.1 hcur
  simp only [TicTacToe.makeMove, hc, ComputerPlayer.makeMove, hai]
  cases ai.makeMove rand fuel g.board g.computer.symbol with
  | none => rfl
  | some m =>
    simp only [Option.some_bind, Option.map_map]
    rfl

/-- `MinimaxAI::makeMove` returns for the symbols `X` and `O` once the fuel reaches the
number of empty cells, at every level that can be counted down within `int`. -/
theorem minimaxMakeMove_total {b : Board} (hb : b.GridShape) (hN : 1 ≤ b.size) (fuel : Nat)
    (level : GameLevel) {s : Symbol} (hs : s ≠ Symbol.None) (hlen : b.emptyCells.length ≤ fuel)
    (hrange : MinimaxAI.DepthInRange level.raw b.emptyCells.length) :
    ∃ m, MinimaxAI.makeMove fuel level b s = some m := by
  by_cases he : b.emptyCells = []
  · exact ⟨_, minimaxMakeMove_full hb he fuel level s⟩
  · obtain ⟨m, v, hm, -⟩ := minimaxMakeMove_of_scores hb fuel level s he
      (minimax_scores_defined hb hN fuel level s (Or.inl ⟨hs, hlen, hrange⟩))
    exact ⟨m, hm⟩

/-- C28: `TicTacToe::setGameLevel(l)` keeps the board, the human agent, the computer's
symbol and recorded position, the active agent and the AI type; the computer's
strategy, if any, keeps its kind and gets the level `l`.  With a minimax strategy, in a
started game on a board of the right shape, the position the next computer move
records is the one `MinimaxAI::makeMove` computes with search depth `l` on the current
board, and its flag and board are those of `Board::makeMove` at that position; that
computation returns for the symbols `X` and `O` once the fuel reaches the number of
empty cells, when `l` can be counted down within `int`. -/
theorem setGameLevel_spec (g : TicTacToe) (l : GameLevel) :
    (g.setGameLevel l).board = g.board ∧ (g.setGameLevel l).human = g.human ∧
    (g.setGameLevel l).computer.symbol = g.computer.symbol ∧
    (g.setGameLevel l).computer.curPos = g.computer.curPos ∧
    (g.setGameLevel l).currentPlayer = g.currentPlayer ∧
    (g.setGameLevel l).aitype_computer = g.aitype_computer ∧
    (g.setGameLevel l).computer.ai = g.computer.ai.map (fun ai => ⟨ai.kind, l⟩) ∧
    (∀ level0, g.computer.ai = some ⟨AIKind.Minimax, level0⟩ → g.currentPlayer ≠ none →
      g.board.GridShape → ∀ rand fuel hint,
        (TicTacToe.makeMove rand fuel (g.setGameLevel l) hint Player_Type.COMPUTER).map
            (fun r => r.2.computer.curPos)
          = MinimaxAI.makeMove fuel l g.board g.computer.symbol ∧
        (TicTacToe.makeMove rand fuel (g.setGameLevel l) hint Player_Type.COMPUTER).map
            (fun r => (r.1, r.2.board))
          = (MinimaxAI.makeMove fuel l g.board g.computer.symbol).bind
              (fun m => g.board.makeMove m g.computer.symbol) ∧
        (g.computer.symbol ≠ Symbol.None → 1 ≤ g.board.size →
          g.board.emptyCells.length ≤ fuel →
          MinimaxAI.DepthInRange l.raw g.board.emptyCells.length →
          ∃ m, MinimaxAI.makeMove fuel l g.board g.computer.symbol = some m)) := by
  obtain ⟨h1, h2, h3⟩ := setLevel_spec g.computer l
  refine ⟨rfl, rfl, h1, h2, rfl, rfl, ?_, ?_⟩
  · exact h3
  · intro level0 hai hcur hb rand fuel hint
    have hai1 : (g.setGameLevel l).computer.ai = some ⟨AIKind.Minimax, l⟩ := by
      show (g.computer.setLevel l).ai = _
      rw [h3, hai]
      rfl
    have hsym : (g.setGameLevel l).computer.symbol = g.computer.symbol := h1
    have hbd : (g.setGameLevel l).board = g.board := rfl
    have hcur1 : (g.setGameLevel l).currentPlayer ≠ none := hcur
    rw [tttMakeMove_computer_eq rand fuel hcur1 hai1 hint, hsym, hbd]
    simp only [GameAI.makeMove]
    refine ⟨?_, ?_, fun hs hN hlen hrange => minimaxMakeMove_total hb hN fuel l hs hlen hrange⟩
    · cases MinimaxAI.makeMove fuel l g.board g.computer.symbol with
      | none => rfl
      | some m =>
        obtain ⟨r, b1, hr⟩ := makeMove_total hb m g.computer.symbol
        simp only [Option.some_bind, hr, Option.map_some']
    · cases MinimaxAI.makeMove fuel l g.board g.computer.symbol with
      | none => rfl
      | some m =>
        obtain ⟨r, b1, hr⟩ := makeMove_total hb m g.computer.symbol
        simp only [Option.some_bind, hr, Option.map_some']

/-- An instance of C28: in `sampleGame` the level is set to 5; the next computer move
records the position `MinimaxAI::makeMove` computes with depth 5, and that
computation returns. -/
theorem setGameLevel_spec_witness :
    (TicTacToe.makeMove (fun _ => 0) 5 (sampleGame.setGameLevel GameLevel.HARD) ⟨0, 0⟩
        Player_Type.COMPUTER).map (fun r => r.2.computer.curPos)
      = MinimaxAI.makeMove 5 GameLevel.HARD sampleGame.board sampleGame.computer.symbol ∧
    ∃ m, MinimaxAI.makeMove 5 GameLevel.HARD sampleGame.board sampleGame.computer.symbol
      = some m :=
  ⟨((setGameLevel_spec sampleGame GameLevel.HARD).2.2.2.2.2.2.2 GameLevel.EASY rfl
      (by decide) (by decide) (fun _ => 0) 5 ⟨0, 0⟩).1,
   ((setGameLevel_spec sampleGame GameLevel.HARD).2.2.2.2.2.2.2 GameLevel.EASY rfl
      (by decide) (by decide) (fun _ => 0) 5 ⟨0, 0⟩).2.2 (by decide) (by decide) (by decide)
      (by decide)⟩

/-! ## The base cases of the search -/

/-- C30: the base cases of `MinimaxAI::minimax`, for every depth and either value of
the maximizing flag, given one nested call of fuel.  When the board reports a winner
other than `None` the result is `+10` if the winner is `symbol` and `-10` if it is
`opponent(symbol)`, whatever the depth and whether or not the board is full.  When it
reports `None`: on a full board the result is 0, and on a board that is not full the
result is 0 at depth 0. -/
theorem minimax_base_cases (fuel : Nat) (b : Board) (depth : Int) (isMax : Bool)
    (s w : Symbol) (hw : b.checkForWinner = some w) :
    (w ≠ Symbol.None → w = s →
      MinimaxAI.minimax (fuel + 1) b depth isMax s = some 10) ∧
    (w ≠ Symbol.None → w = b.getOpponent s →
      MinimaxAI.minimax (fuel + 1) b depth isMax s = some (-10)) ∧
    (w = Symbol.None → b.isBoardFull = some true →
      MinimaxAI.minimax (fuel + 1) b depth isMax s = some 0) ∧
    (w = Symbol.None → b.isBoardFull = some false → depth = 0 →
      MinimaxAI.minimax (fuel + 1) b depth isMax s = some 0) := by
  refine ⟨?_, ?_, ?_, ?_⟩
  · intro hne hs
    have hne1 : Symbol.None ≠ w := fun h => hne h.symm
    rw [MinimaxAI.minimax, hw, Option.some_bind, if_pos hne1, MinimaxAI.score, hw,
      Option.some_bind, if_pos hs]
    rfl
  · intro hne hs
    have hne1 : Symbol.None ≠ w := fun h => hne h.symm
    have hws : w ≠ s := by
      rintro rfl
      cases w with
      | None => exact hne rfl
      | X => simp [Board.getOpponent] at hs
      | O => simp [Board.getOpponent] at hs
    rw [MinimaxAI.minimax, hw, Option.some_bind, if_pos hne1, MinimaxAI.score, hw,
      Option.some_bind, if_neg hws, if_pos hs.symm]
    rfl
  · intro hn hfull
    have hn1 : ¬ (Symbol.None ≠ w) := fun h => h hn.symm
    rw [MinimaxAI.minimax, hw, Option.some_bind, if_neg hn1, hfull, Option.some_bind]
    rfl
  · intro hn hfull hd
    have hn1 : ¬ (Symbol.None ≠ w) := fun h => h hn.symm
    rw [MinimaxAI.minimax, hw, Option.some_bind, if_neg hn1, hfull, Option.some_bind]
    simp [hd]

/-- An instance of C30: on the full board `doubleLineBoard`, where `X` has completed
row 0, the result at depth 0 is `+10` for `X` and `-10` for `O`. -/
theorem minimax_base_cases_witness :
    doubleLineBoard.isBoardFull = some true ∧
    MinimaxAI.minimax 1 doubleLineBoard 0 true Symbol.X = some 10 ∧
    MinimaxAI.minimax 1 doubleLineBoard 0 false Symbol.O = some (-10) :=
  ⟨by decide,
   (minimax_base_cases 0 doubleLineBoard 0 true Symbol.X Symbol.X (by decide)).1
     (by decide) rfl,
   (minimax_base_cases 0 doubleLineBoard 0 false Symbol.O Symbol.X (by decide)).2.1
     (by decide) (by decide)⟩

/-- What `TicTacToe::setGameLevel` keeps and what it changes. -/
theorem setGameLevel_state (g : TicTacToe) (l : GameLevel) :
    (g.setGameLevel l).board = g.board ∧ (g.setGameLevel l).human = g.human ∧
    (g.setGameLevel l).computer.symbol = g.computer.symbol ∧
    (g.setGameLevel l).computer.curPos = g.computer.curPos ∧
    (g.setGameLevel l).currentPlayer = g.currentPlayer ∧
    (g.setGameLevel l).aitype_computer = g.aitype_computer ∧
    (g.setGameLevel l).computer.ai = g.computer.ai.map (fun ai => ai.setLevel l) := by
  obtain ⟨h1, h2, h3⟩ := setLevel_spec g.computer l
  exact ⟨rfl, rfl, h1, h2, rfl, rfl, h3⟩

/-! ## The first exchange of a game against the minimax strategy -/

/-- `TicTacToe::startNewGame` with the AI type `Minimax`, from a well-formed state: the
board is empty, the human is active, the symbols are set and the computer holds a
minimax strategy. -/
theorem tttStartNewGame_minimax {g : TicTacToe} (hw : g.WellFormed) (h : Symbol) {n : Int}
    (hn : 1 ≤ n) :
    ∃ g1 level, g.startNewGame h AIType.Minimax n = some g1 ∧ g1.WellFormed ∧
      g1.board = emptyBoard n ∧ g1.currentPlayer = some Player_Type.HUMAN ∧
      g1.human.symbol = h ∧ g1.computer.symbol = g1.board.getOpponent h ∧
      g1.computer.ai = some ⟨AIKind.Minimax, level⟩ ∧ g1.aitype_computer = AIType.Minimax := by
  have heq := tttStartNewGame_eq hw.1 h AIType.Minimax (n := n) (by omega)
  obtain ⟨hw1, hcur1⟩ := tttStartNewGame_wellFormed hw hn heq
  have hc := hw1.2.2
  unfold TicTacToe.Consistent at hc
  simp only [] at hc
  have hk : (AIFactory.createAI AIType.Minimax).map (fun ai => ai.kind)
      = some AIKind.Minimax := by decide
  rw [hk] at hc
  obtain ⟨ai, hai, hkind⟩ := Option.map_eq_some'.1 hc
  refine ⟨_, ai.level, heq, hw1, rfl, rfl, rfl, rfl, ?_, rfl⟩
  rw [hai]
  cases ai with
  | mk kind level =>
    simp only at hkind
    rw [hkind]

/-- The computer move of `overflowGame` does not return: its strategy has the level
`INT_MIN`. -/
theorem overflowGame_makeMove (rand : Nat → Nat) (fuel : Nat) (hint : QPoint) :
    TicTacToe.makeMove rand fuel overflowGame hint Player_Type.COMPUTER = none := by
  have hcells : overflowGame.board.emptyCells
      = ⟨0, 0⟩ :: [⟨1, 0⟩, ⟨2, 0⟩, ⟨0, 1⟩, ⟨2, 1⟩, ⟨0, 2⟩, ⟨1, 2⟩, ⟨2, 2⟩] := by
    decide
  have hmove : MinimaxAI.makeMove fuel ⟨INT_MIN⟩ overflowGame.board Symbol.X = none :=
    minimaxMakeMove_overflow (by decide) (by decide) (le_refl _) hcells (by decide)
      (by decide) fuel
  have hai : overflowGame.computer.ai = some ⟨AIKind.Minimax, ⟨INT_MIN⟩⟩ := rfl
  rw [tttMakeMove_computer_eq rand fuel (by decide) hai hint]
  simp only [GameAI.makeMove]
  have hsym : overflowGame.computer.symbol = Symbol.X := rfl
  rw [hsym, hmove]
  rfl

/-- C21, as stated, fails for the level `INT_MIN`: after `startNewGame(O, Minimax, 3)`,
`setGameLevel(INT_MIN)` and a human move on the centre, which returns true and leaves
eight empty cells, the computer move does not return true: its search computes
`INT_MIN - 1`, a signed overflow, so the call has no defined result whatever the
fuel. -/
theorem computer_reply_level_counterexample :
    (idleGame.startNewGame Symbol.O AIType.Minimax 3).bind (fun g1 =>
      TicTacToe.makeMove (fun _ => 0) 0 (g1.setGameLevel ⟨INT_MIN⟩) ⟨1, 1⟩ Player_Type.HUMAN)
      = some (true, overflowGame) ∧
    overflowGame.board.emptyCells.length = 8 ∧
    ∀ rand fuel hint,
      TicTacToe.makeMove rand fuel overflowGame hint Player_Type.COMPUTER = none :=
  ⟨by decide, by decide, overflowGame_makeMove⟩

/-- C21, amended: from any well-formed state, `startNewGame(h, Minimax, n)` with `h` in
`{X, O}` and `n >= 1` returns a state in which the human holds `h` and the computer
`opponent(h)`.  After a level `l` is configured, a human move on any cell of the
board returns true; and if the board then has an empty cell and `l` can be counted
down within `int` (it is not negative, as all named levels are, or it lies at least
the number of empty cells above `INT_MIN`), the computer move returns true (the fuel
reaching the number of empty cells) and changes exactly one cell `m`: it held `None`
before and holds `opponent(h)` afterwards, and every other cell is as before. -/
theorem computer_reply_one_cell (g0 : TicTacToe) (hw0 : g0.WellFormed) (h : Symbol)
    (hh : h = Symbol.X ∨ h = Symbol.O) (n : Int) (hn : 1 ≤ n) (l : GameLevel) (pos : QPoint)
    (hpos : 0 ≤ pos.y ∧ pos.y < n ∧ 0 ≤ pos.x ∧ pos.x < n)
    (rand rand1 : Nat → Nat) (fuel0 fuel : Nat) (hint : QPoint) :
    ∃ g1 g2, g0.startNewGame h AIType.Minimax n = some g1 ∧
      g1.human.symbol = h ∧ g1.computer.symbol = g1.board.getOpponent h ∧
      TicTacToe.makeMove rand fuel0 (g1.setGameLevel l) pos Player_Type.HUMAN
        = some (true, g2) ∧
      (g2.board.emptyCells ≠ [] → g2.board.emptyCells.length ≤ fuel →
        MinimaxAI.DepthInRange l.raw g2.board.emptyCells.length →
        ∃ g3 m, TicTacToe.makeMove rand1 fuel g2 hint Player_Type.COMPUTER = some (true, g3) ∧
          g2.board.InBounds m ∧ g2.board.cell m.y m.x = some Symbol.None ∧
          g3.board.cell m.y m.x = some (g2.board.getOpponent h) ∧
          ∀ row col, (row ≠ m.y ∨ col ≠ m.x) →
            g3.board.cell row col = g2.board.cell row col) := by
  obtain ⟨g1, level, hstart, hw1, hb1, hcur1, hhum1, hcomp1, hai1, -⟩ :=
    tttStartNewGame_minimax hw0 h hn
  have hhne : h ≠ Symbol.None := by
    rcases hh with rfl | rfl <;> decide
  -- the level is configured
  obtain ⟨k1, k2, k3, -, k5, -, k7⟩ := setGameLevel_state g1 l
  have hai2 : (g1.setGameLevel l).computer.ai = some ⟨AIKind.Minimax, l⟩ := by
    rw [k7, hai1]; rfl
  have hcur2 : (g1.setGameLevel l).currentPlayer ≠ none := by
    rw [k5, hcur1]; exact Option.some_ne_none _
  have hgs2 : (g1.setGameLevel l).board.GridShape := by rw [k1]; exact hw1.1
  -- the human move
  obtain ⟨r, g2, hm, hc2, hr, hplace, -, hcomp2, -, -, -⟩ :=
    tttMakeMove_human_spec rand fuel0 hcur2 hgs2 pos
  have hin : (g1.setGameLevel l).board.InBounds pos := by
    rw [k1, hb1]; exact hpos
  have hcell : (g1.setGameLevel l).board.cell pos.y pos.x = some Symbol.None := by
    rw [k1, hb1]; exact emptyBoard_cell hpos.1 hpos.2.1 hpos.2.2.1 hpos.2.2.2
  have hrt : r = true := hr.2 ⟨hin, hcell⟩
  subst hrt
  have hmem : pos ∈ g1.board.emptyCells := by
    rw [k1] at hin hcell
    exact mem_emptyCells.2 ⟨hin, hcell⟩
  have hb2 : g2.board = g1.board.place pos h := by
    rw [hplace rfl, k1, k2, hhum1]
  obtain ⟨p1, p2, -, -⟩ := place_spec hmem h
  have hgs3 : g2.board.GridShape := by rw [hb2]; exact p2 hw1.1
  have hN3 : 1 ≤ g2.board.size := by rw [hb2, p1]; exact hw1.2.1
  have hsym : g2.computer.symbol = g2.board.getOpponent h := by
    rw [hcomp2, k3, hcomp1]; rfl
  have hai3 : g2.computer.ai = some ⟨AIKind.Minimax, l⟩ := by rw [hcomp2, hai2]
  have hcur3 : g2.currentPlayer ≠ none := by rw [hc2]; exact Option.some_ne_none _
  have hs3 : g2.computer.symbol ≠ Symbol.None := by
    rw [hsym]; exact getOpponent_ne_none _ hhne
  refine ⟨g1, g2, hstart, hhum1, hcomp1, hm, ?_⟩
  intro hne hlen hrange
  obtain ⟨m, -, hmem3, hmove⟩ :=
    (tttMakeMove_minimax_spec rand1 fuel hcur3 hgs3 hN3 hai3 hs3 hint).2 hne hlen hrange
  obtain ⟨-, -, q3, q4⟩ := place_spec hmem3 g2.computer.symbol
  obtain ⟨hin3, hcell3⟩ := mem_emptyCells.1 hmem3
  refine ⟨_, m, hmove, hin3, hcell3, ?_, ?_⟩
  · rw [← hsym]; exact q3
  · exact q4

/-- An instance of the amended C21: `startNewGame(O, Minimax, 3)` on the freshly
constructed orchestrator, the human plays the centre, and the computer, asked with
eight calls of fuel at level `EASY`, answers `X` at row 0, column 0. -/
theorem computer_reply_one_cell_witness :
    (∃ g1 g2, idleGame.startNewGame Symbol.O AIType.Minimax 3 = some g1 ∧
      g1.human.symbol = Symbol.O ∧ g1.computer.symbol = g1.board.getOpponent Symbol.O ∧
      TicTacToe.makeMove (fun _ => 0) 0 (g1.setGameLevel GameLevel.EASY) ⟨1, 1⟩
        Player_Type.HUMAN = some (true, g2) ∧
      (g2.board.emptyCells ≠ [] → g2.board.emptyCells.length ≤ 8 →
        MinimaxAI.DepthInRange GameLevel.EASY.raw g2.board.emptyCells.length →
        ∃ g3 m, TicTacToe.makeMove (fun _ => 0) 8 g2 ⟨-1, -1⟩ Player_Type.COMPUTER
            = some (true, g3) ∧
          g2.board.InBounds m ∧ g2.board.cell m.y m.x = some Symbol.None ∧
          g3.board.cell m.y m.x = some (g2.board.getOpponent Symbol.O) ∧
          ∀ row col, (row ≠ m.y ∨ col ≠ m.x) →
            g3.board.cell row col = g2.board.cell row col)) ∧
    (idleGame.startNewGame Symbol.O AIType.Minimax 3).bind (fun g1 =>
      (TicTacToe.makeMove (fun _ => 0) 0 (g1.setGameLevel GameLevel.EASY) ⟨1, 1⟩
        Player_Type.HUMAN).bind (fun r2 =>
          (TicTacToe.makeMove (fun _ => 0) 8 r2.2 ⟨-1, -1⟩ Player_Type.COMPUTER).map
            (fun r3 => (r3.1, r3.2.board))))
      = some (true, ⟨3, [[Symbol.X, Symbol.None, Symbol.None],
                         [Symbol.None, Symbol.O, Symbol.None],
                         [Symbol.None, Symbol.None, Symbol.None]]⟩) :=
  ⟨computer_reply_one_cell idleGame (by decide) Symbol.O (Or.inr rfl) 3 (by decide)
    GameLevel.EASY ⟨1, 1⟩ (by decide) (fun _ => 0) (fun _ => 0) 0 8 ⟨-1, -1⟩, by decide⟩

/-! ## The recursive case of the search -/

/-- A fold over scores that returns has evaluated every element. -/
theorem foldlM_defined {α : Type} (g : α → Option Int) (h : Int → Int → Int) (l : List α) :
    ∀ init r, l.foldlM (fun (best : Int) (p : α) => (g p).bind (fun sc => some (h best sc))) init
        = some r → ∀ p ∈ l, ∃ v, g p = some v := by
  induction l with
  | nil => intro init r _ p hp; exact absurd hp (List.not_mem_nil _)
  | cons a l ih =>
    intro init r hr p hp
    rw [List.foldlM_cons] at hr
    cases ha : g a with
    | none => simp [ha] at hr
    | some v =>
      rcases List.mem_cons.1 hp with rfl | hp
      · exact ⟨v, ha⟩
      · rw [ha] at hr
        exact ih _ r hr p hp

/-- The values of the search on a board of side at least one, for every symbol: only
`-10`, `0` and `+10` are returned. -/
theorem minimax_values (s : Symbol) (fuel : Nat) :
    ∀ (b : Board) (depth : Int) (isMax : Bool) (v : Int), b.GridShape → 1 ≤ b.size →
      MinimaxAI.minimax fuel b depth isMax s = some v → v = -10 ∨ v = 0 ∨ v = 10 := by
  induction fuel with
  | zero =>
    intro b depth isMax v _ _ h
    simp [MinimaxAI.minimax] at h
  | succ fuel ih =>
    intro b depth isMax v hb hN h
    by_cases hmin : ¬ (INT_MIN < depth)
    · rw [minimax_succ_overflow hb hN (by omega)] at h
      by_cases hw : b.firstMatch ≠ Symbol.None
      · rw [if_pos hw] at h
        obtain rfl := Option.some.inj h
        split
        · right; right; rfl
        · split
          · left; rfl
          · right; left; rfl
      · rw [if_neg hw] at h
        by_cases he : b.emptyCells = []
        · rw [if_pos he] at h
          right; left; exact (Option.some.inj h).symm
        · rw [if_neg he] at h
          cases h
    rw [minimax_succ hb hN (not_not.1 hmin)] at h
    by_cases hw : b.firstMatch ≠ Symbol.None
    · rw [if_pos hw] at h
      obtain rfl := Option.some.inj h
      split
      · right; right; rfl
      · split
        · left; rfl
        · right; left; rfl
    · rw [if_neg hw] at h
      by_cases he : b.emptyCells = []
      · rw [if_pos he] at h
        right; left; exact (Option.some.inj h).symm
      · rw [if_neg he] at h
        by_cases hd : depth = 0
        · rw [if_pos hd] at h
          right; left; exact (Option.some.inj h).symm
        · rw [if_neg hd] at h
          have hchild : ∀ p ∈ b.emptyCells, ∀ w,
              MinimaxAI.minimax fuel (b.place p (if isMax then s else b.getOpponent s))
                (depth - 1) (!isMax) s = some w → w = -10 ∨ w = 0 ∨ w = 10 := by
            intro p hp w hw1
            obtain ⟨hsize, hshape, -, -⟩ := place_spec hp (if isMax then s else b.getOpponent s)
            exact ih _ _ _ w (hshape hb) (by omega) hw1
          obtain ⟨p0, hp0⟩ := List.exists_mem_of_ne_nil _ he
          cases isMax with
          | true =>
            simp only [if_true] at h hchild
            have hdef := foldlM_defined _ (fun best sc => max best sc) _ _ _ h
            obtain ⟨r, hr, -, h2, h3⟩ := foldlM_max _ b.emptyCells hdef (-INT_MAX)
            rw [hr] at h
            obtain rfl := Option.some.inj h
            rcases h3 with h3 | ⟨p, hp, hpr⟩
            · obtain ⟨v0, hv0⟩ := hdef p0 hp0
              have h4 := h2 p0 hp0 v0 hv0
              have h5 := hchild p0 hp0 v0 hv0
              rw [h3] at h4
              simp only [INT_MAX] at h4
              omega
            · exact hchild p hp r hpr
          | false =>
            simp only [Bool.false_eq_true, if_false] at h hchild
            have hdef := foldlM_defined _ (fun best sc => min best sc) _ _ _ h
            obtain ⟨r, hr, -, h2, h3⟩ := foldlM_min _ b.emptyCells hdef INT_MAX
            rw [hr] at h
            obtain rfl := Option.some.inj h
            rcases h3 with h3 | ⟨p, hp, hpr⟩
            · obtain ⟨v0, hv0⟩ := hdef p0 hp0
              have h4 := h2 p0 hp0 v0 hv0
              have h5 := hchild p0 hp0 v0 hv0
              rw [h3] at h4
              simp only [INT_MAX] at h4
              omega
            · exact hchild p hp r hpr

/-- The recursive case of the search: the call returns `v` exactly when every child
call returns, `v` is the value of one of them, and `v` bounds the values of all. -/
theorem minimax_recursive_iff {b : Board} (hb : b.GridShape) (hN : 1 ≤ b.size)
    (hw : b.firstMatch = Symbol.None) (he : b.emptyCells ≠ []) {depth : Int}
    (hd : 0 < depth) (fuel : Nat) (isMax : Bool) (s : Symbol) (v : Int) :
    MinimaxAI.minimax (fuel + 1) b depth isMax s = some v ↔
      (∀ p ∈ b.emptyCells, ∃ w,
        MinimaxAI.minimax fuel (b.place p (if isMax then s else b.getOpponent s))
          (depth - 1) (!isMax) s = some w) ∧
      (∃ p ∈ b.emptyCells,
        MinimaxAI.minimax fuel (b.place p (if isMax then s else b.getOpponent s))
          (depth - 1) (!isMax) s = some v) ∧
      (∀ p ∈ b.emptyCells, ∀ w,
        MinimaxAI.minimax fuel (b.place p (if isMax then s else b.getOpponent s))
          (depth - 1) (!isMax) s = some w → if isMax then w ≤ v else v ≤ w) := by
  rw [minimax_succ hb hN (lt_trans (by decide) hd), if_neg (not_not.2 hw), if_neg he,
    if_neg (ne_of_gt hd)]
  have hval : ∀ p ∈ b.emptyCells, ∀ w,
      MinimaxAI.minimax fuel (b.place p (if isMax then s else b.getOpponent s))
        (depth - 1) (!isMax) s = some w → w = -10 ∨ w = 0 ∨ w = 10 := by
    intro p hp w hw1
    obtain ⟨hsize, hshape, -, -⟩ := place_spec hp (if isMax then s else b.getOpponent s)
    exact minimax_values s fuel _ _ _ w (hshape hb) (by omega) hw1
  obtain ⟨p0, hp0⟩ := List.exists_mem_of_ne_nil _ he
  cases isMax with
  | true =>
    simp only [if_true] at hval ⊢
    constructor
    · intro h
      have hdef := foldlM_defined _ (fun best sc => max best sc) _ _ _ h
      obtain ⟨r, hr, -, h2, h3⟩ := foldlM_max _ b.emptyCells hdef (-INT_MAX)
      rw [hr] at h
      obtain rfl := Option.some.inj h
      refine ⟨hdef, ?_, h2⟩
      rcases h3 with h3 | h3
      · obtain ⟨v0, hv0⟩ := hdef p0 hp0
        have h4 := h2 p0 hp0 v0 hv0
        have h5 := hval p0 hp0 v0 hv0
        rw [h3] at h4
        simp only [INT_MAX] at h4
        omega
      · exact h3
    · rintro ⟨hdef, ⟨p, hp, hpv⟩, hbound⟩
      obtain ⟨r, hr, -, h2, h3⟩ := foldlM_max _ b.emptyCells hdef (-INT_MAX)
      rw [hr]
      have h4 := h2 p hp v hpv
      rcases h3 with h3 | ⟨q, hq, hqr⟩
      · have h5 := hval p hp v hpv
        rw [h3] at h4
        simp only [INT_MAX] at h4
        omega
      · have h5 := hbound q hq r hqr
        rw [le_antisymm h5 h4]
  | false =>
    simp only [Bool.false_eq_true, if_false] at hval ⊢
    constructor
    · intro h
      have hdef := foldlM_defined _ (fun best sc => min best sc) _ _ _ h
      obtain ⟨r, hr, -, h2, h3⟩ := foldlM_min _ b.emptyCells hdef INT_MAX
      rw [hr] at h
      obtain rfl := Option.some.inj h
      refine ⟨hdef, ?_, h2⟩
      rcases h3 with h3 | h3
      · obtain ⟨v0, hv0⟩ := hdef p0 hp0
        have h4 := h2 p0 hp0 v0 hv0
        have h5 := hval p0 hp0 v0 hv0
        rw [h3] at h4
        simp only [INT_MAX] at h4
        omega
      · exact h3
    · rintro ⟨hdef, ⟨p, hp, hpv⟩, hbound⟩
      obtain ⟨r, hr, -, h2, h3⟩ := foldlM_min _ b.emptyCells hdef INT_MAX
      rw [hr]
      have h4 := h2 p hp v hpv
      rcases h3 with h3 | ⟨q, hq, hqr⟩
      · have h5 := hval p hp v hpv
        rw [h3] at h4
        simp only [INT_MAX] at h4
        omega
      · have h5 := hbound q hq r hqr
        rw [le_antisymm h4 h5]

/-- A fold that returns still returns the same when every step is replaced by one that
agrees with it wherever it returns. -/
theorem foldlM_mono_mem {σ α : Type} (F G : σ → α → Option σ) (l : List α)
    (h : ∀ st, ∀ p ∈ l, ∀ r, F st p = some r → G st p = some r) :
    ∀ init r, l.foldlM F init = some r → l.foldlM G init = some r := by
  induction l with
  | nil => intro init r hr; exact hr
  | cons a l ih =>
    intro init r hr
    rw [List.foldlM_cons] at hr
    cases hF : F init a with
    | none => simp [hF] at hr
    | some st =>
      rw [hF] at hr
      rw [List.foldlM_cons, h init a (List.mem_cons_self _ _) st hF]
      exact ih (fun st p hp => h st p (List.mem_cons_of_mem _ hp)) st r hr

/-- More fuel does not change a result of the search. -/
theorem minimax_fuel_succ (s : Symbol) (fuel : Nat) :
    ∀ (b : Board) (depth : Int) (isMax : Bool) (v : Int), b.GridShape → 1 ≤ b.size →
      MinimaxAI.minimax fuel b depth isMax s = some v →
      MinimaxAI.minimax (fuel + 1) b depth isMax s = some v := by
  induction fuel with
  | zero =>
    intro b depth isMax v _ _ h
    simp [MinimaxAI.minimax] at h
  | succ fuel ih =>
    intro b depth isMax v hb hN h
    by_cases hmin : ¬ (INT_MIN < depth)
    · rw [minimax_succ_overflow hb hN (by omega)] at h ⊢
      exact h
    rw [minimax_succ hb hN (not_not.1 hmin)] at h ⊢
    by_cases hw : b.firstMatch ≠ Symbol.None
    · rw [if_pos hw] at h ⊢
      exact h
    · rw [if_neg hw] at h ⊢
      by_cases he : b.emptyCells = []
      · rw [if_pos he] at h ⊢
        exact h
      · rw [if_neg he] at h ⊢
        by_cases hd : depth = 0
        · rw [if_pos hd] at h ⊢
          exact h
        · rw [if_neg hd] at h ⊢
          refine foldlM_mono_mem _ _ _ ?_ _ _ h
          intro st p hp r hr
          obtain ⟨hsize, hshape, -, -⟩ := place_spec hp (if isMax then s else b.getOpponent s)
          cases hc : MinimaxAI.minimax fuel (b.place p (if isMax then s else b.getOpponent s))
              (depth - 1) (!isMax) s with
          | none => simp [hc] at hr
          | some w =>
            rw [hc] at hr
            rw [ih _ _ _ w (hshape hb) (by omega) hc]
            exact hr

theorem minimax_fuel_le (s : Symbol) {b : Board} (hb : b.GridShape) (hN : 1 ≤ b.size)
    {fuel fuel1 : Nat} (hle : fuel ≤ fuel1) (depth : Int) (isMax : Bool) {v : Int}
    (h : MinimaxAI.minimax fuel b depth isMax s = some v) :
    MinimaxAI.minimax fuel1 b depth isMax s = some v := by
  induction fuel1 with
  | zero =>
    have : fuel = 0 := by omega
    subst this
    exact h
  | succ n ih =>
    by_cases hn : fuel ≤ n
    · exact minimax_fuel_succ s n b depth isMax v hb hN (ih hn)
    · have : fuel = n + 1 := by omega
      subst this
      exact h

/-- Depth saturation: two depths that both reach the number of empty cells give the
same search. -/
theorem minimax_saturate {s : Symbol} (hs : s ≠ Symbol.None) (fuel : Nat) :
    ∀ (b : Board) (d d1 : Int) (isMax : Bool), b.GridShape → 1 ≤ b.size →
      (b.emptyCells.length : Int) ≤ d → (b.emptyCells.length : Int) ≤ d1 →
      MinimaxAI.minimax fuel b d isMax s = MinimaxAI.minimax fuel b d1 isMax s := by
  induction fuel with
  | zero => intro b d d1 isMax _ _ _ _; rfl
  | succ fuel ih =>
    intro b d d1 isMax hb hN hd hd1
    have hmin : INT_MIN < d := by
      simp only [INT_MIN]
      omega
    have hmin1 : INT_MIN < d1 := by
      simp only [INT_MIN]
      omega
    rw [minimax_succ hb hN hmin, minimax_succ hb hN hmin1]
    by_cases hw : b.firstMatch ≠ Symbol.None
    · rw [if_pos hw, if_pos hw]
    · rw [if_neg hw, if_neg hw]
      by_cases he : b.emptyCells = []
      · rw [if_pos he, if_pos he]
      · rw [if_neg he, if_neg he]
        have hpos : 0 < b.emptyCells.length := List.length_pos.2 he
        have h0 : d ≠ 0 := by omega
        have h1 : d1 ≠ 0 := by omega
        rw [if_neg h0, if_neg h1]
        apply foldlM_congr_mem
        intro st p hp
        have hsym : (if isMax then s else b.getOpponent s) ≠ Symbol.None := by
          cases isMax
          · simpa using getOpponent_ne_none b hs
          · simpa using hs
        obtain ⟨hsize, hshape, -, -⟩ := place_spec hp (if isMax then s else b.getOpponent s)
        have hl := length_emptyCells_place hp hsym
        rw [ih _ (d - 1) (d1 - 1) (!isMax) (hshape hb) (by omega) (by omega) (by omega)]

/-- The move of `MinimaxAI::makeMove` is the same for all levels that reach the number
of empty cells less one. -/
theorem minimaxMakeMove_saturate {b : Board} (hb : b.GridShape) (hN : 1 ≤ b.size)
    {s : Symbol} (hs : s ≠ Symbol.None) (fuel : Nat) (level level1 : GameLevel)
    (hl : (b.emptyCells.length : Int) - 1 ≤ level.raw)
    (hl1 : (b.emptyCells.length : Int) - 1 ≤ level1.raw) :
    MinimaxAI.makeMove fuel level b s = MinimaxAI.makeMove fuel level1 b s := by
  rw [minimaxMakeMove_eq hb, minimaxMakeMove_eq hb]
  congr 1
  apply foldlM_congr_mem
  intro st p hp
  obtain ⟨hsize, hshape, -, -⟩ := place_spec hp s
  have hlen := length_emptyCells_place hp hs
  rw [minimax_saturate hs fuel _ level.raw level1.raw false (hshape hb) (by omega)
    (by omega) (by omega)]

/-- C31: the recursive case of `MinimaxAI::minimax`.  On a board of side at least one
for which `checkForWinner` returns `None` and `isBoardFull` returns false, at every
depth above 0, a call with one more unit of fuel than its children returns `v` exactly
when the child call for every empty cell returns (each is made with the acting symbol
placed there, the depth less one and the flag flipped; none is skipped), `v` is the
value of one of them and `v` is at least (maximizing) or at most (minimizing) the
value of every one.  For `X` and `O` the call does return once the fuel of the
children reaches the number of empty cells. -/
theorem minimax_recursive_case (b : Board) (hb : b.GridShape) (hN : 1 ≤ b.size)
    (hw : b.checkForWinner = some Symbol.None) (hfull : b.isBoardFull = some false)
    (depth : Int) (hd : 0 < depth) (isMax : Bool) (s : Symbol)
    (hs : s = Symbol.X ∨ s = Symbol.O) (fuel : Nat) :
    (∀ v, MinimaxAI.minimax (fuel + 1) b depth isMax s = some v ↔
      (∀ p ∈ b.emptyCells, ∃ w,
        MinimaxAI.minimax fuel (b.place p (if isMax then s else b.getOpponent s))
          (depth - 1) (!isMax) s = some w) ∧
      (∃ p ∈ b.emptyCells,
        MinimaxAI.minimax fuel (b.place p (if isMax then s else b.getOpponent s))
          (depth - 1) (!isMax) s = some v) ∧
      (∀ p ∈ b.emptyCells, ∀ w,
        MinimaxAI.minimax fuel (b.place p (if isMax then s else b.getOpponent s))
          (depth - 1) (!isMax) s = some w → if isMax then w ≤ v else v ≤ w)) ∧
    (b.emptyCells.length ≤ fuel →
      ∃ v, MinimaxAI.minimax (fuel + 1) b depth isMax s = some v) := by
  rw [checkForWinner_eq_firstMatch_aux hb hN] at hw
  rw [isBoardFull_eq_emptyCells hb] at hfull
  have hw1 : b.firstMatch = Symbol.None := Option.some.inj hw
  have he : b.emptyCells ≠ [] := by
    intro h
    rw [h] at hfull
    simp at hfull
  have hsn : s ≠ Symbol.None := by
    rcases hs with rfl | rfl <;> decide
  refine ⟨fun v => minimax_recursive_iff hb hN hw1 he hd fuel isMax s v, ?_⟩
  intro hlen
  obtain ⟨v, hv, -⟩ := minimax_total hsn (fuel + 1) b depth isMax hb hN (by omega)
    (Or.inl (by omega))
  exact ⟨v, hv⟩

/-- An instance of C31: on `sampleBoard`, which has five empty cells and no complete
line, the maximizing search for `X` at depth 1 returns. -/
theorem minimax_recursive_case_witness :
    sampleBoard.emptyCells.length = 5 ∧
    ∃ v, MinimaxAI.minimax 6 sampleBoard 1 true Symbol.X = some v :=
  ⟨by decide,
   (minimax_recursive_case sampleBoard (by decide) (by decide) (by decide) (by decide) 1
     (by decide) true Symbol.X (Or.inl rfl) 5).2 (by decide)⟩

/-- C32: on every board of side at least one, for every fuel, depth, maximizing flag
and symbol, a result of `MinimaxAI::minimax` is `-10`, `0` or `+10`; in particular it
is neither of the sentinels `INT_MAX` and `-INT_MAX`. -/
theorem minimax_result_range (b : Board) (hb : b.GridShape) (hN : 1 ≤ b.size) (fuel : Nat)
    (depth : Int) (isMax : Bool) (s : Symbol) (v : Int)
    (h : MinimaxAI.minimax fuel b depth isMax s = some v) :
    (v = -10 ∨ v = 0 ∨ v = 10) ∧ v ≠ INT_MAX ∧ v ≠ -INT_MAX := by
  have hv := minimax_values s fuel b depth isMax v hb hN h
  refine ⟨hv, ?_, ?_⟩ <;> simp only [INT_MAX] <;> omega

/-- An instance of C32: the minimizing search for `O` on `scenarioBoard`, where `X` has
completed row 0, returns `-10`. -/
theorem minimax_result_range_witness :
    MinimaxAI.minimax 1 scenarioBoard 3 false Symbol.O = some (-10) ∧
    ((-10 : Int) = -10 ∨ (-10 : Int) = 0 ∨ (-10 : Int) = 10) ∧
    (-10 : Int) ≠ INT_MAX ∧ (-10 : Int) ≠ -INT_MAX :=
  ⟨by decide,
   minimax_result_range scenarioBoard (by decide) (by decide) 1 3 false Symbol.O (-10)
     (by decide)⟩

/-- C33, as stated, fails.  At the depth `INT_MIN` on the empty 3 x 3 board the first
nested call of the search computes `INT_MIN - 1`, a signed overflow, so the call has
no defined result whatever the fuel.  And on the board of side 0, which the
constructor makes for `N = 0`, `checkForWinner` reads the cell at row 0, column 0,
which does not exist, so the search has no defined result at any depth. -/
theorem minimax_terminates_counterexample :
    (emptyBoard 3).GridShape ∧ (emptyBoard 3).emptyCells.length = 9 ∧
    (∀ fuel isMax, MinimaxAI.minimax fuel (emptyBoard 3) INT_MIN isMax Symbol.X = none) ∧
    Board.construct 0 = some (emptyBoard 0) ∧ (emptyBoard 0).GridShape ∧
    (emptyBoard 0).checkForWinner = none ∧
    (∀ fuel depth isMax, MinimaxAI.minimax fuel (emptyBoard 0) depth isMax Symbol.X = none) := by
  refine ⟨by decide, by decide, ?_, by decide, by decide, by decide, ?_⟩
  · intro fuel isMax
    exact minimax_overflow (by decide) (by decide) (by decide) (by decide) (le_refl _) fuel
      isMax Symbol.X
  · intro fuel depth isMax
    cases fuel with
    | zero => rfl
    | succ fuel =>
      have hw : (emptyBoard 0).checkForWinner = none := by decide
      rw [MinimaxAI.minimax, hw]
      rfl

/-- C33, amended: `MinimaxAI::minimax` terminates on every board of side at least one,
for either flag, the symbols `X` and `O` and every depth that can be counted down
within `int`: every depth that is not negative, and every negative depth that lies at
least the number of empty cells above `INT_MIN` (for these the `depth == 0` cutoff
never fires).  With more fuel than the board has empty cells the call returns, and
every larger fuel gives the same result.  Each child call acts on a board with exactly
one empty cell fewer. -/
theorem minimax_terminates (b : Board) (hb : b.GridShape) (hN : 1 ≤ b.size) (s : Symbol)
    (hs : s = Symbol.X ∨ s = Symbol.O) (depth : Int) (isMax : Bool)
    (hrange : MinimaxAI.DepthInRange depth b.emptyCells.length) :
    (∀ fuel, b.emptyCells.length < fuel →
      ∃ v, MinimaxAI.minimax fuel b depth isMax s = some v ∧
        ∀ fuel1, fuel ≤ fuel1 → MinimaxAI.minimax fuel1 b depth isMax s = some v) ∧
    (∀ p ∈ b.emptyCells,
      (b.place p (if isMax then s else b.getOpponent s)).emptyCells.length + 1
        = b.emptyCells.length) := by
  have hsn : s ≠ Symbol.None := by
    rcases hs with rfl | rfl <;> decide
  constructor
  · intro fuel hfuel
    obtain ⟨v, hv, -⟩ := minimax_total hsn fuel b depth isMax hb hN hfuel hrange
    exact ⟨v, hv, fun fuel1 hle => minimax_fuel_le s hb hN hle depth isMax hv⟩
  · intro p hp
    have hsym : (if isMax then s else b.getOpponent s) ≠ Symbol.None := by
      cases isMax
      · simpa using getOpponent_ne_none b hsn
      · simpa using hsn
    exact length_emptyCells_place hp hsym

/-- An instance of the amended C33: on the empty 3 x 3 board the search for `X` at
depth `-1` returns with ten units of fuel. -/
theorem minimax_terminates_witness :
    (emptyBoard 3).emptyCells.length = 9 ∧
    ∃ v, MinimaxAI.minimax 10 (emptyBoard 3) (-1) true Symbol.X = some v ∧
      ∀ fuel1, 10 ≤ fuel1 → MinimaxAI.minimax fuel1 (emptyBoard 3) (-1) true Symbol.X = some v :=
  ⟨by decide,
   (minimax_terminates (emptyBoard 3) (by decide) (by decide) Symbol.X (Or.inl rfl) (-1)
     true (by decide)).1 10 (by decide)⟩

/-- C34: depth saturation.  On a board of side at least one with `e` empty cells, for
`X` and `O` and either flag, the search at every depth `d >= e` equals the search at
depth `e` (with any fuel, and both return with more fuel than `e`); and
`MinimaxAI::makeMove` returns the same cell for every two levels that are at least
`e - 1`, and does return at each of them once the fuel reaches `e`. -/
theorem minimax_depth_saturation (b : Board) (hb : b.GridShape) (hN : 1 ≤ b.size)
    (s : Symbol) (hs : s = Symbol.X ∨ s = Symbol.O) (isMax : Bool) (fuel : Nat) :
    (∀ d : Int, (b.emptyCells.length : Int) ≤ d →
      MinimaxAI.minimax fuel b d isMax s
        = MinimaxAI.minimax fuel b b.emptyCells.length isMax s) ∧
    (b.emptyCells.length < fuel →
      ∃ v, MinimaxAI.minimax fuel b b.emptyCells.length isMax s = some v) ∧
    (∀ level level1 : GameLevel, (b.emptyCells.length : Int) - 1 ≤ level.raw →
      (b.emptyCells.length : Int) - 1 ≤ level1.raw →
      MinimaxAI.makeMove fuel level b s = MinimaxAI.makeMove fuel level1 b s) ∧
    (b.emptyCells.length ≤ fuel → ∀ level : GameLevel,
      (b.emptyCells.length : Int) - 1 ≤ level.raw →
      ∃ m, MinimaxAI.makeMove fuel level b s = some m) := by
  have hsn : s ≠ Symbol.None := by
    rcases hs with rfl | rfl <;> decide
  refine ⟨?_, ?_, ?_, ?_⟩
  · intro d hd
    exact minimax_saturate hsn fuel b d _ isMax hb hN hd (le_refl _)
  · intro hfuel
    obtain ⟨v, hv, -⟩ := minimax_total hsn fuel b b.emptyCells.length isMax hb hN hfuel
      (Or.inl (by omega))
    exact ⟨v, hv⟩
  · intro level level1 hl hl1
    exact minimaxMakeMove_saturate hb hN hsn fuel level level1 hl hl1
  · intro hfuel level hl
    by_cases he : b.emptyCells = []
    · exact ⟨_, minimaxMakeMove_full hb he fuel level s⟩
    · have hpos : 0 < b.emptyCells.length := List.length_pos.2 he
      exact minimaxMakeMove_total hb hN fuel level hsn hfuel (Or.inl (by omega))

/-- An instance of C34: on `sampleBoard`, with five empty cells, the search at depth 20
equals the search at depth 5, and the levels `HARD` (5) and `MASTER` (20) choose the
same cell. -/
theorem minimax_depth_saturation_witness :
    sampleBoard.emptyCells.length = 5 ∧
    MinimaxAI.minimax 6 sampleBoard 20 true Symbol.X
      = MinimaxAI.minimax 6 sampleBoard 5 true Symbol.X ∧
    MinimaxAI.makeMove 6 GameLevel.HARD sampleBoard Symbol.X
      = MinimaxAI.makeMove 6 GameLevel.MASTER sampleBoard Symbol.X :=
  ⟨by decide,
   (minimax_depth_saturation sampleBoard (by decide) (by decide) Symbol.X (Or.inl rfl) true
     6).1 20 (by decide),
   (minimax_depth_saturation sampleBoard (by decide) (by decide) Symbol.X (Or.inl rfl) true
     6).2.2.1 GameLevel.HARD GameLevel.MASTER (by decide) (by decide)⟩

/-! ## The minimax strategy at level 0 -/

/-- The search at depth 0: the score of a decided board, and 0 otherwise. -/
theorem minimax_depth_zero {b : Board} (hb : b.GridShape) (hN : 1 ≤ b.size) (fuel : Nat)
    (isMax : Bool) (s : Symbol) :
    MinimaxAI.minimax (fuel + 1) b 0 isMax s =
      some (if b.firstMatch ≠ Symbol.None then
        (if b.firstMatch = s then DEFAULT_MAX_SCORE
          else if b.getOpponent s = b.firstMatch then DEFAULT_MIN_SCORE else 0)
        else 0) := by
  rw [minimax_succ hb hN (by decide)]
  by_cases hw : b.firstMatch ≠ Symbol.None
  · rw [if_pos hw, if_pos hw]
  · rw [if_neg hw, if_neg hw]
    by_cases he : b.emptyCells = []
    · rw [if_pos he]
    · rw [if_neg he, if_pos rfl]

/-- On a board without a complete line, after `X` or `O` is placed on an empty cell the
first-match scan reports that symbol exactly when a line of it is now complete, and
`None` otherwise. -/
theorem firstMatch_place {b : Board} (hb : b.GridShape) (hN : 1 ≤ b.size)
    (hw : b.firstMatch = Symbol.None) {p : QPoint} (hp : p ∈ b.emptyCells) {s : Symbol}
    (hs : s ≠ Symbol.None) :
    ((b.place p s).HasLine s → (b.place p s).firstMatch = s) ∧
    (¬ (b.place p s).HasLine s → (b.place p s).firstMatch = Symbol.None) := by
  have hlegal : b.legalMove p s = some (b.place p s) := by
    unfold Board.legalMove
    rw [checkForWinner_eq_firstMatch_aux hb hN, hw, makeMove_of_mem_emptyCells hp]
  obtain ⟨-, hsize, hlines⟩ := legalMove_lines hb hN hlegal
  have hN1 : 1 ≤ (b.place p s).size := by omega
  have hval : (b.place p s).firstMatch = s ∨ (b.place p s).firstMatch = Symbol.None := by
    unfold Board.firstMatch
    cases hf : (scanLines (b.place p s).size.toNat).findSome? (b.place p s).lineSymbol with
    | none => right; rfl
    | some t =>
      left
      obtain ⟨l, hl, hlt⟩ := List.exists_of_findSome?_eq_some hf
      exact (hlines l hl t hlt).1
  constructor
  · intro hline
    apply firstMatch_of_hasLine hN1 hs hline
    rintro ⟨l, hl, hu⟩
    have hne := scanLines_ne_nil (by omega) hl
    have hopp := getOpponent_ne_none (b.place p s) hs
    have hsym := lineSymbol_of_uniform hne hopp hu
    exact getOpponent_ne_self (b.place p s) hs (hlines l hl _ hsym).1
  · intro hline
    rcases hval with h | h
    · exact absurd (hasLine_of_firstMatch hs h) hline
    · exact h

/-- C35: at level 0 (`GameLevel::EASY`, the level of a newly created strategy), on a
board of side at least one for which `checkForWinner` returns `None` and which has an
empty cell, `MinimaxAI::makeMove` with `X` or `O` and at least one unit of fuel
returns an empty cell `m`.  If placing the symbol on some empty cell completes a line,
`m` is the first such cell in row-major order; otherwise `m` is the first empty cell
in row-major order.  Lines the opponent could complete play no part. -/
theorem minimaxMakeMove_level_zero (b : Board) (hb : b.GridShape) (hN : 1 ≤ b.size)
    (hw : b.checkForWinner = some Symbol.None) (he : b.emptyCells ≠ []) (s : Symbol)
    (hs : s = Symbol.X ∨ s = Symbol.O) (fuel : Nat) (hfuel : 1 ≤ fuel) :
    ∃ m, MinimaxAI.makeMove fuel GameLevel.EASY b s = some m ∧ m ∈ b.emptyCells ∧
      ((∃ p ∈ b.emptyCells, (b.place p s).HasLine s) →
        (b.place m s).HasLine s ∧
        ∀ q ∈ b.emptyCells, (b.place q s).HasLine s → m.RowMajorLE q) ∧
      ((¬ ∃ p ∈ b.emptyCells, (b.place p s).HasLine s) →
        ∀ q ∈ b.emptyCells, m.RowMajorLE q) := by
  obtain ⟨k, rfl⟩ : ∃ k, fuel = k + 1 := ⟨fuel - 1, by omega⟩
  rw [checkForWinner_eq_firstMatch_aux hb hN] at hw
  have hw1 : b.firstMatch = Symbol.None := Option.some.inj hw
  have hsn : s ≠ Symbol.None := by
    rcases hs with rfl | rfl <;> decide
  have hscore : ∀ p ∈ b.emptyCells,
      MinimaxAI.minimax (k + 1) (b.place p s) GameLevel.EASY.raw false s
        = some (if (b.place p s).HasLine s then 10 else 0) := by
    intro p hp
    obtain ⟨hsize, hshape, -, -⟩ := place_spec hp s
    obtain ⟨h1, h2⟩ := firstMatch_place hb hN hw1 hp hsn
    have hraw : GameLevel.EASY.raw = 0 := rfl
    rw [hraw, minimax_depth_zero (hshape hb) (by omega)]
    by_cases hl : (b.place p s).HasLine s
    · rw [if_pos hl, h1 hl, if_pos hsn, if_pos rfl]
      rfl
    · rw [if_neg hl, h2 hl, if_neg (not_not.2 rfl)]
  obtain ⟨m, v, hm, hmem, hv, hmax⟩ := minimaxMakeMove_of_scores hb (k + 1) GameLevel.EASY s he
    (fun p hp => ⟨_, hscore p hp, by split <;> simp [INT_MAX]⟩)
  have hvm := hscore m hmem
  rw [hv] at hvm
  refine ⟨m, hm, hmem, ?_, ?_⟩
  · rintro ⟨p, hp, hline⟩
    have hp10 := hscore p hp
    rw [if_pos hline] at hp10
    have hle := (hmax p hp 10 hp10).1
    by_cases hl : (b.place m s).HasLine s
    · refine ⟨hl, fun q hq hql => ?_⟩
      have hq10 := hscore q hq
      rw [if_pos hql] at hq10
      rw [if_pos hl] at hvm
      exact (hmax q hq 10 hq10).2 (Option.some.inj hvm).symm
    · rw [if_neg hl] at hvm
      have : v = 0 := Option.some.inj hvm
      omega
  · intro hno q hq
    have hq0 := hscore q hq
    rw [if_neg (fun h => hno ⟨q, hq, h⟩)] at hq0
    rw [if_neg (fun h => hno ⟨m, hmem, h⟩)] at hvm
    exact (hmax q hq 0 hq0).2 (Option.some.inj hvm).symm

/-- An instance of C35: on `threatBoard` the strategy at level 0, playing `X`, takes the
first empty cell (row 0, column 1) and leaves the cell (row 1, column 2) open, where
`O` completes row 1. -/
theorem minimaxMakeMove_level_zero_witness :
    MinimaxAI.makeMove 1 GameLevel.EASY threatBoard Symbol.X = some ⟨1, 0⟩ ∧
    (threatBoard.place ⟨2, 1⟩ Symbol.O).HasLine Symbol.O ∧
    ∃ m, MinimaxAI.makeMove 1 GameLevel.EASY threatBoard Symbol.X = some m ∧
      m ∈ threatBoard.emptyCells ∧
      ((∃ p ∈ threatBoard.emptyCells, (threatBoard.place p Symbol.X).HasLine Symbol.X) →
        (threatBoard.place m Symbol.X).HasLine Symbol.X ∧
        ∀ q ∈ threatBoard.emptyCells, (threatBoard.place q Symbol.X).HasLine Symbol.X →
          m.RowMajorLE q) ∧
      ((¬ ∃ p ∈ threatBoard.emptyCells, (threatBoard.place p Symbol.X).HasLine Symbol.X) →
        ∀ q ∈ threatBoard.emptyCells, m.RowMajorLE q) :=
  ⟨by decide, by decide,
   minimaxMakeMove_level_zero threatBoard (by decide) (by decide) (by decide) (by decide)
     Symbol.X (Or.inl rfl) 1 (by decide)⟩

/-! ## The level after a strategy swap -/

/-- Every strategy the factory makes has the level `EASY`. -/
theorem createAI_level {t : AIType} {ai : GameAI} (h : AIFactory.createAI t = some ai) :
    ai.level = GameLevel.EASY := by
  unfold AIFactory.createAI at h
  split at h
  · obtain rfl := Option.some.inj h; rfl
  · split at h
    · obtain rfl := Option.some.inj h; rfl
    · cases h

/-- C36: a strategy swap resets the level.  For every level `l` and every type `t`
other than the recorded one, after `setGameLevel(l)` the call `setAITypeComputer(t)`,
and likewise `startNewGame` with the AI type `t`, leaves the computer with what the
factory makes for `t`: a strategy of level `EASY` (0) whatever `l` was, or none for an
unknown type.  A following `setGameLevel(l1)` gives that strategy the level `l1`. -/
theorem strategy_swap_resets_level (g : TicTacToe) (l : GameLevel) (t : AIType)
    (hne : g.aitype_computer ≠ t) :
    ((g.setGameLevel l).setAITypeComputer t).computer.ai = AIFactory.createAI t ∧
    (∀ ai, ((g.setGameLevel l).setAITypeComputer t).computer.ai = some ai →
      ai.level = GameLevel.EASY) ∧
    (∀ l1, (((g.setGameLevel l).setAITypeComputer t).setGameLevel l1).computer.ai
      = (AIFactory.createAI t).map (fun ai => ⟨ai.kind, l1⟩)) ∧
    (∀ h n, g.board.GridShape → 0 ≤ n →
      ∃ g1, (g.setGameLevel l).startNewGame h t n = some g1 ∧
        g1.computer.ai = AIFactory.createAI t ∧
        ∀ ai, g1.computer.ai = some ai → ai.level = GameLevel.EASY) := by
  have hne1 : (g.setGameLevel l).aitype_computer ≠ t := hne
  have hswap := (setAITypeComputer_spec (g.setGameLevel l) t).2.2.2.2.2.2.2 hne1
  refine ⟨hswap, ?_, ?_, ?_⟩
  · intro ai hai
    rw [hswap] at hai
    exact createAI_level hai
  · intro l1
    rw [(setGameLevel_state _ l1).2.2.2.2.2.2, hswap]
    rfl
  · intro h n hb hn
    have hb1 : (g.setGameLevel l).board.GridShape := hb
    have heq := tttStartNewGame_eq hb1 h t hn
    have hai := (setAITypeComputer_spec
      ⟨emptyBoard n, (g.setGameLevel l).currentPlayer, (g.setGameLevel l).computer,
        (g.setGameLevel l).human, (g.setGameLevel l).aitype_computer⟩ t).2.2.2.2.2.2.2 hne1
    refine ⟨_, heq, hai, ?_⟩
    intro ai h1
    have h2 : AIFactory.createAI t = some ai := by
      rw [← hai]; exact h1
    exact createAI_level h2

/-- An instance of C36: in the state after `wonOps` (type `Minimax`) the level is set to
20 and the type is changed to `Random`; the new strategy has the level `EASY`. -/
theorem strategy_swap_resets_level_witness :
    ((wonGame.setGameLevel GameLevel.MASTER).setAITypeComputer AIType.Random).computer.ai
      = some ⟨AIKind.Random, GameLevel.EASY⟩ ∧
    (wonGame.setGameLevel GameLevel.MASTER).computer.ai
      = some ⟨AIKind.Minimax, GameLevel.MASTER⟩ :=
  ⟨(strategy_swap_resets_level wonGame GameLevel.MASTER AIType.Random (by decide)).1,
   by decide⟩

/-! ## The symbols of the two agents -/

/-- The symbols after one call: a `startNewGame` sets them, every other call keeps
them. -/
theorem step_symbols {g g1 : TicTacToe} {op : TicTacToeOp} (hs : g.step op = some g1) :
    (¬ op.IsStart →
      g1.human.symbol = g.human.symbol ∧ g1.computer.symbol = g.computer.symbol) ∧
    (∀ h t n, op = TicTacToeOp.startNewGame h t n →
      g1.human.symbol = h ∧ g1.computer.symbol = g1.board.getOpponent h) := by
  cases op with
  | startNewGame h t n =>
    refine ⟨fun hno => absurd trivial hno, ?_⟩
    intro h1 t1 n1 heq
    injection heq with e1 e2 e3
    subst e1 e2 e3
    simp only [TicTacToe.step, TicTacToe.startNewGame] at hs
    obtain ⟨board, -, hg⟩ := Option.map_eq_some'.1 hs
    subst hg
    exact ⟨rfl, rfl⟩
  | makeMove pos type rand fuel =>
    refine ⟨fun _ => ?_, fun h t n heq => by cases heq⟩
    simp only [TicTacToe.step] at hs
    obtain ⟨res, hm, hg⟩ := Option.map_eq_some'.1 hs
    subst hg
    have hm1 : TicTacToe.makeMove rand fuel g pos type = some (res.1, res.2) := hm
    obtain ⟨-, -, -, h4, h5, -⟩ := tttMakeMove_eq_some hm1
    exact ⟨h5, h4⟩
  | setGameLevel l =>
    refine ⟨fun _ => ?_, fun h t n heq => by cases heq⟩
    simp only [TicTacToe.step, Option.some.injEq] at hs
    subst hs
    exact ⟨rfl, (setGameLevel_state g l).2.2.1⟩
  | setAITypeComputer t =>
    refine ⟨fun _ => ?_, fun h t n heq => by cases heq⟩
    simp only [TicTacToe.step, Option.some.injEq] at hs
    subst hs
    obtain ⟨-, -, h3, h4, -⟩ := setAITypeComputer_spec g t
    exact ⟨by rw [h3], h4⟩

/-- Along a session whose `startNewGame` calls all pass `X` or `O`, the human's symbol
stays other than `None` and the computer holds its opponent. -/
theorem run_symbols (ops : List TicTacToeOp) :
    ∀ (g g1 : TicTacToe), g.human.symbol ≠ Symbol.None →
      g.computer.symbol = g.board.getOpponent g.human.symbol →
      (∀ h t n, TicTacToeOp.startNewGame h t n ∈ ops → h ≠ Symbol.None) →
      g.run ops = some g1 →
      g1.human.symbol ≠ Symbol.None ∧
        g1.computer.symbol = g1.board.getOpponent g1.human.symbol := by
  induction ops with
  | nil =>
    intro g g1 h1 h2 _ hr
    simp only [TicTacToe.run, Option.some.injEq] at hr
    subst hr
    exact ⟨h1, h2⟩
  | cons op ops ih =>
    intro g g1 h1 h2 hsym hr
    simp only [TicTacToe.run, Option.bind_eq_some] at hr
    obtain ⟨g2, hstep, hrest⟩ := hr
    obtain ⟨hkeep, hset⟩ := step_symbols hstep
    have hg2 : g2.human.symbol ≠ Symbol.None ∧
        g2.computer.symbol = g2.board.getOpponent g2.human.symbol := by
      cases op with
      | startNewGame h t n =>
        obtain ⟨e1, e2⟩ := hset h t n rfl
        rw [e1]
        exact ⟨hsym h t n (List.mem_cons_self _ _), e2⟩
      | makeMove pos type rand fuel =>
        obtain ⟨e1, e2⟩ := hkeep (fun h => h)
        rw [e1, e2]
        exact ⟨h1, h2⟩
      | setGameLevel l =>
        obtain ⟨e1, e2⟩ := hkeep (fun h => h)
        rw [e1, e2]
        exact ⟨h1, h2⟩
      | setAITypeComputer t =>
        obtain ⟨e1, e2⟩ := hkeep (fun h => h)
        rw [e1, e2]
        exact ⟨h1, h2⟩
    exact ih g2 g1 hg2.1 hg2.2 (fun h t n hm => hsym h t n (List.mem_cons_of_mem _ hm)) hrest

/-- C37: in every state reached from the constructor by admissible calls of
`startNewGame`, `makeMove`, `setGameLevel` and `setAITypeComputer`, where every
`startNewGame` passes `X` or `O`, both agents hold a symbol other than `None`, the two
symbols differ, and the computer's is the opponent of the human's.  A call other than
`startNewGame` keeps both symbols. -/
theorem symbols_invariant (ops : List TicTacToeOp) (g : TicTacToe)
    (hr : TicTacToe.ReachedBy ops g)
    (hsym : ∀ h t n, TicTacToeOp.startNewGame h t n ∈ ops → h = Symbol.X ∨ h = Symbol.O) :
    g.human.symbol ≠ Symbol.None ∧ g.computer.symbol ≠ Symbol.None ∧
    g.human.symbol ≠ g.computer.symbol ∧
    g.computer.symbol = g.board.getOpponent g.human.symbol ∧
    ∀ op g1, ¬ op.IsStart → g.step op = some g1 →
      g1.human.symbol = g.human.symbol ∧ g1.computer.symbol = g.computer.symbol := by
  obtain ⟨-, hrun⟩ := hr
  rw [tttNew_eq, Option.some_bind] at hrun
  obtain ⟨h1, h2⟩ := run_symbols ops idleGame g (by decide) (by decide)
    (fun h t n hm => by rcases hsym h t n hm with rfl | rfl <;> decide) hrun
  refine ⟨h1, ?_, ?_, h2, ?_⟩
  · rw [h2]; exact getOpponent_ne_none _ h1
  · rw [h2]; exact fun h => getOpponent_ne_self _ h1 h.symm
  · intro op g1 hno hstep
    exact (step_symbols hstep).1 hno

/-- An instance of C37: the state after `wonOps`, in which the human holds `X` and the
computer `O`. -/
theorem symbols_invariant_witness :
    wonGame.human.symbol = Symbol.X ∧ wonGame.computer.symbol = Symbol.O ∧
    wonGame.human.symbol ≠ Symbol.None ∧ wonGame.computer.symbol ≠ Symbol.None ∧
    wonGame.human.symbol ≠ wonGame.computer.symbol ∧
    wonGame.computer.symbol = wonGame.board.getOpponent wonGame.human.symbol ∧
    ∀ op g1, ¬ op.IsStart → wonGame.step op = some g1 →
      g1.human.symbol = wonGame.human.symbol ∧ g1.computer.symbol = wonGame.computer.symbol :=
  ⟨rfl, rfl, symbols_invariant wonOps wonGame ⟨by decide, by decide⟩
    (fun h t n hm => by
      simp only [wonOps, List.mem_cons, TicTacToeOp.startNewGame.injEq, List.mem_singleton,
        List.not_mem_nil, or_false] at hm
      rcases hm with ⟨rfl, -, -⟩ | hm | hm | hm
      · exact Or.inl rfl
      · cases hm
      · cases hm
      · cases hm)⟩

/-! ## Games whose moves need not alternate -/

/-- After a game from a board without a complete line, in which every move is made
while nobody has won, all complete lines hold one symbol. -/
theorem freePlay_lines (moves : List (QPoint × Symbol)) :
    ∀ (b b1 : Board), b.GridShape → 1 ≤ b.size →
      (∀ l ∈ scanLines b.size.toNat, b.lineSymbol l = none) →
      b.freePlay moves = some b1 →
      b1.GridShape ∧ b1.size = b.size ∧
      ∃ t, ∀ l ∈ scanLines b1.size.toNat, ∀ u, b1.lineSymbol l = some u → u = t := by
  induction moves with
  | nil =>
    intro b b1 hb _ hnone h
    simp only [Board.freePlay, Option.some.injEq] at h
    subst h
    refine ⟨hb, rfl, Symbol.None, ?_⟩
    intro l hl u hu
    rw [hnone l hl] at hu
    cases hu
  | cons m ms ih =>
    intro b b1 hb hN hnone h
    simp only [Board.freePlay, Option.bind_eq_some] at h
    obtain ⟨b2, hmove, hrest⟩ := h
    obtain ⟨hshape2, hsize2, hlines2⟩ := legalMove_lines hb hN hmove
    cases ms with
    | nil =>
      simp only [Board.freePlay, Option.some.injEq] at hrest
      subst hrest
      exact ⟨hshape2, hsize2, m.2, fun l hl u hu => (hlines2 l hl u hu).1⟩
    | cons m2 ms2 =>
      have hnone2 : ∀ l ∈ scanLines b2.size.toNat, b2.lineSymbol l = none := by
        have hr := hrest
        simp only [Board.freePlay, Option.bind_eq_some] at hr
        obtain ⟨b3, hmove3, -⟩ := hr
        obtain ⟨hw, -⟩ := legalMove_eq_some hmove3
        rw [checkForWinner_eq_firstMatch_aux hshape2 (by omega)] at hw
        exact (firstMatch_eq_none_iff b2).1 (Option.some.inj hw)
      obtain ⟨h1, h2, h3⟩ := ih b2 b1 hshape2 (by omega) hnone2 hrest
      exact ⟨h1, by rw [h2, hsize2], h3⟩

/-- When all complete lines hold one symbol, the first-match scan gives the same
result for every order that lists the same lines. -/
theorem firstMatchIn_eq {b : Board} {t : Symbol}
    (ht : ∀ l ∈ scanLines b.size.toNat, ∀ u, b.lineSymbol l = some u → u = t)
    {order : List (List (Nat × Nat))} (horder : ∀ l, l ∈ order ↔ l ∈ scanLines b.size.toNat) :
    b.firstMatchIn order = b.firstMatch := by
  unfold Board.firstMatchIn Board.firstMatch
  cases h1 : order.findSome? b.lineSymbol with
  | none =>
    cases h2 : (scanLines b.size.toNat).findSome? b.lineSymbol with
    | none => rfl
    | some u =>
      obtain ⟨l, hl, hlu⟩ := List.exists_of_findSome?_eq_some h2
      have := List.findSome?_eq_none_iff.1 h1 l ((horder l).2 hl)
      rw [this] at hlu
      cases hlu
  | some u =>
    obtain ⟨l, hl, hlu⟩ := List.exists_of_findSome?_eq_some h1
    have hu := ht l ((horder l).1 hl) u hlu
    cases h2 : (scanLines b.size.toNat).findSome? b.lineSymbol with
    | none =>
      have := List.findSome?_eq_none_iff.1 h2 l ((horder l).1 hl)
      rw [this] at hlu
      cases hlu
    | some w =>
      obtain ⟨l2, hl2, hlw⟩ := List.exists_of_findSome?_eq_some h2
      have hw := ht l2 hl2 w hlw
      rw [hu, hw]

/-- C38: on every board reached from the empty `N x N` board, `N >= 1`, by successful
`makeMove` calls with `X` or `O` in any succession, none made once `checkForWinner`
differs from `None`, all complete lines hold the same symbol.  Hence the first-match
scan in any order of the rows, columns and diagonals gives what `checkForWinner`
returns; `checkForWinner` returns `s`, for `s` in `{X, O}`, if and only if some full
line is uniformly `s`; and it returns `None` if and only if no line is complete.  The
symbols of the moves are not restricted: a move with `None` is accepted and changes
nothing. -/
theorem freePlay_lines_same_symbol (N : Int) (hN : 1 ≤ N) (moves : List (QPoint × Symbol))
    (b : Board)
    (h : (Board.construct N).bind (fun b0 => b0.freePlay moves) = some b) :
    (∀ l1 ∈ b.completeLines, ∀ l2 ∈ b.completeLines, b.lineSymbol l1 = b.lineSymbol l2) ∧
    (∀ order : List (List (Nat × Nat)), (∀ l, l ∈ order ↔ l ∈ scanLines b.size.toNat) →
      b.checkForWinner = some (b.firstMatchIn order)) ∧
    (∀ s, s = Symbol.X ∨ s = Symbol.O → (b.checkForWinner = some s ↔ b.HasLine s)) ∧
    (b.checkForWinner = some Symbol.None ↔ b.completeLines = []) := by
  rw [construct_eq (by omega), Option.some_bind] at h
  have hempty : ∀ l ∈ scanLines (emptyBoard N).size.toNat, (emptyBoard N).lineSymbol l = none :=
    fun l hl => emptyBoard_lineSymbol hN hl
  obtain ⟨hb, hsize, t, ht⟩ := freePlay_lines moves (emptyBoard N) b
    (emptyBoard_gridShape (by omega)) hN hempty h
  have hN1 : 1 ≤ b.size := by rw [hsize]; exact hN
  have hcw := checkForWinner_eq_firstMatch_aux hb hN1
  refine ⟨?_, ?_, ?_, ?_⟩
  · intro l1 h1 l2 h2
    obtain ⟨hl1, s1, hs1⟩ := mem_completeLines.1 h1
    obtain ⟨hl2, s2, hs2⟩ := mem_completeLines.1 h2
    rw [hs1, hs2, ht l1 hl1 s1 hs1, ht l2 hl2 s2 hs2]
  · intro order horder
    rw [hcw, firstMatchIn_eq ht horder]
  · intro s hs
    have hsn : s ≠ Symbol.None := by
      rcases hs with rfl | rfl <;> decide
    rw [hcw]
    constructor
    · intro hfm
      exact hasLine_of_firstMatch hsn (Option.some.inj hfm)
    · intro hline
      have hopp : ¬ b.HasLine (b.getOpponent s) := by
        rintro ⟨l2, hl2, hu2⟩
        obtain ⟨l1, hl1, hu1⟩ := hline
        have e1 := ht l1 hl1 s
          (lineSymbol_of_uniform (scanLines_ne_nil (by omega) hl1) hsn hu1)
        have e2 := ht l2 hl2 (b.getOpponent s)
          (lineSymbol_of_uniform (scanLines_ne_nil (by omega) hl2)
            (getOpponent_ne_none b hsn) hu2)
        exact getOpponent_ne_self b hsn (e2.trans e1.symm)
      rw [firstMatch_of_hasLine hN1 hsn hline hopp]
  · rw [hcw]
    constructor
    · intro hfm
      have hnone := (firstMatch_eq_none_iff b).1 (Option.some.inj hfm)
      rw [List.eq_nil_iff_forall_not_mem]
      intro l hl
      obtain ⟨hl1, s, hs⟩ := mem_completeLines.1 hl
      rw [hnone l hl1] at hs
      cases hs
    · intro hnil
      have hnone : ∀ l ∈ scanLines b.size.toNat, b.lineSymbol l = none := by
        intro l hl
        cases hls : b.lineSymbol l with
        | none => rfl
        | some s =>
          have : l ∈ b.completeLines := mem_completeLines.2 ⟨hl, s, hls⟩
          rw [hnil] at this
          cases this
      rw [(firstMatch_eq_none_iff b).2 hnone]

/-- An instance of C38: at the end of `crossMoves` row 0 and column 0 are complete, both
with `X`; `checkForWinner` returns `X`, and so does the scan in the reverse order. -/
theorem freePlay_lines_same_symbol_witness :
    crossBoard.completeLines = [rowLine 3 0, colLine 3 0] ∧
    crossBoard.firstMatchIn (scanLines 3).reverse = Symbol.X ∧
    (∀ l1 ∈ crossBoard.completeLines, ∀ l2 ∈ crossBoard.completeLines,
      crossBoard.lineSymbol l1 = crossBoard.lineSymbol l2) ∧
    crossBoard.checkForWinner = some (crossBoard.firstMatchIn (scanLines 3).reverse) ∧
    (crossBoard.checkForWinner = some Symbol.X ↔ crossBoard.HasLine Symbol.X) :=
  ⟨by decide, by decide,
   (freePlay_lines_same_symbol 3 (by decide) crossMoves crossBoard (by decide)).1,
   (freePlay_lines_same_symbol 3 (by decide) crossMoves crossBoard (by decide)).2.1
     (scanLines 3).reverse (fun l => List.mem_reverse),
   (freePlay_lines_same_symbol 3 (by decide) crossMoves crossBoard (by decide)).2.2.1
     Symbol.X (Or.inl rfl)⟩

/-! ## The symbol `None` as a move -/

/-- C39: `Board::makeMove` accepts the symbol `None`.  For every board and every empty
position in bounds, `makeMove(pos, None)` returns true and the board is exactly the
board before, so the cell still holds `None` and the number of empty cells is the
same; a `makeMove` with `X` or `O` there returns true, writes the symbol and leaves
exactly one empty cell fewer. -/
theorem makeMove_none_accepted (b : Board) (pos : QPoint) (hin : b.InBounds pos)
    (hc : b.cell pos.y pos.x = some Symbol.None) :
    b.makeMove pos Symbol.None = some (true, b) ∧
    (∀ s, s = Symbol.X ∨ s = Symbol.O →
      ∃ b1, b.makeMove pos s = some (true, b1) ∧ b1.cell pos.y pos.x = some s ∧
        b1.emptyCells.length + 1 = b.emptyCells.length) := by
  have hmem : pos ∈ b.emptyCells := mem_emptyCells.2 ⟨hin, hc⟩
  constructor
  · rw [makeMove_of_mem_emptyCells hmem, place_none hmem]
  · intro s hs
    have hsn : s ≠ Symbol.None := by
      rcases hs with rfl | rfl <;> decide
    exact ⟨_, makeMove_of_mem_emptyCells hmem s, (place_spec hmem s).2.2.1,
      length_emptyCells_place hmem hsn⟩

/-- An instance of C39: on `sampleBoard` the call `makeMove((row 0, column 2), None)`
returns true with the board unchanged, and the same call with `X` leaves four of the
five empty cells. -/
theorem makeMove_none_accepted_witness :
    sampleBoard.makeMove ⟨2, 0⟩ Symbol.None = some (true, sampleBoard) ∧
    sampleBoard.emptyCells.length = 5 ∧
    ∃ b1, sampleBoard.makeMove ⟨2, 0⟩ Symbol.X = some (true, b1) ∧
      b1.cell 0 2 = some Symbol.X ∧ b1.emptyCells.length + 1 = sampleBoard.emptyCells.length :=
  ⟨(makeMove_none_accepted sampleBoard ⟨2, 0⟩ (by decide) (by decide)).1, by decide,
   (makeMove_none_accepted sampleBoard ⟨2, 0⟩ (by decide) (by decide)).2 Symbol.X
     (Or.inl rfl)⟩

end tictactoe
